import Mathlib

/-!
# The golisp reader and writer (`lisp/syntax.go`)

A shallow embedding of the S-expression reader (`lex`, `listExpr`, the root
grammar, `Read`, `ReadString`) and of the writer (`toWrite`, `Write`,
`Display`), followed by the properties established about them.

Text is a sequence of characters (`List Char`, `String`); a character stands
for one unit read from the source.
-/

namespace Lisp

/-! ## Values -/

/-- Go values (`Any`) that flow through the reader and the writer.  `void` is
Go's `nil`; `float m s` denotes the decimal `m / 10 ^ s` (the rounding that
`strconv.Atof` applies is not represented); `failure` is the tagged error value
built by `Throw`; `typeError` is the one built by `TypeError`; `port` is a
snapshot of an I/O object with its capabilities, pending input and text written
so far. -/
inductive Value where
  | int (n : Int)
  | float (mantissa : Nat) (scale : Nat)
  | str (s : String)
  | bool (b : Bool)
  | void
  | symbol (name : String)
  | pair (car : Value) (cdr : Value)
  | emptyList
  | eof
  | failure (kind : String) (msg : String)
  | typeError (expected : String) (obj : Value)
  | port (canRead : Bool) (canWrite : Bool) (pending : String) (written : String)
  deriving DecidableEq, Repr

/-- Modelled from the spec: `EMPTY_LIST` is declared in another file of the
package; it is the single canonical empty-list sentinel, which is not a pair. -/
def EMPTY_LIST : Value := Value.emptyList

/-- Modelled from the spec: `EOF_OBJECT` is declared in another file of the
package; it is the single end-of-file sentinel, distinct from every parsed
value. -/
def EOF_OBJECT : Value := Value.eof

/-- Modelled from the spec: `Symbol` (declared in another file of the package)
interns a name; symbols with equal names are the same value. -/
def Symbol (name : String) : Value := Value.symbol name

/-- Modelled from the spec: `Cons` (declared in another file of the package)
allocates the pair of its two arguments. -/
def Cons (a d : Value) : Value := Value.pair a d

/-- Modelled from the spec: the variadic `List` of the package (declared in
another file) builds a pair chain terminated by the empty-list sentinel. -/
def mkList (xs : List Value) : Value := xs.foldr Cons EMPTY_LIST

/-- Modelled from the spec: `Throw` (declared in another file of the package)
builds a failure value tagged with a kind symbol and carrying a message. -/
def Throw (kind : String) (msg : String) : Value := Value.failure kind msg

/-- Modelled from the spec: `SyntaxError` (declared in another file of the
package) is the failure value of kind `syntax-error`. -/
def SyntaxError (msg : String) : Value := Throw "syntax-error" msg

/-- Go errors (`os.Error`): the two reported by the `strconv` conversions
(`os.EINVAL`, `os.ERANGE`), and any other error, given by its text. -/
inductive GoError where
  | EINVAL
  | ERANGE
  | other (msg : String)
  deriving DecidableEq, Repr

/-- Text of an error. -/
def GoError.text : GoError → String
  | GoError.EINVAL => "invalid argument"
  | GoError.ERANGE => "numerical result out of range"
  | GoError.other msg => msg

/-- Modelled from the spec: `SystemError` (declared in another file of the
package) wraps a Go error as the failure value of kind `system-error`. -/
def SystemError (err : GoError) : Value := Throw "system-error" err.text

/-- Modelled from the spec: `TypeError` (declared in another file of the
package) is the failure value of kind type-error; it names the expected
capability and carries the offending value. -/
def TypeError (expected : String) (obj : Value) : Value := Value.typeError expected obj

/-- Modelled from the spec: `Failed` (declared in another file of the package)
tells failure values from ordinary values; neither sentinel is a failure. -/
def Failed : Value → Bool
  | Value.failure _ _ => true
  | Value.typeError _ _ => true
  | _ => false

/-! ## Conversions of the Go library used by the semantic actions -/

/-- Width of Go's `int` for the Go release this source is written for
(`os.Error`, `strconv.Atof`): 32 bits on every platform. -/
def intSize : Nat := 32

/-- Value of a decimal digit character, if it is one. -/
def digitVal (c : Char) : Option Nat :=
  if c.toNat < 48 then none else if c.toNat ≤ 57 then some (c.toNat - 48) else none

/-- Decimal value of a run of digits read left to right on top of `acc`;
`none` when a character is not a digit. -/
def digitsVal : List Char → Nat → Option Nat
  | [], acc => some acc
  | c :: cs, acc =>
    match digitVal c with
    | some d => digitsVal cs (acc * 10 + d)
    | none => none

/-- `strconv.Atoi` on the magnitude after the sign has been removed. -/
def atoiMag (neg : Bool) (digits : List Char) : Except GoError Int :=
  match digits with
  | [] => Except.error GoError.EINVAL
  | _ =>
    match digitsVal digits 0 with
    | none => Except.error GoError.EINVAL
    | some m =>
      if neg then
        if m ≤ 2 ^ (intSize - 1) then Except.ok (-(m : Int)) else Except.error GoError.ERANGE
      else
        if m < 2 ^ (intSize - 1) then Except.ok (m : Int) else Except.error GoError.ERANGE

/-- `strconv.Atoi`: an optional sign, then one or more decimal digits, the
value having to fit Go's `int`. -/
def Atoi (s : String) : Except GoError Int :=
  match s.data with
  | [] => Except.error GoError.EINVAL
  | c :: cs =>
    if c = '+' then atoiMag false cs
    else if c = '-' then atoiMag true cs
    else atoiMag false (c :: cs)

/-- Splits a text at its first `.`: the part before it and, when there is
one, the part after it. -/
def splitDot : List Char → List Char × Option (List Char)
  | [] => ([], none)
  | c :: cs =>
    if c = '.' then ([], some cs)
    else
      let r := splitDot cs
      (c :: r.1, r.2)

/-- The least magnitude that `strconv.Atof` rounds beyond the largest finite
value of Go's `float`, 32 bits wide for the Go release this source is written
for: halfway between the largest finite value and `2 ^ 128`. -/
def floatLimit : Nat := 2 ^ 128 - 2 ^ 103

/-- The range check of `strconv.Atof` on the decimal `m / 10 ^ scale`. -/
def atofRange (m scale : Nat) : Except GoError (Nat × Nat) :=
  if floatLimit * 10 ^ scale ≤ m then Except.error GoError.ERANGE else Except.ok (m, scale)

/-- `strconv.Atof` on the lexemes of the Float pattern (digits, optionally a
point and more digits), as mantissa and decimal scale, a magnitude beyond the
range of `float` being an error.  Any other text is reported as a conversion
error; Go also accepts signs and exponents, which the scanner never hands to
the Float production. -/
def Atof (s : String) : Except GoError (Nat × Nat) :=
  match splitDot s.data with
  | ([], _) => Except.error GoError.EINVAL
  | (ip, none) =>
    match digitsVal ip 0 with
    | some m => atofRange m 0
    | none => Except.error GoError.EINVAL
  | (_, some []) => Except.error GoError.EINVAL
  | (ip, some fp) =>
    match digitsVal (ip ++ fp) 0 with
    | some m => atofRange m fp.length
    | none => Except.error GoError.EINVAL

/-- The double quote character. -/
def dquote : Char := Char.ofNat 34

/-- The backslash character. -/
def backslash : Char := Char.ofNat 92

/-- The single quote character. -/
def squote : Char := Char.ofNat 39

/-- The backquote character. -/
def bquote : Char := Char.ofNat 96

/-- Value of a hexadecimal digit character, if it is one. -/
def hexVal (c : Char) : Option Nat :=
  match digitVal c with
  | some d => some d
  | none =>
    if 97 ≤ c.toNat ∧ c.toNat ≤ 102 then some (c.toNat - 87)
    else if 65 ≤ c.toNat ∧ c.toNat ≤ 70 then some (c.toNat - 55)
    else none

/-- Value of `n` hexadecimal digits at the head of a text, with the rest. -/
def hexRun : Nat → List Char → Nat → Option (Nat × List Char)
  | 0, cs, acc => some (acc, cs)
  | _ + 1, [], _ => none
  | n + 1, c :: cs, acc =>
    match hexVal c with
    | some d => hexRun n cs (acc * 16 + d)
    | none => none

/-- Value of an octal digit character, if it is one. -/
def octVal (c : Char) : Option Nat :=
  if 48 ≤ c.toNat ∧ c.toNat ≤ 55 then some (c.toNat - 48) else none

/-- The escape sequences of `strconv.UnquoteChar` after a backslash inside a
literal delimited by `quote`: the decoded character and the rest of the text,
or `none` for a malformed escape. -/
def unquoteEscape (quote : Char) : List Char → Option (Char × List Char)
  | [] => none
  | c :: cs =>
    if c = 'a' then some (Char.ofNat 7, cs)
    else if c = 'b' then some (Char.ofNat 8, cs)
    else if c = 'f' then some (Char.ofNat 12, cs)
    else if c = 'n' then some (Char.ofNat 10, cs)
    else if c = 'r' then some (Char.ofNat 13, cs)
    else if c = 't' then some (Char.ofNat 9, cs)
    else if c = 'v' then some (Char.ofNat 11, cs)
    else if c = backslash then some (backslash, cs)
    else if c = squote ∨ c = dquote then
      if c = quote then some (c, cs) else none
    else if c = 'x' then
      match hexRun 2 cs 0 with
      | some (v, rest) => some (Char.ofNat v, rest)
      | none => none
    else if c = 'u' then
      match hexRun 4 cs 0 with
      | some (v, rest) => if Nat.isValidChar v then some (Char.ofNat v, rest) else none
      | none => none
    else if c = 'U' then
      match hexRun 8 cs 0 with
      | some (v, rest) => if Nat.isValidChar v then some (Char.ofNat v, rest) else none
      | none => none
    else
      match octVal c, cs with
      | some d1, c2 :: c3 :: rest =>
        match octVal c2, octVal c3 with
        | some d2, some d3 =>
          if d1 * 64 + d2 * 8 + d3 ≤ 255 then some (Char.ofNat (d1 * 64 + d2 * 8 + d3), rest)
          else none
        | _, _ => none
      | _, _ => none

/-- The decoding loop of `strconv.Unquote` over the interior of a literal:
`fuel` bounds the number of characters still to decode. -/
def unquoteBody (quote : Char) : Nat → List Char → Option (List Char)
  | _, [] => some []
  | 0, _ :: _ => none
  | fuel + 1, c :: cs =>
    if c = quote then none
    else if c = backslash then
      match unquoteEscape quote cs with
      | some (d, rest) =>
        match unquoteBody quote fuel rest with
        | some out => some (d :: out)
        | none => none
      | none => none
    else
      match unquoteBody quote fuel cs with
      | some out => some (c :: out)
      | none => none

/-- `strconv.Unquote`: the text must start and end with the same quote
character; a backquoted literal is taken raw, a double- or single-quoted one
may not contain a newline and has its escapes decoded (a single-quoted one
denotes exactly one character). -/
def Unquote (s : String) : Except GoError String :=
  match s.data with
  | [] => Except.error GoError.EINVAL
  | [_] => Except.error GoError.EINVAL
  | q :: rest =>
    if rest.getLast? ≠ some q then Except.error GoError.EINVAL
    else
      let body := rest.dropLast
      if q = bquote then
        if bquote ∈ body then Except.error GoError.EINVAL else Except.ok (String.mk body)
      else if q ≠ dquote ∧ q ≠ squote then Except.error GoError.EINVAL
      else if Char.ofNat 10 ∈ body then Except.error GoError.EINVAL
      else
        match unquoteBody q body.length body with
        | some out =>
          if q = squote ∧ out.length ≠ 1 then Except.error GoError.EINVAL
          else Except.ok (String.mk out)
        | none => Except.error GoError.EINVAL

/-! ## Regular expressions of the scanner -/

/-- Regular expressions over characters: the patterns of the `lex` table are
written in this form. -/
inductive Regex where
  | never
  | eps
  | cls (p : Char → Bool)
  | alt (a : Regex) (b : Regex)
  | cat (a : Regex) (b : Regex)
  | star (a : Regex)

namespace Regex

/-- One or more repetitions (`r+`). -/
def plus (r : Regex) : Regex := cat r (star r)

/-- Zero or one occurrence (`r?`). -/
def opt (r : Regex) : Regex := alt r eps

/-- A single given character. -/
def chr (c : Char) : Regex := cls (fun x => x == c)

/-- Any character outside a given set (`[^...]`). -/
def noneOf (cs : List Char) : Regex := cls (fun x => !(cs.contains x))

/-- Any character (the pattern `.`). -/
def any : Regex := cls (fun _ => true)

/-- Whether the expression accepts the empty text. -/
def nullable : Regex → Bool
  | never => false
  | eps => true
  | cls _ => false
  | alt a b => a.nullable || b.nullable
  | cat a b => a.nullable && b.nullable
  | star _ => true

/-- Derivative of the expression by one character: what remains to be
matched once that character has been read. -/
def deriv : Regex → Char → Regex
  | never, _ => never
  | eps, _ => never
  | cls p, c => if p c then eps else never
  | alt a b, c => alt (a.deriv c) (b.deriv c)
  | cat a b, c =>
    if a.nullable then alt (cat (a.deriv c) b) (b.deriv c) else cat (a.deriv c) b
  | star a, c => cat (a.deriv c) (star a)

/-- Length of the longest prefix of the text that the expression matches,
if it matches any prefix. -/
def longest : Regex → List Char → Option Nat
  | r, [] => if r.nullable then some 0 else none
  | r, c :: cs =>
    match longest (r.deriv c) cs with
    | some n => some (n + 1)
    | none => if r.nullable then some 0 else none

end Regex

/-! ## The lexical scanner -/

/-- The terminal kinds of `lisp/syntax.go`, in the order of their `iota`
numbering. -/
inductive Terminal where
  | _DOT
  | _LSTART
  | _LEND
  | _LSTART2
  | _LEND2
  | _INT
  | _FLOAT
  | _STR
  | _COMMENT
  | _WS
  | _QUOTE
  | _SYMBOL
  | _HASH
  deriving DecidableEq, Repr

open Terminal

/-- Modelled from the spec: the regex dialect of the lexer package is not in
the source; `\d` is a decimal digit. -/
def isDigit (c : Char) : Bool := 48 ≤ c.toNat && c.toNat ≤ 57

/-- Modelled from the spec: the regex dialect of the lexer package is not in
the source; `\s` is taken to be the four whitespace characters that the
Symbol pattern itself excludes: space, tab, newline and carriage return. -/
def isSpace (c : Char) : Bool := c == ' ' || c == '\t' || c == '\n' || c == '\r'

/-- The characters excluded by the Symbol pattern. -/
def symbolExcluded : List Char :=
  ['#', '(', ')', dquote, '\n', '\r', '\t', '[', ']', squote, bquote, ',', '@', ' ']

/-- The pattern table `lex`, one entry per terminal in numbering order:
`\.`, `\(`, `\)`, `\[`, `\]`, `\d+`, `\d+(\.\d+)?`, `"([^"]|\.)*"`, `;[^\n]*`,
`\s+`, the four quote markers, the Symbol character class repeated, and
`#.`. -/
def lex : List (Terminal × Regex) :=
  [ (_DOT, Regex.chr '.'),
    (_LSTART, Regex.chr '('),
    (_LEND, Regex.chr ')'),
    (_LSTART2, Regex.chr '['),
    (_LEND2, Regex.chr ']'),
    (_INT, Regex.plus (Regex.cls isDigit)),
    (_FLOAT, Regex.cat (Regex.plus (Regex.cls isDigit))
      (Regex.opt (Regex.cat (Regex.chr '.') (Regex.plus (Regex.cls isDigit))))),
    (_STR, Regex.cat (Regex.chr dquote)
      (Regex.cat (Regex.star (Regex.alt (Regex.noneOf [dquote]) (Regex.chr '.')))
        (Regex.chr dquote))),
    (_COMMENT, Regex.cat (Regex.chr ';') (Regex.star (Regex.noneOf ['\n']))),
    (_WS, Regex.plus (Regex.cls isSpace)),
    (_QUOTE, Regex.alt (Regex.chr squote) (Regex.alt (Regex.chr bquote)
      (Regex.alt (Regex.chr ',') (Regex.cat (Regex.chr ',') (Regex.chr '@'))))),
    (_SYMBOL, Regex.plus (Regex.noneOf symbolExcluded)),
    (_HASH, Regex.cat (Regex.chr '#') Regex.any) ]

/-- One step of the choice among patterns: a later pattern replaces the
candidate only with a strictly longer match. -/
def pick (src : List Char) (best : Option (Terminal × Nat)) (e : Terminal × Regex) :
    Option (Terminal × Nat) :=
  match e.2.longest src with
  | none => best
  | some n =>
    match best with
    | none => some (e.1, n)
    | some (k, m) => if m < n then some (e.1, n) else some (k, m)

/-- Modelled from the spec: the engine of the lexer package is not in the
source.  At the current position the longest prefix matched by any pattern
wins, and among patterns with a match of that length the first in table order;
`none` when no pattern matches. -/
def lexStep (src : List Char) : Option (Terminal × Nat) :=
  lex.foldl (pick src) none

/-- A token: its terminal kind and its lexeme. -/
structure Token where
  kind : Terminal
  lexeme : String
  deriving DecidableEq, Repr

/-- The token filter that `Read` hands to `peg.NewLex`: whitespace and
comments are dropped. -/
def keep (id : Terminal) : Bool := id != _WS && id != _COMMENT

/-- The filtered token stream of a text; the flag tells whether the scan
reached the end of the text (`true`) or stopped at unmatched input
(`false`).  `fuel` bounds the number of scan steps. -/
def tokens : Nat → List Char → List Token × Bool
  | 0, _ => ([], false)
  | _ + 1, [] => ([], true)
  | fuel + 1, c :: cs =>
    match lexStep (c :: cs) with
    | none => ([], false)
    | some (k, n) =>
      let r := tokens fuel ((c :: cs).drop n)
      if keep k then (⟨k, String.mk ((c :: cs).take n)⟩ :: r.1, r.2) else r

/-- The token source that the grammar consumes: the pending filtered tokens,
and whether the stream ends at the end of the input rather than at a scan
failure. -/
structure Stream where
  toks : List Token
  clean : Bool
  deriving DecidableEq, Repr

/-- Modelled from the spec: `peg.NewLex` binds the scanner, with the token
filter, to a character source.  Every scan step consumes at least one
character, so the length of the text bounds the number of steps. -/
def NewLex (src : List Char) : Stream :=
  let r := tokens (src.length + 1) src
  ⟨r.1, r.2⟩

/-! ## Parsing expressions -/

/-- Outcome of matching a parsing expression against a token stream: a
result with the tokens left, or a match failure. -/
inductive Outcome (α : Type) where
  | ok (v : α) (rest : List Token)
  | fail
  deriving DecidableEq, Repr

/-- A parsing expression.  The answer `none` stands for the absence of any
outcome: the step bound ran out, or a semantic action hit a Go run-time
panic. -/
abbrev Parser (α : Type) := List Token → Option (Outcome α)

/-- Modelled from the spec: a `peg.Terminal` matches one token of its kind
and yields the lexeme. -/
def term (k : Terminal) : Parser String
  | [] => some Outcome.fail
  | t :: rest => if t.kind = k then some (Outcome.ok t.lexeme rest) else some Outcome.fail

/-- Modelled from the spec: `peg.Bind` applies a semantic action to the
result of a match (`none` from the action is a run-time panic). -/
def pegBind {α β : Type} (p : Parser α) (f : α → Option β) : Parser β := fun ts =>
  match p ts with
  | none => none
  | some Outcome.fail => some Outcome.fail
  | some (Outcome.ok v rest) =>
    match f v with
    | none => none
    | some w => some (Outcome.ok w rest)

/-- Modelled from the spec: `peg.And` of two expressions matches them in
sequence and yields both results. -/
def pegAnd {α β : Type} (p : Parser α) (q : Parser β) : Parser (α × β) := fun ts =>
  match p ts with
  | none => none
  | some Outcome.fail => some Outcome.fail
  | some (Outcome.ok a rest) =>
    match q rest with
    | none => none
    | some Outcome.fail => some Outcome.fail
    | some (Outcome.ok b rest2) => some (Outcome.ok (a, b) rest2)

/-- Modelled from the spec: `peg.And` of three expressions. -/
def pegAnd3 {α β γ : Type} (p : Parser α) (q : Parser β) (r : Parser γ) :
    Parser (α × β × γ) :=
  pegAnd p (pegAnd q r)

/-- Modelled from the spec: `peg.Option` yields the result of its expression
when it matches and an empty result, consuming nothing, when it does not. -/
def pegOption {α : Type} (p : Parser α) : Parser (Option α) := fun ts =>
  match p ts with
  | none => none
  | some Outcome.fail => some (Outcome.ok none ts)
  | some (Outcome.ok v rest) => some (Outcome.ok (some v) rest)

/-- Modelled from the spec: `peg.Multi` matches its expression zero or more
times, as often as it matches, and yields the results in order.  `fuel`
bounds the number of attempts. -/
def pegMulti {α : Type} : Nat → Parser α → Parser (List α)
  | 0, _, _ => none
  | fuel + 1, p, ts =>
    match p ts with
    | none => none
    | some Outcome.fail => some (Outcome.ok [] ts)
    | some (Outcome.ok v rest) =>
      match pegMulti fuel p rest with
      | none => none
      | some Outcome.fail => some Outcome.fail
      | some (Outcome.ok vs rest2) => some (Outcome.ok (v :: vs) rest2)

/-- Modelled from the spec: `peg.Or` is ordered choice, the first alternative
that matches wins. -/
def pegOr {α : Type} : List (Parser α) → Parser α
  | [], _ => some Outcome.fail
  | p :: ps, ts =>
    match p ts with
    | none => none
    | some Outcome.fail => pegOr ps ts
    | some (Outcome.ok v rest) => some (Outcome.ok v rest)

/-- Modelled from the spec: `peg.Eof` matches when the token stream is
exhausted at the end of the input. -/
def pegEof (clean : Bool) : Parser Unit
  | [] => if clean then some (Outcome.ok () []) else some Outcome.fail
  | _ :: _ => some Outcome.fail

/-- Modelled from the spec: `peg.Select(e, 1)` on the result of a sequence of
two expressions. -/
def select1of2 {α β : Type} (x : α × β) : Option β := some x.2

/-- Modelled from the spec: `peg.Select(e, 1)` on the result of a sequence of
three expressions. -/
def select1of3 {α β γ : Type} (x : α × β × γ) : Option β := some x.2.1

/-! ## The list builder -/

/-- The action bound to the optional dotted tail in `listExpr`: the tail
value when one was matched, the empty-list sentinel otherwise. -/
def tailAction (o : Option Value) : Value :=
  match o with
  | some v => v
  | none => EMPTY_LIST

/-- The loop of `listExpr` over the matched elements, taken from the last
one to the first: a failed element is returned at once, any other is consed
onto the accumulator. -/
def consBack : List Value → Value → Value
  | [], res => res
  | x :: xs, res => if Failed x then x else consBack xs (Cons x res)

/-- The action bound to the list body in `listExpr`: the tail when it is a
failure, else the elements folded onto it from last to first. -/
def innerAction (o : Option (List Value × Value)) : Value :=
  match o with
  | none => EMPTY_LIST
  | some (ls, res) => if Failed res then res else consBack ls.reverse res

/-- The production `listExpr(start, rec, end)`. -/
def listExpr (fuel : Nat) (start : Parser String) (rec : Parser Value)
    (fin : Parser String) : Parser Value :=
  let tail := pegBind (pegOption (pegBind (pegAnd (term _DOT) rec) select1of2))
    (fun o => some (tailAction o))
  let inner := pegBind (pegOption (pegAnd (pegMulti fuel rec) tail))
    (fun o => some (innerAction o))
  pegBind (pegAnd3 start inner fin) select1of3

/-! ## The grammar -/

/-- Action of the Int production. -/
def intAction (x : String) : Value :=
  match Atoi x with
  | Except.error err => SystemError err
  | Except.ok res => Value.int res

/-- Action of the Float production. -/
def floatAction (x : String) : Value :=
  match Atof x with
  | Except.error err => SystemError err
  | Except.ok res => Value.float res.1 res.2

/-- Action of the Str production. -/
def strAction (x : String) : Value :=
  match Unquote x with
  | Except.error err => SystemError err
  | Except.ok res => Value.str res

/-- Action of the quote-family production, on the marker lexeme and the
value of the expression that follows. -/
def quoteAction (qu : String × Value) : Value :=
  if qu.1 = "\x27" then mkList [Symbol "quote", qu.2]
  else if qu.1 = "\x60" then mkList [Symbol "quasiquote", qu.2]
  else if qu.1 = "," then mkList [Symbol "unquote", qu.2]
  else mkList [Symbol "unquote-splicing", qu.2]

/-- Action of the Symbol production. -/
def symbolAction (x : String) : Value := Symbol x

/-- Action of the hash-literal production: dispatch on `s[1]`; indexing a
lexeme shorter than two characters is a run-time panic (`none`). -/
def hashAction (s : String) : Option Value :=
  match s.data.get? 1 with
  | none => none
  | some c =>
    if c = 'v' then some Value.void
    else if c = 'f' then some (Value.bool false)
    else if c = 't' then some (Value.bool true)
    else some (SyntaxError ("unknown hash syntax: " ++ s))

/-- The root grammar, `syntax` in the source, under the name of the local
variable `expr` that builds it: an ordered choice of eight productions that
refers to itself.  `fuel` bounds the nesting depth and the number of list
elements; with no fuel left there is no outcome. -/
def expr : Nat → Parser Value
  | 0 => fun _ => none
  | fuel + 1 =>
    pegOr
      [ pegBind (term _INT) (fun x => some (intAction x)),
        pegBind (term _FLOAT) (fun x => some (floatAction x)),
        pegBind (term _STR) (fun x => some (strAction x)),
        listExpr fuel (term _LSTART) (expr fuel) (term _LEND),
        listExpr fuel (term _LSTART2) (expr fuel) (term _LEND2),
        pegBind (pegAnd (term _QUOTE) (expr fuel)) (fun x => some (quoteAction x)),
        pegBind (term _SYMBOL) (fun x => some (symbolAction x)),
        pegBind (term _HASH) hashAction ]

/-! ## Reader entry points -/

/-- What one `Read` call on a byte source delivers into the one-byte buffer
of `ReadLine`: the next byte, or an error.  The end of the list of events is
the end of the source (`os.EOF`). -/
inductive ReadEvent where
  | byte (b : Char)
  | error (err : GoError)
  deriving DecidableEq, Repr

/-- The argument of `ReadLine`: a byte source (an `io.Reader`), given by the
events its reads will deliver, or a value without the read capability. -/
inductive LinePort where
  | reader (events : List ReadEvent)
  | other (v : Value)
  deriving DecidableEq, Repr

/-- The loop of `ReadLine`: `res` holds the bytes read so far.  The result is
the string and error returned, with the events left in the source. -/
def readLineLoop : List Char → List ReadEvent → (String × Value) × List ReadEvent
  | _, [] => (("", EOF_OBJECT), [])
  | _, ReadEvent.error err :: rest => (("", SystemError err), rest)
  | res, ReadEvent.byte b :: rest =>
    if b = '\n' then ((String.mk res, Value.void), rest)
    else readLineLoop (res ++ [b]) rest

/-- `ReadLine(port)`: the string and the error returned (`Value.void` for a
nil error), with the port after the call. -/
def ReadLine (port : LinePort) : (String × Value) × LinePort :=
  match port with
  | LinePort.other v => (("", TypeError "input-port" Value.void), LinePort.other v)
  | LinePort.reader events =>
    ((readLineLoop [] events).1, LinePort.reader (readLineLoop [] events).2)

/-- The match that `Read` runs on its token source: the root grammar or, at
the end of the input, the end-of-file sentinel; a match failure is the
syntax error with the fixed message.  The stream returned is the source after
the match (unchanged on a failure). -/
def readFrom (src : Stream) : Option (Value × Stream) :=
  match pegOr [expr (src.toks.length + 1),
      pegBind (pegEof src.clean) (fun _ => some EOF_OBJECT)] src.toks with
  | none => none
  | some Outcome.fail => some (Throw "syntax-error" "failed to parse", src)
  | some (Outcome.ok d rest) => some (d, ⟨rest, src.clean⟩)

/-- The text left in a source once `k` filtered tokens have been taken from
it. -/
def restText : Nat → Nat → List Char → List Char
  | 0, _, src => src
  | _ + 1, 0, src => src
  | fuel + 1, k + 1, src =>
    match lexStep src with
    | none => src
    | some (id, n) =>
      if keep id then restText fuel k (src.drop n) else restText fuel (k + 1) (src.drop n)

/-- `Read(port)`: a port without the read capability gives the type error
(built, as in the source, from the nil result of the failed type assertion);
otherwise one value is read from the pending text of the port.  The result
comes with the port after the call. -/
def Read (port : Value) : Option (Value × Value) :=
  match port with
  | Value.port true w pending written =>
    match readFrom (NewLex pending.data) with
    | none => none
    | some (d, rest) =>
      some (d, Value.port true w
        (String.mk (restText (pending.data.length + 1)
          ((NewLex pending.data).toks.length - rest.toks.length) pending.data)) written)
  | _ => some (TypeError "input-port" Value.void, port)

/-- `strings.NewReader(s)`: a readable port over the text. -/
def NewReader (s : String) : Value := Value.port true false s ""

/-- `ReadString(s)`. -/
def ReadString (s : String) : Option Value :=
  match Read (NewReader s) with
  | none => none
  | some r => some r.1

/-! ## Writer -/

/-- Decimal digits of a number, most significant first (`fuel` bounds the
number of digits). -/
def natDigits : Nat → Nat → List Char
  | 0, _ => []
  | fuel + 1, n =>
    if n < 10 then [Char.ofNat (48 + n)]
    else natDigits fuel (n / 10) ++ [Char.ofNat (48 + n % 10)]

/-- Go's decimal formatting of an integer (`%v` and `%#v` agree on it). -/
def formatInt (n : Int) : String :=
  if n < 0 then String.mk ('-' :: natDigits (n.natAbs + 1) n.natAbs)
  else String.mk (natDigits (n.natAbs + 1) n.natAbs)

/-- `fmt.Sprintf(def, obj)` for the two formats the writer uses: integers
print in decimal; the rendering of every other value is left to the
formatting collaborator `other`. -/
def Sprintf (other : String → Value → String) (fmt : String) (obj : Value) : String :=
  match obj with
  | Value.int n => formatInt n
  | v => other fmt v

/-- `toWrite(def, obj)`. -/
def toWrite (other : String → Value → String) (fmt : String) (obj : Value) : String :=
  match obj with
  | Value.void => "#v"
  | Value.bool b => if b then "#t" else "#f"
  | v => Sprintf other fmt v

/-- `Write(obj, port)`: the value returned and the port after the call. -/
def Write (other : String → Value → String) (obj port : Value) : Value × Value :=
  match port with
  | Value.port r true pending written =>
    (Value.void, Value.port r true pending (written ++ toWrite other "%#v" obj))
  | _ => (TypeError "output-port" port, port)

/-- `Display(obj, port)`: the value returned and the port after the call. -/
def Display (other : String → Value → String) (obj port : Value) : Value × Value :=
  match port with
  | Value.port r true pending written =>
    (Value.void, Value.port r true pending (written ++ toWrite other "%v" obj))
  | _ => (TypeError "output-port" port, port)

/-! ## Inputs named in the properties -/

/-- The six characters `"a\"b"`: a string literal whose interior holds a
double quote only as part of a backslash escape. -/
def escapedQuoteLiteral : String :=
  String.mk [dquote, 'a', backslash, dquote, 'b', dquote]

/-! ## Meaning of the patterns -/

/-- Denotation of a regular expression: the texts it matches in full. -/
inductive Regex.Matches : Regex → List Char → Prop
  | eps : Regex.Matches Regex.eps []
  | cls (p : Char → Bool) (c : Char) : p c = true → Regex.Matches (Regex.cls p) [c]
  | altL (a b : Regex) (s : List Char) : Regex.Matches a s → Regex.Matches (Regex.alt a b) s
  | altR (a b : Regex) (s : List Char) : Regex.Matches b s → Regex.Matches (Regex.alt a b) s
  | cat (a b : Regex) (s t : List Char) :
    Regex.Matches a s → Regex.Matches b t → Regex.Matches (Regex.cat a b) (s ++ t)
  | starNil (a : Regex) : Regex.Matches (Regex.star a) []
  | starCons (a : Regex) (s t : List Char) :
    Regex.Matches a s → Regex.Matches (Regex.star a) t → Regex.Matches (Regex.star a) (s ++ t)

/-! ## Whitespace, comments and token boundaries -/

/-- Whether a lexeme of the given kind can begin with the given character. -/
def firstOK (k : Terminal) (c : Char) : Bool :=
  match k with
  | _DOT => c == '.'
  | _LSTART => c == '('
  | _LEND => c == ')'
  | _LSTART2 => c == '['
  | _LEND2 => c == ']'
  | _INT => isDigit c
  | _FLOAT => isDigit c
  | _STR => c == dquote
  | _COMMENT => c == ';'
  | _WS => isSpace c
  | _QUOTE => c == squote || c == bquote || c == ','
  | _SYMBOL => !(symbolExcluded.contains c)
  | _HASH => c == '#'

/-- The text left once leading whitespace and `;`-comments are dropped; the
flag tells whether the position is inside a comment. -/
def skipGap : Bool → List Char → List Char
  | _, [] => []
  | false, c :: cs =>
    if isSpace c then skipGap false cs
    else if c = ';' then skipGap true cs
    else c :: cs
  | true, c :: cs => if c = '\n' then skipGap false cs else skipGap true cs

/-- A text that consists only of whitespace and `;`-comments. -/
def onlyGap (text : List Char) : Bool := (skipGap false text).isEmpty

/-- A separator: a nonempty text made of whitespace and of `;`-comments each
running to the end of its line, newline included.  The flag tells whether the
position is inside a comment. -/
def separatorFrom : Bool → List Char → Bool
  | inComment, [] => !inComment
  | false, c :: cs =>
    if isSpace c then separatorFrom false cs
    else if c = ';' then separatorFrom true cs
    else false
  | true, c :: cs => if c = '\n' then separatorFrom false cs else separatorFrom true cs

/-- A separator that may be inserted between two tokens. -/
def isSeparator (g : List Char) : Bool := !g.isEmpty && separatorFrom false g

/-- Whether `pre` ends at a boundary between two tokens of the unfiltered scan
of `pre ++ post` (whitespace and comment tokens included): `some last` when it
does, `last` being the kind of the token that ends there, or `none` at the
very start of the text. -/
def rawCut : Nat → List Char → List Char → Option (Option Terminal)
  | _, [], _ => some none
  | 0, _ :: _, _ => none
  | fuel + 1, c :: cs, post =>
    match lexStep (c :: cs ++ post) with
    | none => none
    | some (k, n) =>
      if n < (c :: cs).length then rawCut fuel ((c :: cs).drop n) post
      else if n = (c :: cs).length then some (some k)
      else none

/-- The kinds of token whose lexeme is made of Symbol characters only, so
that a `;` written right after it is scanned as part of a symbol. -/
def absorbsComment (last : Option Terminal) : Bool :=
  match last with
  | some _DOT => true
  | some _INT => true
  | some _FLOAT => true
  | some _SYMBOL => true
  | _ => false

/-- No token of the stream makes a semantic action panic: every Hash token
has a second character for `s[1]`. -/
def noPanic (ts : List Token) : Bool :=
  ts.all (fun t => t.kind != _HASH || (hashAction t.lexeme).isSome)

/-! ## Alternatives tried in the order written -/

/-- Modelled from the spec: greedy repetition when matching by ordered
trial.  `step` gives the texts left by one match of the repeated expression,
in order of trial; an iteration counts only when it consumes input, so the
length of the text bounds the number of iterations. -/
def Regex.starParses (step : List Char → List (List Char)) :
    Nat → List Char → List (List Char)
  | 0, s => [s]
  | n + 1, s =>
    ((step s).filter (fun r => r.length < s.length)).flatMap (Regex.starParses step n) ++ [s]

/-- Modelled from the spec: the engine of the lexer package is not in the
source, and the spec asks that the alternative `,@` be tried before `,`, which
is matching by ordered trial: the alternatives of a pattern are tried in the
order written and a repetition takes as much as it can.  The result lists the
texts left after each way of matching the start of the text, in order of
trial. -/
def Regex.parses : Regex → List Char → List (List Char)
  | Regex.never, _ => []
  | Regex.eps, s => [s]
  | Regex.cls _, [] => []
  | Regex.cls p, c :: cs => if p c then [cs] else []
  | Regex.alt a b, s => Regex.parses a s ++ Regex.parses b s
  | Regex.cat a b, s => (Regex.parses a s).flatMap (fun rest => Regex.parses b rest)
  | Regex.star a, s => Regex.starParses (fun t => Regex.parses a t) s.length s

/-- The number of characters matched under ordered trial: those taken by the
first way of matching, if there is one. -/
def Regex.first (r : Regex) (s : List Char) : Option Nat :=
  (r.parses s).head?.map (fun rest => s.length - rest.length)

/-- One step of the choice among patterns, as `pick`, with each pattern
matched by ordered trial. -/
def pickFirst (src : List Char) (best : Option (Terminal × Nat)) (e : Terminal × Regex) :
    Option (Terminal × Nat) :=
  match e.2.first src with
  | none => best
  | some n =>
    match best with
    | none => some (e.1, n)
    | some (k, m) => if m < n then some (e.1, n) else some (k, m)

/-- Modelled from the spec: one scan step over a pattern table, as `lexStep`,
with each pattern matched by ordered trial of its alternatives. -/
def lexStepFirst (table : List (Terminal × Regex)) (src : List Char) :
    Option (Terminal × Nat) :=
  table.foldl (pickFirst src) none

/-- The filtered token stream of a text, as `tokens`, over `lexStepFirst`. -/
def tokensFirst (table : List (Terminal × Regex)) : Nat → List Char → List Token × Bool
  | 0, _ => ([], false)
  | _ + 1, [] => ([], true)
  | fuel + 1, c :: cs =>
    match lexStepFirst table (c :: cs) with
    | none => ([], false)
    | some (k, n) =>
      let r := tokensFirst table fuel ((c :: cs).drop n)
      if keep k then (⟨k, String.mk ((c :: cs).take n)⟩ :: r.1, r.2) else r

/-- The token source of a text, as `NewLex`, over `tokensFirst`. -/
def NewLexFirst (table : List (Terminal × Regex)) (src : List Char) : Stream :=
  let r := tokensFirst table (src.length + 1) src
  ⟨r.1, r.2⟩

/-- The value that `ReadString(s)` returns when the scanner matches each
pattern of the table by ordered trial. -/
def ReadStringFirst (table : List (Terminal × Regex)) (s : String) : Option Value :=
  (readFrom (NewLexFirst table s.data)).map (fun r => r.1)

/-- The Quote pattern as the source writes it on line 40: the straight quote,
the backquote, `,`, and then `,@`. -/
def quotePattern : Regex :=
  Regex.alt (Regex.chr squote) (Regex.alt (Regex.chr bquote)
    (Regex.alt (Regex.chr ',') (Regex.cat (Regex.chr ',') (Regex.chr '@'))))

/-- Modelled from the spec: the Quote pattern with its alternatives in the
order the spec asks for, `,@` before `,`. -/
def quotePatternSpec : Regex :=
  Regex.alt (Regex.chr squote) (Regex.alt (Regex.chr bquote)
    (Regex.alt (Regex.cat (Regex.chr ',') (Regex.chr '@')) (Regex.chr ',')))

/-- Modelled from the spec: the table `lex` with the Quote pattern replaced by
`quotePatternSpec`. -/
def lexSpec : List (Terminal × Regex) :=
  lex.map (fun e => if e.1 = _QUOTE then (_QUOTE, quotePatternSpec) else e)

/-! # Properties -/

/-! ## The list builder -/

theorem consBack_no_failure (xs : List Value) (res : Value)
    (h : ∀ x ∈ xs, Failed x = false) :
    consBack xs res = xs.foldl (fun acc x => Cons x acc) res := by
  induction xs generalizing res with
  | nil => rfl
  | cons x xs ih =>
    have hx : Failed x = false := h x (List.mem_cons_self x xs)
    have hxs : ∀ y ∈ xs, Failed y = false := fun y hy => h y (List.mem_cons_of_mem x hy)
    simp [consBack, hx, ih _ hxs]

theorem innerAction_no_failure (es : List Value) (res : Value)
    (hes : ∀ e ∈ es, Failed e = false) (hres : Failed res = false) :
    innerAction (some (es, res)) = es.foldr Cons res := by
  have hrev : ∀ x ∈ es.reverse, Failed x = false := fun x hx => hes x (List.mem_reverse.mp hx)
  simp only [innerAction, hres, Bool.false_eq_true, if_false]
  rw [consBack_no_failure _ _ hrev, List.foldl_reverse]

theorem tailAction_no_failure (t : Option Value) (ht : ∀ v, t = some v → Failed v = false) :
    Failed (tailAction t) = false := by
  cases t with
  | none => rfl
  | some v => exact ht v rfl

theorem consBack_failure (xs : List Value) (res : Value)
    (h : ∃ x ∈ xs, Failed x = true) :
    Failed (consBack xs res) = true ∧ consBack xs res ∈ xs := by
  induction xs generalizing res with
  | nil => obtain ⟨x, hx, _⟩ := h; cases hx
  | cons y ys ih =>
    by_cases hy : Failed y = true
    · simp [consBack, hy]
    · have hys : ∃ x ∈ ys, Failed x = true := by
        obtain ⟨x, hx, hf⟩ := h
        rcases List.mem_cons.mp hx with rfl | hx
        · exact absurd hf hy
        · exact ⟨x, hx, hf⟩
      have := ih (Cons y res) hys
      simp only [consBack, hy, if_false]
      exact ⟨this.1, List.mem_cons_of_mem y this.2⟩

theorem innerAction_failure (es : List Value) (res : Value)
    (h : Failed res = true ∨ ∃ e ∈ es, Failed e = true) :
    Failed (innerAction (some (es, res))) = true ∧
      (innerAction (some (es, res)) = res ∨ innerAction (some (es, res)) ∈ es) := by
  by_cases hres : Failed res = true
  · simp [innerAction, hres]
  · have hes : ∃ x ∈ es.reverse, Failed x = true := by
      rcases h with h | ⟨e, he, hf⟩
      · exact absurd h hres
      · exact ⟨e, List.mem_reverse.mpr he, hf⟩
    have := consBack_failure es.reverse res hes
    simp only [innerAction, hres, if_false]
    exact ⟨this.1, Or.inr (List.mem_reverse.mp this.2)⟩

theorem pegBind_ok {α β : Type} (p : Parser α) (f : α → Option β) (ts rest : List Token)
    (v : α) (w : β) (hp : p ts = some (Outcome.ok v rest)) (hf : f v = some w) :
    pegBind p f ts = some (Outcome.ok w rest) := by
  simp [pegBind, hp, hf]

theorem pegAnd_ok {α β : Type} (p : Parser α) (q : Parser β) (ts r1 r2 : List Token)
    (a : α) (b : β) (hp : p ts = some (Outcome.ok a r1)) (hq : q r1 = some (Outcome.ok b r2)) :
    pegAnd p q ts = some (Outcome.ok (a, b) r2) := by
  simp [pegAnd, hp, hq]

theorem pegOption_ok {α : Type} (p : Parser α) (ts rest : List Token) (v : α)
    (hp : p ts = some (Outcome.ok v rest)) :
    pegOption p ts = some (Outcome.ok (some v) rest) := by
  simp [pegOption, hp]

/-- What `listExpr` returns once its parts have matched: the body action
applied to the matched elements and tail. -/
theorem listExpr_of_parts (fuel : Nat) (start fin : Parser String) (rec : Parser Value)
    (ts ts1 ts2 ts3 rest : List Token) (l0 l1 : String) (es : List Value) (t : Option Value)
    (hstart : start ts = some (Outcome.ok l0 ts1))
    (hmulti : pegMulti fuel rec ts1 = some (Outcome.ok es ts2))
    (htail : pegOption (pegBind (pegAnd (term _DOT) rec) select1of2) ts2
      = some (Outcome.ok t ts3))
    (hfin : fin ts3 = some (Outcome.ok l1 rest)) :
    listExpr fuel start rec fin ts
      = some (Outcome.ok (innerAction (some (es, tailAction t))) rest) := by
  unfold listExpr
  refine pegBind_ok _ _ ts rest (l0, innerAction (some (es, tailAction t)), l1) _ ?_ rfl
  refine pegAnd_ok _ _ ts ts1 rest _ _ hstart ?_
  refine pegAnd_ok _ _ ts1 ts3 rest _ _ ?_ hfin
  refine pegBind_ok _ _ ts1 ts3 (some (es, tailAction t)) _ ?_ rfl
  refine pegOption_ok _ ts1 ts3 _ ?_
  refine pegAnd_ok _ _ ts1 ts2 ts3 _ _ hmulti ?_
  exact pegBind_ok _ _ ts2 ts3 t _ htail rfl

/-- C1: when the parts of a list form have matched (the start token, the
elements `es`, the optional dotted tail `t`, the end token) and neither an
element nor the tail is a failure, `listExpr` returns the pair chain
`Cons(e1, Cons(e2, ... Cons(en, T)))` with `T` the tail when there is one and
the empty-list sentinel otherwise; `(a . b)` reads as the pair `(a, b)`,
`(a b . c)` as `(a, (b, c))`, `()` as the empty-list sentinel and `(. x)` as
`x` itself. -/
theorem listExpr_builds_pair_chain (fuel : Nat) (start fin : Parser String)
    (rec : Parser Value) (ts ts1 ts2 ts3 rest : List Token) (l0 l1 : String)
    (es : List Value) (t : Option Value)
    (hstart : start ts = some (Outcome.ok l0 ts1))
    (hmulti : pegMulti fuel rec ts1 = some (Outcome.ok es ts2))
    (htail : pegOption (pegBind (pegAnd (term _DOT) rec) select1of2) ts2
      = some (Outcome.ok t ts3))
    (hfin : fin ts3 = some (Outcome.ok l1 rest))
    (hes : ∀ e ∈ es, Failed e = false) (ht : ∀ v, t = some v → Failed v = false) :
    listExpr fuel start rec fin ts
        = some (Outcome.ok (es.foldr Cons (t.getD EMPTY_LIST)) rest)
      ∧ ReadString "(a . b)" = some (Cons (Symbol "a") (Symbol "b"))
      ∧ ReadString "(a b . c)" = some (Cons (Symbol "a") (Cons (Symbol "b") (Symbol "c")))
      ∧ ReadString "()" = some EMPTY_LIST
      ∧ ReadString "(. x)" = some (Symbol "x") := by
  refine ⟨?_, by decide, by decide, by decide, by decide⟩
  rw [listExpr_of_parts fuel start fin rec ts ts1 ts2 ts3 rest l0 l1 es t hstart hmulti htail hfin,
    innerAction_no_failure es _ hes (tailAction_no_failure t ht)]
  cases t <;> rfl

theorem listExpr_builds_pair_chain_witness :
    listExpr 3 (term _LSTART) (expr 3) (term _LEND) (NewLex "(a b . c)".data).toks
      = some (Outcome.ok
          ([Symbol "a", Symbol "b"].foldr Cons ((some (Symbol "c")).getD EMPTY_LIST)) []) :=
  (listExpr_builds_pair_chain 3 (term _LSTART) (term _LEND) (expr 3)
    (NewLex "(a b . c)".data).toks (NewLex "a b . c)".data).toks (NewLex ". c)".data).toks
    (NewLex ")".data).toks [] "(" ")" [Symbol "a", Symbol "b"] (some (Symbol "c"))
    (by decide) (by decide) (by decide) (by decide) (by decide) (by decide)).1

/-- C2: when the parts of a list form have matched and the dotted tail or at
least one element is a failure, `listExpr` returns a value that is a failure
and is the tail or one of the elements (so neither a pair nor the empty list);
`(1 2 #z)` reads as the same syntax error as `#z` alone, and so does
`(1 . #z)`, where only the tail fails. -/
theorem listExpr_failure_poisons (fuel : Nat) (start fin : Parser String)
    (rec : Parser Value) (ts ts1 ts2 ts3 rest : List Token) (l0 l1 : String)
    (es : List Value) (t : Option Value)
    (hstart : start ts = some (Outcome.ok l0 ts1))
    (hmulti : pegMulti fuel rec ts1 = some (Outcome.ok es ts2))
    (htail : pegOption (pegBind (pegAnd (term _DOT) rec) select1of2) ts2
      = some (Outcome.ok t ts3))
    (hfin : fin ts3 = some (Outcome.ok l1 rest))
    (hfail : (∃ v, t = some v ∧ Failed v = true) ∨ ∃ e ∈ es, Failed e = true) :
    (∃ v, listExpr fuel start rec fin ts = some (Outcome.ok v rest)
        ∧ Failed v = true ∧ (t = some v ∨ v ∈ es)
        ∧ (∀ a d, v ≠ Value.pair a d) ∧ v ≠ EMPTY_LIST)
      ∧ ReadString "#z" = some (SyntaxError "unknown hash syntax: #z")
      ∧ ReadString "(1 2 #z)" = ReadString "#z"
      ∧ ReadString "(1 . #z)" = ReadString "#z" := by
  refine ⟨?_, by decide, by decide, by decide⟩
  have hres : Failed (tailAction t) = true ∨ ∃ e ∈ es, Failed e = true := by
    rcases hfail with ⟨v, rfl, hv⟩ | h
    · exact Or.inl hv
    · exact Or.inr h
  have key := innerAction_failure es (tailAction t) hres
  refine ⟨innerAction (some (es, tailAction t)),
    listExpr_of_parts fuel start fin rec ts ts1 ts2 ts3 rest l0 l1 es t hstart hmulti htail hfin,
    key.1, ?_, ?_, ?_⟩
  · rcases key.2 with h | h
    · cases t with
      | none =>
        have h1 := key.1
        rw [h] at h1
        simp [tailAction, EMPTY_LIST, Failed] at h1
      | some v => exact Or.inl (by rw [h]; rfl)
    · exact Or.inr h
  · intro a d h
    have h1 := key.1
    rw [h] at h1
    simp [Failed] at h1
  · intro h
    have h1 := key.1
    rw [h] at h1
    simp [EMPTY_LIST, Failed] at h1

theorem listExpr_failure_poisons_witness :
    ∃ v, listExpr 3 (term _LSTART) (expr 3) (term _LEND) (NewLex "(1 . #z)".data).toks
          = some (Outcome.ok v [])
        ∧ Failed v = true
        ∧ (some (SyntaxError "unknown hash syntax: #z") = some v ∨ v ∈ [Value.int 1])
        ∧ (∀ a d, v ≠ Value.pair a d) ∧ v ≠ EMPTY_LIST :=
  (listExpr_failure_poisons 3 (term _LSTART) (term _LEND) (expr 3)
    (NewLex "(1 . #z)".data).toks (NewLex "1 . #z)".data).toks (NewLex ". #z)".data).toks
    (NewLex ")".data).toks [] "(" ")" [Value.int 1]
    (some (SyntaxError "unknown hash syntax: #z"))
    (by decide) (by decide) (by decide) (by decide)
    (Or.inl ⟨_, rfl, by decide⟩)).1

/-! ## The quote and hash productions -/

/-- C3: when the expression after a Quote token has value `x`, the root
grammar rewrites the marker `'` to the list `(quote x)`, the backquote to
`(quasiquote x)`, `,` to `(unquote x)` and `,@` to `(unquote-splicing x)`,
each built as `Cons(head symbol, Cons(x, empty-list sentinel))`. -/
theorem quote_production_rewrites (fuel : Nat) (ts rest : List Token) (x : Value)
    (hx : expr fuel ts = some (Outcome.ok x rest)) :
    expr (fuel + 1) (⟨_QUOTE, "\x27"⟩ :: ts)
        = some (Outcome.ok (Cons (Symbol "quote") (Cons x EMPTY_LIST)) rest)
      ∧ expr (fuel + 1) (⟨_QUOTE, "\x60"⟩ :: ts)
        = some (Outcome.ok (Cons (Symbol "quasiquote") (Cons x EMPTY_LIST)) rest)
      ∧ expr (fuel + 1) (⟨_QUOTE, ","⟩ :: ts)
        = some (Outcome.ok (Cons (Symbol "unquote") (Cons x EMPTY_LIST)) rest)
      ∧ expr (fuel + 1) (⟨_QUOTE, ",@"⟩ :: ts)
        = some (Outcome.ok (Cons (Symbol "unquote-splicing") (Cons x EMPTY_LIST)) rest) := by
  refine ⟨?_, ?_, ?_, ?_⟩ <;>
    simp [expr, pegOr, pegBind, pegAnd, pegAnd3, listExpr, term, hx, quoteAction, mkList]

theorem quote_production_rewrites_witness :
    expr 2 (⟨_QUOTE, "\x27"⟩ :: [⟨_SYMBOL, "x"⟩])
      = some (Outcome.ok (Cons (Symbol "quote") (Cons (Symbol "x") EMPTY_LIST)) []) :=
  (quote_production_rewrites 1 [⟨_SYMBOL, "x"⟩] [] (Symbol "x") (by decide)).1

/-- C4: on a Hash token the root grammar returns the void value for `#v`,
false for `#f`, true for `#t`, and for any other second character the syntax
error whose message is `unknown hash syntax: ` followed by the lexeme; the
result is a failure exactly when the second character is none of `v`, `f`,
`t`. -/
theorem hash_production_dispatch (fuel : Nat) (rest : List Token) (c : Char) :
    expr (fuel + 1) (⟨_HASH, "#v"⟩ :: rest) = some (Outcome.ok Value.void rest)
      ∧ expr (fuel + 1) (⟨_HASH, "#f"⟩ :: rest) = some (Outcome.ok (Value.bool false) rest)
      ∧ expr (fuel + 1) (⟨_HASH, "#t"⟩ :: rest) = some (Outcome.ok (Value.bool true) rest)
      ∧ (c ≠ 'v' ∧ c ≠ 'f' ∧ c ≠ 't' →
          expr (fuel + 1) (⟨_HASH, String.mk ['#', c]⟩ :: rest)
            = some (Outcome.ok
                (Value.failure "syntax-error" ("unknown hash syntax: " ++ String.mk ['#', c]))
                rest))
      ∧ ((∃ v, expr (fuel + 1) (⟨_HASH, String.mk ['#', c]⟩ :: rest) = some (Outcome.ok v rest)
            ∧ Failed v = true)
          ↔ (c ≠ 'v' ∧ c ≠ 'f' ∧ c ≠ 't')) := by
  have hv : expr (fuel + 1) (⟨_HASH, String.mk ['#', c]⟩ :: rest)
      = some (Outcome.ok
          (if c = 'v' then Value.void else if c = 'f' then Value.bool false
            else if c = 't' then Value.bool true
            else SyntaxError ("unknown hash syntax: " ++ String.mk ['#', c])) rest) := by
    simp only [expr, pegOr, pegBind, pegAnd, pegAnd3, listExpr, term, hashAction]
    simp
    split_ifs <;> rfl
  refine ⟨?_, ?_, ?_, ?_, ?_⟩
  · simp [expr, pegOr, pegBind, pegAnd, pegAnd3, listExpr, term, hashAction]
  · simp [expr, pegOr, pegBind, pegAnd, pegAnd3, listExpr, term, hashAction]
  · simp [expr, pegOr, pegBind, pegAnd, pegAnd3, listExpr, term, hashAction]
  · rintro ⟨h1, h2, h3⟩
    rw [hv]; simp [h1, h2, h3, SyntaxError, Throw]
  · rw [hv]
    constructor
    · rintro ⟨v, hv', hf⟩
      simp only [Option.some.injEq, Outcome.ok.injEq, and_true] at hv'
      subst hv'
      refine ⟨?_, ?_, ?_⟩ <;> rintro rfl <;> simp [Failed] at hf
    · rintro ⟨h1, h2, h3⟩
      exact ⟨_, rfl, by simp [h1, h2, h3, SyntaxError, Throw, Failed]⟩

theorem hash_production_dispatch_witness :
    expr 1 (⟨_HASH, String.mk ['#', 'z']⟩ :: [])
      = some (Outcome.ok
          (Value.failure "syntax-error" ("unknown hash syntax: " ++ String.mk ['#', 'z'])) []) :=
  (hash_production_dispatch 0 [] 'z').2.2.2.1 (by decide)

/-! ## Fixed tokens of the writer -/

/-- C8: whatever the formatter used for other values, `Write` and `Display`
append exactly `#v` for the void value, `#t` for true and `#f` for false to a
writable port, and `ReadString` of these texts gives back void, true and
false. -/
theorem write_display_fixed_tokens (other : String → Value → String) (r : Bool)
    (pending written : String) :
    Write other Value.void (Value.port r true pending written)
        = (Value.void, Value.port r true pending (written ++ "#v"))
      ∧ Write other (Value.bool true) (Value.port r true pending written)
        = (Value.void, Value.port r true pending (written ++ "#t"))
      ∧ Write other (Value.bool false) (Value.port r true pending written)
        = (Value.void, Value.port r true pending (written ++ "#f"))
      ∧ Display other Value.void (Value.port r true pending written)
        = (Value.void, Value.port r true pending (written ++ "#v"))
      ∧ Display other (Value.bool true) (Value.port r true pending written)
        = (Value.void, Value.port r true pending (written ++ "#t"))
      ∧ Display other (Value.bool false) (Value.port r true pending written)
        = (Value.void, Value.port r true pending (written ++ "#f"))
      ∧ ReadString (toWrite other "%#v" Value.void) = some Value.void
      ∧ ReadString (toWrite other "%#v" (Value.bool true)) = some (Value.bool true)
      ∧ ReadString (toWrite other "%#v" (Value.bool false)) = some (Value.bool false)
      ∧ ReadString (toWrite other "%v" Value.void) = some Value.void
      ∧ ReadString (toWrite other "%v" (Value.bool true)) = some (Value.bool true)
      ∧ ReadString (toWrite other "%v" (Value.bool false)) = some (Value.bool false) := by
  refine ⟨rfl, rfl, rfl, rfl, rfl, rfl, ?_, ?_, ?_, ?_, ?_, ?_⟩ <;>
    simp only [toWrite, if_true, Bool.false_eq_true, if_false] <;> decide

/-! ## String literals with an escaped quote -/

/-- C9 (the code departs from the claim): on the literal `"a\"b"` the Str
pattern stops at the escaped quote, so the scanner yields a Str token holding
only the first four characters, followed by the symbol `b` and a scan failure
at the last quote; the String production then fails to unquote the truncated
lexeme and `ReadString` returns a system error instead of the string `a"b`. -/
theorem str_escaped_quote_truncated :
    lexStep escapedQuoteLiteral.data = some (_STR, 4)
      ∧ NewLex escapedQuoteLiteral.data
        = ⟨[⟨_STR, String.mk [dquote, 'a', backslash, dquote]⟩, ⟨_SYMBOL, "b"⟩], false⟩
      ∧ ReadString escapedQuoteLiteral = some (SystemError GoError.EINVAL)
      ∧ ReadString escapedQuoteLiteral ≠ some (Value.str (String.mk ['a', dquote, 'b']))
      ∧ strAction escapedQuoteLiteral = Value.str (String.mk ['a', dquote, 'b']) := by
  decide

/-! ## Counterexamples -/

/-- C6 (as stated, refuted): `(a)` reads as the one-element list of the
symbol `a`, and its tokens are `(`, `a`, `)`; with the comment `;c` and its
newline inserted between the adjacent tokens `a` and `)` the text reads as
the list of the symbol `a;c`, a different value. -/
theorem comment_after_symbol_changes_value :
    NewLex "(a)".data = ⟨[⟨_LSTART, "("⟩, ⟨_SYMBOL, "a"⟩, ⟨_LEND, ")"⟩], true⟩
      ∧ ReadString "(a)" = some (Cons (Symbol "a") EMPTY_LIST)
      ∧ ReadString ("(a" ++ ";c\n" ++ ")") = some (Cons (Symbol "a;c") EMPTY_LIST)
      ∧ ReadString ("(a" ++ ";c\n" ++ ")") ≠ ReadString "(a)" := by
  decide

/-- C7 (as stated, refuted): `Write` emits `-5` for the integer -5, and
reading that text back gives the symbol named `-5`, not the integer. -/
theorem negative_int_reads_as_symbol :
    (Write (fun _ _ => "") (Value.int (-5)) (Value.port false true "" "")).2
        = Value.port false true "" "-5"
      ∧ ReadString (toWrite (fun _ _ => "") "%#v" (Value.int (-5))) = some (Symbol "-5")
      ∧ ReadString (toWrite (fun _ _ => "") "%#v" (Value.int (-5))) ≠ some (Value.int (-5)) := by
  decide

/-! ## Regular expressions: matching and longest prefix -/

namespace Regex

theorem matches_never (s : List Char) : ¬ Matches never s := by
  intro h; cases h

theorem matches_eps_iff (s : List Char) : Matches eps s ↔ s = [] := by
  constructor
  · intro h; cases h; rfl
  · rintro rfl; exact Matches.eps

theorem matches_cls_iff (p : Char → Bool) (s : List Char) :
    Matches (cls p) s ↔ ∃ c, s = [c] ∧ p c = true := by
  constructor
  · intro h; cases h with | cls _ c hc => exact ⟨c, rfl, hc⟩
  · rintro ⟨c, rfl, hc⟩; exact Matches.cls p c hc

theorem matches_alt_iff (a b : Regex) (s : List Char) :
    Matches (alt a b) s ↔ Matches a s ∨ Matches b s := by
  constructor
  · intro h
    cases h with
    | altL _ _ _ h => exact Or.inl h
    | altR _ _ _ h => exact Or.inr h
  · rintro (h | h)
    · exact Matches.altL a b s h
    · exact Matches.altR a b s h

theorem matches_cat_iff (a b : Regex) (s : List Char) :
    Matches (cat a b) s ↔ ∃ s1 s2, s = s1 ++ s2 ∧ Matches a s1 ∧ Matches b s2 := by
  constructor
  · intro h
    cases h with | cat _ _ s1 s2 h1 h2 => exact ⟨s1, s2, rfl, h1, h2⟩
  · rintro ⟨s1, s2, rfl, h1, h2⟩
    exact Matches.cat a b s1 s2 h1 h2

theorem nullable_iff (r : Regex) : r.nullable = true ↔ Matches r [] := by
  induction r with
  | never => simp [nullable, matches_never]
  | eps => simp [nullable, matches_eps_iff]
  | cls p => simp [nullable, matches_cls_iff]
  | alt a b iha ihb => simp [nullable, matches_alt_iff, iha, ihb]
  | cat a b iha ihb =>
    simp only [nullable, Bool.and_eq_true, iha, ihb, matches_cat_iff]
    constructor
    · rintro ⟨h1, h2⟩; exact ⟨[], [], rfl, h1, h2⟩
    · rintro ⟨s1, s2, h, h1, h2⟩
      have h' := h.symm
      rw [List.append_eq_nil] at h'
      obtain ⟨rfl, rfl⟩ := h'
      exact ⟨h1, h2⟩
  | star a _ => simp [nullable, Matches.starNil]

/-- A text matched by a star and starting with `c` splits into a first
iteration that starts with `c` and a remainder matched by the star. -/
theorem matches_star_cons (a : Regex) (c : Char) (s : List Char)
    (h : Matches (star a) (c :: s)) :
    ∃ s1 s2, s = s1 ++ s2 ∧ Matches a (c :: s1) ∧ Matches (star a) s2 := by
  generalize hr : star a = r at h
  generalize hs : c :: s = cs at h
  induction h generalizing s with
  | eps => cases hr
  | cls => cases hr
  | altL => cases hr
  | altR => cases hr
  | cat => cases hr
  | starNil => cases hs
  | starCons a' u t hu ht _ iht =>
    cases hr
    cases u with
    | nil => exact iht s rfl hs
    | cons d u' =>
      simp only [List.cons_append, List.cons.injEq] at hs
      obtain ⟨rfl, rfl⟩ := hs
      exact ⟨u', t, rfl, hu, ht⟩

theorem deriv_iff (r : Regex) (c : Char) (s : List Char) :
    Matches (r.deriv c) s ↔ Matches r (c :: s) := by
  induction r generalizing s with
  | never => simp [deriv, matches_never]
  | eps => simp [deriv, matches_never, matches_eps_iff]
  | cls p =>
    simp only [deriv, matches_cls_iff]
    by_cases hp : p c = true
    · simp only [hp, if_true, matches_eps_iff]
      constructor
      · rintro rfl; exact ⟨c, rfl, hp⟩
      · rintro ⟨d, hd, _⟩
        simp only [List.cons.injEq] at hd
        exact hd.2
    · simp only [hp, Bool.false_eq_true, if_false]
      constructor
      · intro h; exact absurd h (matches_never s)
      · rintro ⟨d, hd, hpd⟩
        simp only [List.cons.injEq] at hd
        rw [hd.1] at hp
        exact absurd hpd hp
  | alt a b iha ihb => simp [deriv, matches_alt_iff, iha, ihb]
  | cat a b iha ihb =>
    have key : Matches (cat a b) (c :: s) ↔
        (∃ s1 s2, s = s1 ++ s2 ∧ Matches a (c :: s1) ∧ Matches b s2)
          ∨ (Matches a [] ∧ Matches b (c :: s)) := by
      rw [matches_cat_iff]
      constructor
      · rintro ⟨s1, s2, h, h1, h2⟩
        cases s1 with
        | nil =>
          simp only [List.nil_append] at h
          subst h
          exact Or.inr ⟨h1, h2⟩
        | cons d s1' =>
          simp only [List.cons_append, List.cons.injEq] at h
          obtain ⟨rfl, rfl⟩ := h
          exact Or.inl ⟨s1', s2, rfl, h1, h2⟩
      · rintro (⟨s1, s2, rfl, h1, h2⟩ | ⟨h1, h2⟩)
        · exact ⟨c :: s1, s2, rfl, h1, h2⟩
        · exact ⟨[], c :: s, rfl, h1, h2⟩
    rw [key]
    by_cases hn : a.nullable = true
    · have hnil := (nullable_iff a).mp hn
      simp only [deriv, hn, if_true, matches_alt_iff, matches_cat_iff, iha, ihb]
      constructor
      · rintro (h | h)
        · exact Or.inl h
        · exact Or.inr ⟨hnil, h⟩
      · rintro (h | ⟨_, h⟩)
        · exact Or.inl h
        · exact Or.inr h
    · have hne : ¬ Matches a [] := fun h => hn ((nullable_iff a).mpr h)
      simp only [deriv, hn, Bool.false_eq_true, if_false, matches_cat_iff, iha]
      constructor
      · intro h; exact Or.inl h
      · rintro (h | ⟨h, _⟩)
        · exact h
        · exact absurd h hne
  | star a iha =>
    simp only [deriv, matches_cat_iff, iha]
    constructor
    · rintro ⟨s1, s2, rfl, h1, h2⟩
      exact Matches.starCons a (c :: s1) s2 h1 h2
    · intro h
      exact matches_star_cons a c s h

end Regex

namespace Regex

/-- What `longest` computes: the greatest length of a matched prefix, or
`none` when no prefix is matched. -/
theorem longest_spec (r : Regex) (s : List Char) :
    match r.longest s with
    | some n => n ≤ s.length ∧ Matches r (s.take n)
        ∧ ∀ m, n < m → m ≤ s.length → ¬ Matches r (s.take m)
    | none => ∀ m, m ≤ s.length → ¬ Matches r (s.take m) := by
  induction s generalizing r with
  | nil =>
    by_cases hn : r.nullable = true
    · simp only [longest, hn, if_true]
      refine ⟨Nat.le_refl _, (nullable_iff r).mp hn, ?_⟩
      intro m h1 h2
      simp only [List.length_nil] at h2
      omega
    · simp only [longest, hn, Bool.false_eq_true, if_false]
      intro m _ h
      simp only [List.take_nil] at h
      exact hn ((nullable_iff r).mpr h)
  | cons c cs ih =>
    have ih' := ih (r.deriv c)
    cases hl : (r.deriv c).longest cs with
    | some n =>
      rw [hl] at ih'
      obtain ⟨h1, h2, h3⟩ := ih'
      simp only [longest, hl]
      refine ⟨by simp only [List.length_cons]; omega, ?_, ?_⟩
      · simp only [List.take_succ_cons]
        exact (deriv_iff r c _).mp h2
      · intro m hm hle
        cases m with
        | zero => omega
        | succ m' =>
          simp only [List.take_succ_cons]
          intro h
          simp only [List.length_cons] at hle
          exact h3 m' (by omega) (by omega) ((deriv_iff r c _).mpr h)
    | none =>
      rw [hl] at ih'
      have hsucc : ∀ m', m' + 1 ≤ (c :: cs).length → ¬ Matches r ((c :: cs).take (m' + 1)) := by
        intro m' hle h
        simp only [List.length_cons] at hle
        simp only [List.take_succ_cons] at h
        exact ih' m' (by omega) ((deriv_iff r c _).mpr h)
      by_cases hn : r.nullable = true
      · simp only [longest, hl, hn, if_true]
        refine ⟨Nat.zero_le _, (nullable_iff r).mp hn, ?_⟩
        intro m hm hle
        cases m with
        | zero => omega
        | succ m' => exact hsucc m' hle
      · simp only [longest, hl, hn, Bool.false_eq_true, if_false]
        intro m hle
        cases m with
        | zero =>
          intro h
          exact hn ((nullable_iff r).mpr h)
        | succ m' => exact hsucc m' hle

theorem longest_some (r : Regex) (s : List Char) (n : Nat) (h : r.longest s = some n) :
    n ≤ s.length ∧ Matches r (s.take n)
      ∧ ∀ m, n < m → m ≤ s.length → ¬ Matches r (s.take m) := by
  have := longest_spec r s
  rw [h] at this
  exact this

theorem longest_none (r : Regex) (s : List Char) (h : r.longest s = none) :
    ∀ m, m ≤ s.length → ¬ Matches r (s.take m) := by
  have := longest_spec r s
  rw [h] at this
  exact this

theorem longest_eq_some (r : Regex) (s : List Char) (n : Nat) (hle : n ≤ s.length)
    (hm : Matches r (s.take n))
    (hmax : ∀ m, n < m → m ≤ s.length → ¬ Matches r (s.take m)) :
    r.longest s = some n := by
  cases hl : r.longest s with
  | none => exact absurd hm (longest_none r s hl n hle)
  | some k =>
    obtain ⟨h1, h2, h3⟩ := longest_some r s k hl
    rcases Nat.lt_trichotomy k n with h | h | h
    · exact absurd hm (h3 n h hle)
    · rw [h]
    · exact absurd h2 (hmax k h h1)

theorem longest_eq_none (r : Regex) (s : List Char)
    (h : ∀ m, m ≤ s.length → ¬ Matches r (s.take m)) : r.longest s = none := by
  cases hl : r.longest s with
  | none => rfl
  | some k =>
    obtain ⟨h1, h2, _⟩ := longest_some r s k hl
    exact absurd h2 (h k h1)

/-- Two texts with the same matched prefix lengths have the same longest
match. -/
theorem longest_congr (r : Regex) (s1 s2 : List Char)
    (h : ∀ m, (m ≤ s1.length ∧ Matches r (s1.take m)) ↔ (m ≤ s2.length ∧ Matches r (s2.take m))) :
    r.longest s1 = r.longest s2 := by
  cases hl : r.longest s2 with
  | none =>
    apply longest_eq_none
    intro m hle hm
    have := (h m).mp ⟨hle, hm⟩
    exact longest_none r s2 hl m this.1 this.2
  | some k =>
    obtain ⟨h1, h2, h3⟩ := longest_some r s2 k hl
    have hk := (h k).mpr ⟨h1, h2⟩
    apply longest_eq_some r s1 k hk.1 hk.2
    intro m hm hle hmat
    have := (h m).mp ⟨hle, hmat⟩
    exact h3 m hm this.1 this.2

end Regex

namespace Regex

theorem matches_chr_iff (c : Char) (s : List Char) : Matches (chr c) s ↔ s = [c] := by
  simp only [chr, matches_cls_iff, beq_iff_eq]
  constructor
  · rintro ⟨d, rfl, rfl⟩; rfl
  · rintro rfl; exact ⟨c, rfl, rfl⟩

/-- The star of an expression that matches exactly the single characters
satisfying `q` matches exactly the texts made of such characters. -/
theorem matches_star_single (a : Regex) (q : Char → Bool)
    (ha : ∀ t, Matches a t ↔ ∃ c, t = [c] ∧ q c = true) (s : List Char) :
    Matches (star a) s ↔ ∀ c ∈ s, q c = true := by
  constructor
  · intro h
    generalize hr : star a = r at h
    induction h with
    | eps => cases hr
    | cls => cases hr
    | altL => cases hr
    | altR => cases hr
    | cat => cases hr
    | starNil => intro c hc; cases hc
    | starCons a' u t hu _ _ iht =>
      cases hr
      obtain ⟨d, rfl, hd⟩ := (ha u).mp hu
      intro c hc
      rcases List.mem_cons.mp hc with rfl | hc
      · exact hd
      · exact iht rfl c hc
  · intro h
    induction s with
    | nil => exact Matches.starNil a
    | cons c cs ih =>
      have h1 : Matches a [c] := (ha [c]).mpr ⟨c, rfl, h c (List.mem_cons_self c cs)⟩
      have h2 := ih (fun d hd => h d (List.mem_cons_of_mem c hd))
      exact Matches.starCons a [c] cs h1 h2

theorem matches_star_cls (p : Char → Bool) (s : List Char) :
    Matches (star (cls p)) s ↔ ∀ c ∈ s, p c = true :=
  matches_star_single (cls p) p (matches_cls_iff p) s

theorem matches_plus_cls (p : Char → Bool) (s : List Char) :
    Matches (plus (cls p)) s ↔ s ≠ [] ∧ ∀ c ∈ s, p c = true := by
  simp only [plus, matches_cat_iff, matches_cls_iff, matches_star_cls]
  constructor
  · rintro ⟨s1, s2, rfl, ⟨c, rfl, hc⟩, h2⟩
    refine ⟨by simp, ?_⟩
    intro d hd
    rcases List.mem_cons.mp hd with rfl | hd
    · exact hc
    · exact h2 d hd
  · rintro ⟨hne, h⟩
    cases s with
    | nil => exact absurd rfl hne
    | cons c cs =>
      exact ⟨[c], cs, rfl, ⟨c, rfl, h c (List.mem_cons_self c cs)⟩,
        fun d hd => h d (List.mem_cons_of_mem c hd)⟩

end Regex

/-! ## The choice among patterns -/

theorem pick_fold_congr (s1 s2 : List Char) (es : List (Terminal × Regex))
    (b : Option (Terminal × Nat))
    (h : ∀ e ∈ es, e.2.longest s1 = e.2.longest s2) :
    es.foldl (pick s1) b = es.foldl (pick s2) b := by
  induction es generalizing b with
  | nil => rfl
  | cons e es ih =>
    have he : pick s1 b e = pick s2 b e := by
      simp only [pick, h e (List.mem_cons_self e es)]
    simp only [List.foldl_cons, he]
    exact ih _ (fun e' he' => h e' (List.mem_cons_of_mem e he'))

/-- The candidate never gets shorter along the table, and keeps its kind
unless a strictly longer match replaces it. -/
theorem pick_fold_mono (s : List Char) (es : List (Terminal × Regex))
    (k0 : Terminal) (n0 : Nat) :
    ∃ k n, es.foldl (pick s) (some (k0, n0)) = some (k, n) ∧ n0 ≤ n ∧ (n = n0 → k = k0) := by
  induction es generalizing k0 n0 with
  | nil => exact ⟨k0, n0, rfl, Nat.le_refl _, fun _ => rfl⟩
  | cons e es ih =>
    simp only [List.foldl_cons]
    cases hl : e.2.longest s with
    | none =>
      simp only [pick, hl]
      exact ih k0 n0
    | some m =>
      by_cases hlt : n0 < m
      · simp only [pick, hl, hlt, if_true]
        obtain ⟨k, n, h1, h2, _⟩ := ih e.1 m
        exact ⟨k, n, h1, by omega, fun h => by omega⟩
      · simp only [pick, hl, hlt, if_false]
        exact ih k0 n0

/-- Every pattern's longest match is at most the length chosen. -/
theorem pick_fold_bound (s : List Char) (es : List (Terminal × Regex))
    (b : Option (Terminal × Nat)) (k : Terminal) (n : Nat)
    (h : es.foldl (pick s) b = some (k, n)) :
    ∀ e ∈ es, ∀ m, e.2.longest s = some m → m ≤ n := by
  induction es generalizing b with
  | nil => intro e he; cases he
  | cons e es ih =>
    simp only [List.foldl_cons] at h
    intro e' he' m hm
    rcases List.mem_cons.mp he' with rfl | he'
    · have hp : ∃ k1 n1, pick s b e' = some (k1, n1) ∧ m ≤ n1 := by
        simp only [pick, hm]
        cases b with
        | none => exact ⟨_, _, rfl, Nat.le_refl _⟩
        | some b0 =>
          obtain ⟨k0, m0⟩ := b0
          by_cases hlt : m0 < m
          · simp only [hlt, if_true]; exact ⟨_, _, rfl, Nat.le_refl _⟩
          · simp only [hlt, if_false]; exact ⟨_, _, rfl, by omega⟩
      obtain ⟨k1, n1, hp1, hp2⟩ := hp
      rw [hp1] at h
      obtain ⟨k2, n2, h1, h2, _⟩ := pick_fold_mono s es k1 n1
      rw [h1] at h
      simp only [Option.some.injEq, Prod.mk.injEq] at h
      omega
    · exact ih _ h e' he' m hm

/-- The choice is the start candidate or comes from an entry of the table
whose longest match has the length chosen. -/
theorem pick_fold_mem (s : List Char) (es : List (Terminal × Regex))
    (b : Option (Terminal × Nat)) (k : Terminal) (n : Nat)
    (h : es.foldl (pick s) b = some (k, n)) :
    b = some (k, n) ∨ ∃ e ∈ es, e.1 = k ∧ e.2.longest s = some n := by
  induction es generalizing b with
  | nil => exact Or.inl h
  | cons e es ih =>
    simp only [List.foldl_cons] at h
    rcases ih _ h with hb | ⟨e', he', h1, h2⟩
    · cases hl : e.2.longest s with
      | none =>
        simp only [pick, hl] at hb
        exact Or.inl hb
      | some m =>
        cases b with
        | none =>
          simp only [pick, hl, Option.some.injEq, Prod.mk.injEq] at hb
          exact Or.inr ⟨e, List.mem_cons_self e es, hb.1, by rw [hl, hb.2]⟩
        | some b0 =>
          obtain ⟨k0, m0⟩ := b0
          by_cases hlt : m0 < m
          · simp only [pick, hl, hlt, if_true, Option.some.injEq, Prod.mk.injEq] at hb
            exact Or.inr ⟨e, List.mem_cons_self e es, hb.1, by rw [hl, hb.2]⟩
          · simp only [pick, hl, hlt, if_false] at hb
            exact Or.inl hb
    · exact Or.inr ⟨e', List.mem_cons_of_mem e he', h1, h2⟩

/-- An entry whose longest match has the length chosen is not preceded by
the winner only if it is the winner itself: the kind chosen belongs to that
entry or to an earlier one. -/
theorem pick_fold_first (s : List Char) (pre post : List (Terminal × Regex))
    (e : Terminal × Regex) (k : Terminal) (n : Nat)
    (h : (pre ++ e :: post).foldl (pick s) none = some (k, n))
    (he : e.2.longest s = some n) :
    k = e.1 ∨ ∃ e' ∈ pre, e'.1 = k := by
  simp only [List.foldl_append, List.foldl_cons] at h
  cases hb : pre.foldl (pick s) none with
  | none =>
    rw [hb] at h
    simp only [pick, he] at h
    obtain ⟨k2, n2, h1, _, h3⟩ := pick_fold_mono s post e.1 n
    rw [h1] at h
    simp only [Option.some.injEq, Prod.mk.injEq] at h
    exact Or.inl (by rw [← h.1]; exact h3 h.2)
  | some b0 =>
    obtain ⟨k0, m0⟩ := b0
    rw [hb] at h
    have hk0 : ∃ e' ∈ pre, e'.1 = k0 := by
      rcases pick_fold_mem s pre none k0 m0 hb with h0 | ⟨e', he', h1, _⟩
      · cases h0
      · exact ⟨e', he', h1⟩
    by_cases hlt : m0 < n
    · simp only [pick, he, hlt, if_true] at h
      obtain ⟨k2, n2, h1, _, h3⟩ := pick_fold_mono s post e.1 n
      rw [h1] at h
      simp only [Option.some.injEq, Prod.mk.injEq] at h
      exact Or.inl (by rw [← h.1]; exact h3 h.2)
    · simp only [pick, he, hlt, if_false] at h
      obtain ⟨k2, n2, h1, h2, h3⟩ := pick_fold_mono s post k0 m0
      rw [h1] at h
      simp only [Option.some.injEq, Prod.mk.injEq] at h
      obtain ⟨hk, hn⟩ := h
      have : n2 = m0 := by omega
      obtain ⟨e', he', h4⟩ := hk0
      exact Or.inr ⟨e', he', by rw [h4, ← hk, h3 this]⟩

/-- Computing the choice: an entry wins when the entries before it have
strictly shorter matches and the entries after it have no longer ones. -/
theorem pick_fold_eq (s : List Char) (pre post : List (Terminal × Regex))
    (e : Terminal × Regex) (n : Nat) (he : e.2.longest s = some n)
    (hpre : ∀ e' ∈ pre, ∀ m, e'.2.longest s = some m → m < n)
    (hpost : ∀ e' ∈ post, ∀ m, e'.2.longest s = some m → m ≤ n) :
    (pre ++ e :: post).foldl (pick s) none = some (e.1, n) := by
  have h1 : ∀ (l : List (Terminal × Regex)) (b : Option (Terminal × Nat)),
      (∀ e' ∈ l, ∀ m, e'.2.longest s = some m → m < n) →
      (∀ k0 m0, b = some (k0, m0) → m0 < n) →
      ∀ k0 m0, l.foldl (pick s) b = some (k0, m0) → m0 < n := by
    intro l
    induction l with
    | nil => intro b _ hb k0 m0 h; exact hb k0 m0 h
    | cons x xs ih =>
      intro b hl hb k0 m0 h
      simp only [List.foldl_cons] at h
      refine ih (pick s b x) (fun e' he' => hl e' (List.mem_cons_of_mem x he')) ?_ k0 m0 h
      intro k1 m1 hp
      cases hx : x.2.longest s with
      | none =>
        simp only [pick, hx] at hp
        exact hb k1 m1 hp
      | some m =>
        have hm := hl x (List.mem_cons_self x xs) m hx
        cases b with
        | none =>
          simp only [pick, hx, Option.some.injEq, Prod.mk.injEq] at hp
          omega
        | some b0 =>
          obtain ⟨kb, mb⟩ := b0
          have := hb kb mb rfl
          by_cases hlt : mb < m
          · simp only [pick, hx, hlt, if_true, Option.some.injEq, Prod.mk.injEq] at hp
            omega
          · simp only [pick, hx, hlt, if_false, Option.some.injEq, Prod.mk.injEq] at hp
            omega
  have h2 : ∀ (l : List (Terminal × Regex)) (k : Terminal),
      (∀ e' ∈ l, ∀ m, e'.2.longest s = some m → m ≤ n) →
      l.foldl (pick s) (some (k, n)) = some (k, n) := by
    intro l
    induction l with
    | nil => intro k _; rfl
    | cons x xs ih =>
      intro k hl
      simp only [List.foldl_cons]
      have hx : pick s (some (k, n)) x = some (k, n) := by
        cases hx : x.2.longest s with
        | none => simp only [pick, hx]
        | some m =>
          have := hl x (List.mem_cons_self x xs) m hx
          have hlt : ¬ n < m := by omega
          simp only [pick, hx, hlt, if_false]
      rw [hx]
      exact ih k (fun e' he' => hl e' (List.mem_cons_of_mem x he'))
  simp only [List.foldl_append, List.foldl_cons]
  have hmid : pick s (pre.foldl (pick s) none) e = some (e.1, n) := by
    cases hb : pre.foldl (pick s) none with
    | none => simp only [pick, he]
    | some b0 =>
      obtain ⟨k0, m0⟩ := b0
      have := h1 pre none hpre (fun _ _ h => by cases h) k0 m0 hb
      simp only [pick, he, this, if_true]
  rw [hmid]
  exact h2 post e.1 hpost

/-! ## The languages of the patterns in the table -/

/-- The characters a Symbol lexeme may contain. -/
theorem symbolChar_iff (c : Char) :
    (!(symbolExcluded.contains c)) = true ↔ c ∉ symbolExcluded := by
  simp

theorem matches_float_iff (s : List Char) :
    Regex.Matches (Regex.cat (Regex.plus (Regex.cls isDigit))
        (Regex.opt (Regex.cat (Regex.chr '.') (Regex.plus (Regex.cls isDigit))))) s
      ↔ ∃ ip fp, ip ≠ [] ∧ (∀ c ∈ ip, isDigit c = true)
          ∧ ((fp = [] ∧ s = ip) ∨ (fp ≠ [] ∧ (∀ c ∈ fp, isDigit c = true) ∧ s = ip ++ '.' :: fp)) := by
  simp only [Regex.matches_cat_iff, Regex.opt, Regex.matches_alt_iff, Regex.matches_eps_iff,
    Regex.matches_chr_iff, Regex.matches_plus_cls]
  constructor
  · rintro ⟨s1, s2, rfl, ⟨h1, h2⟩, (⟨t1, t2, rfl, rfl, h3, h4⟩ | rfl)⟩
    · exact ⟨s1, t2, h1, h2, Or.inr ⟨h3, h4, rfl⟩⟩
    · exact ⟨s1, [], h1, h2, Or.inl ⟨rfl, by simp⟩⟩
  · rintro ⟨ip, fp, h1, h2, (⟨rfl, rfl⟩ | ⟨h3, h4, rfl⟩)⟩
    · exact ⟨s, [], by simp, ⟨h1, h2⟩, Or.inr rfl⟩
    · exact ⟨ip, '.' :: fp, rfl, ⟨h1, h2⟩, Or.inl ⟨['.'], fp, rfl, rfl, h3, h4⟩⟩

theorem matches_str_iff (s : List Char) :
    Regex.Matches (Regex.cat (Regex.chr dquote)
        (Regex.cat (Regex.star (Regex.alt (Regex.noneOf [dquote]) (Regex.chr '.')))
          (Regex.chr dquote))) s
      ↔ ∃ mid, s = dquote :: (mid ++ [dquote]) ∧ ∀ c ∈ mid, c ≠ dquote := by
  have hsingle : ∀ t, Regex.Matches (Regex.alt (Regex.noneOf [dquote]) (Regex.chr '.')) t
      ↔ ∃ c, t = [c] ∧ (fun x => decide (x ≠ dquote)) c = true := by
    intro t
    simp only [Regex.matches_alt_iff, Regex.noneOf, Regex.matches_cls_iff, Regex.matches_chr_iff]
    constructor
    · rintro (⟨c, rfl, hc⟩ | rfl)
      · refine ⟨c, rfl, ?_⟩
        simpa using hc
      · exact ⟨'.', rfl, by decide⟩
    · rintro ⟨c, rfl, hc⟩
      refine Or.inl ⟨c, rfl, ?_⟩
      simpa using hc
  simp only [Regex.matches_cat_iff, Regex.matches_chr_iff,
    Regex.matches_star_single _ _ hsingle]
  constructor
  · rintro ⟨s1, s2, rfl, rfl, t1, t2, rfl, h1, rfl⟩
    exact ⟨t1, rfl, fun c hc => by simpa using h1 c hc⟩
  · rintro ⟨mid, rfl, h⟩
    exact ⟨[dquote], mid ++ [dquote], rfl, rfl, mid, [dquote], rfl,
      fun c hc => by simpa using h c hc, rfl⟩

theorem matches_comment_iff (s : List Char) :
    Regex.Matches (Regex.cat (Regex.chr ';') (Regex.star (Regex.noneOf ['\n']))) s
      ↔ ∃ body, s = ';' :: body ∧ ∀ c ∈ body, c ≠ '\n' := by
  simp only [Regex.matches_cat_iff, Regex.matches_chr_iff, Regex.noneOf, Regex.matches_star_cls]
  constructor
  · rintro ⟨s1, s2, rfl, rfl, h⟩
    exact ⟨s2, rfl, fun c hc => by simpa using h c hc⟩
  · rintro ⟨body, rfl, h⟩
    exact ⟨[';'], body, rfl, rfl, fun c hc => by simpa using h c hc⟩

theorem matches_quote_iff (s : List Char) :
    Regex.Matches (Regex.alt (Regex.chr squote) (Regex.alt (Regex.chr bquote)
        (Regex.alt (Regex.chr ',') (Regex.cat (Regex.chr ',') (Regex.chr '@'))))) s
      ↔ s = [squote] ∨ s = [bquote] ∨ s = [','] ∨ s = [',', '@'] := by
  simp only [Regex.matches_alt_iff, Regex.matches_cat_iff, Regex.matches_chr_iff]
  constructor
  · rintro (h | h | h | ⟨s1, s2, rfl, rfl, rfl⟩)
    · exact Or.inl h
    · exact Or.inr (Or.inl h)
    · exact Or.inr (Or.inr (Or.inl h))
    · exact Or.inr (Or.inr (Or.inr rfl))
  · rintro (h | h | h | rfl)
    · exact Or.inl h
    · exact Or.inr (Or.inl h)
    · exact Or.inr (Or.inr (Or.inl h))
    · exact Or.inr (Or.inr (Or.inr ⟨[','], ['@'], rfl, rfl, rfl⟩))

theorem matches_hash_iff (s : List Char) :
    Regex.Matches (Regex.cat (Regex.chr '#') Regex.any) s ↔ ∃ c, s = ['#', c] := by
  simp only [Regex.matches_cat_iff, Regex.matches_chr_iff, Regex.any, Regex.matches_cls_iff]
  constructor
  · rintro ⟨s1, s2, rfl, rfl, c, rfl, _⟩
    exact ⟨c, rfl⟩
  · rintro ⟨c, rfl⟩
    exact ⟨['#'], [c], rfl, rfl, c, rfl, trivial⟩

theorem matches_symbol_iff (s : List Char) :
    Regex.Matches (Regex.plus (Regex.noneOf symbolExcluded)) s
      ↔ s ≠ [] ∧ ∀ c ∈ s, c ∉ symbolExcluded := by
  simp only [Regex.noneOf, Regex.matches_plus_cls]
  constructor
  · rintro ⟨h1, h2⟩
    exact ⟨h1, fun c hc => (symbolChar_iff c).mp (h2 c hc)⟩
  · rintro ⟨h1, h2⟩
    exact ⟨h1, fun c hc => (symbolChar_iff c).mpr (h2 c hc)⟩

/-- No pattern of the table matches the empty text. -/
theorem lex_not_nullable : ∀ e ∈ lex, e.2.nullable = false := by
  decide

theorem lex_longest_pos (src : List Char) (e : Terminal × Regex) (he : e ∈ lex) (n : Nat)
    (h : e.2.longest src = some n) : 0 < n := by
  rcases Nat.eq_zero_or_pos n with rfl | hpos
  · have hm := (Regex.longest_some e.2 src 0 h).2.1
    simp only [List.take_zero] at hm
    have := (Regex.nullable_iff e.2).mpr hm
    rw [lex_not_nullable e he] at this
    cases this
  · exact hpos

theorem lexStep_pos (src : List Char) (k : Terminal) (n : Nat)
    (h : lexStep src = some (k, n)) : 0 < n ∧ n ≤ src.length := by
  rcases pick_fold_mem src lex none k n h with h0 | ⟨e, he, _, hl⟩
  · cases h0
  · exact ⟨lex_longest_pos src e he n hl, (Regex.longest_some e.2 src n hl).1⟩

/-! ## Scanning whitespace and comments -/

/-- A lexeme of a given kind begins with a character that kind admits. -/
theorem lex_first_char (e : Terminal × Regex) (he : e ∈ lex) (c : Char) (t : List Char)
    (h : Regex.Matches e.2 (c :: t)) : firstOK e.1 c = true := by
  simp only [lex, List.mem_cons, List.mem_singleton, List.not_mem_nil, or_false] at he
  rcases he with rfl | rfl | rfl | rfl | rfl | rfl | rfl | rfl | rfl | rfl | rfl | rfl | rfl
  · rw [Regex.matches_chr_iff] at h
    simp only [List.cons.injEq] at h
    simp [firstOK, h.1]
  · rw [Regex.matches_chr_iff] at h
    simp only [List.cons.injEq] at h
    simp [firstOK, h.1]
  · rw [Regex.matches_chr_iff] at h
    simp only [List.cons.injEq] at h
    simp [firstOK, h.1]
  · rw [Regex.matches_chr_iff] at h
    simp only [List.cons.injEq] at h
    simp [firstOK, h.1]
  · rw [Regex.matches_chr_iff] at h
    simp only [List.cons.injEq] at h
    simp [firstOK, h.1]
  · rw [Regex.matches_plus_cls] at h
    exact h.2 c (List.mem_cons_self c t)
  · rw [matches_float_iff] at h
    obtain ⟨ip, fp, h1, h2, h3⟩ := h
    cases ip with
    | nil => exact absurd rfl h1
    | cons d ip' =>
      have hd : c = d := by
        rcases h3 with ⟨_, h3⟩ | ⟨_, _, h3⟩ <;>
          · simp only [List.cons_append, List.cons.injEq] at h3
            exact h3.1
      rw [hd]
      exact h2 d (List.mem_cons_self d ip')
  · rw [matches_str_iff] at h
    obtain ⟨mid, h1, _⟩ := h
    simp only [List.cons.injEq] at h1
    simp [firstOK, h1.1]
  · rw [matches_comment_iff] at h
    obtain ⟨body, h1, _⟩ := h
    simp only [List.cons.injEq] at h1
    simp [firstOK, h1.1]
  · rw [Regex.matches_plus_cls] at h
    exact h.2 c (List.mem_cons_self c t)
  · rw [matches_quote_iff] at h
    simp only [List.cons.injEq] at h
    rcases h with h | h | h | h <;> simp [firstOK, h.1]
  · rw [matches_symbol_iff] at h
    simp only [firstOK]
    exact (symbolChar_iff c).mpr (h.2 c (List.mem_cons_self c t))
  · rw [matches_hash_iff] at h
    obtain ⟨d, h1⟩ := h
    simp only [List.cons.injEq] at h1
    simp [firstOK, h1.1]

/-- A pattern whose kind does not admit the first character of the text has
no match there. -/
theorem lex_no_match (e : Terminal × Regex) (he : e ∈ lex) (c : Char) (cs : List Char)
    (hc : firstOK e.1 c = false) : e.2.longest (c :: cs) = none := by
  cases hl : e.2.longest (c :: cs) with
  | none => rfl
  | some m =>
    have hpos := lex_longest_pos (c :: cs) e he m hl
    have hm := (Regex.longest_some e.2 (c :: cs) m hl).2.1
    obtain ⟨m', rfl⟩ : ∃ m', m = m' + 1 := ⟨m - 1, by omega⟩
    simp only [List.take_succ_cons] at hm
    have := lex_first_char e he c _ hm
    rw [hc] at this
    cases this

theorem take_takeWhile_length (p : Char → Bool) (l : List Char) :
    l.take (l.takeWhile p).length = l.takeWhile p := by
  induction l with
  | nil => rfl
  | cons c cs ih =>
    by_cases hc : p c = true
    · simp [List.takeWhile_cons, hc, ih]
    · simp [List.takeWhile_cons, hc]

theorem drop_takeWhile_length (p : Char → Bool) (l : List Char) :
    l.drop (l.takeWhile p).length = l.dropWhile p := by
  induction l with
  | nil => rfl
  | cons c cs ih =>
    by_cases hc : p c = true
    · simp [List.takeWhile_cons, List.dropWhile_cons, hc, ih]
    · simp [List.takeWhile_cons, List.dropWhile_cons, hc]

/-- A prefix whose characters all satisfy `p` is no longer than the maximal
run of such characters. -/
theorem le_takeWhile_length (p : Char → Bool) (l : List Char) (m : Nat) (hm : m ≤ l.length)
    (h : ∀ c ∈ l.take m, p c = true) : m ≤ (l.takeWhile p).length := by
  induction l generalizing m with
  | nil => simp only [List.length_nil] at hm; omega
  | cons c cs ih =>
    cases m with
    | zero => omega
    | succ m' =>
      simp only [List.take_succ_cons, List.mem_cons, forall_eq_or_imp] at h
      simp only [List.length_cons] at hm
      simp only [List.takeWhile_cons, h.1, if_true, List.length_cons]
      have := ih m' (by omega) h.2
      omega

/-- The longest match of a repeated character class is the maximal run of
characters of the class, when that run is not empty. -/
theorem longest_plus_cls (p : Char → Bool) (c : Char) (cs : List Char) (hc : p c = true) :
    (Regex.plus (Regex.cls p)).longest (c :: cs) = some ((c :: cs).takeWhile p).length := by
  apply Regex.longest_eq_some
  · exact (List.takeWhile_sublist p).length_le
  · rw [take_takeWhile_length, Regex.matches_plus_cls]
    refine ⟨by simp [List.takeWhile_cons, hc], ?_⟩
    intro d hd
    exact List.mem_takeWhile_imp hd
  · intro m hm hle hmat
    rw [Regex.matches_plus_cls] at hmat
    have := le_takeWhile_length p (c :: cs) m hle hmat.2
    omega

theorem lex_split_ws :
    lex = lex.take 9 ++ (_WS, Regex.plus (Regex.cls isSpace)) :: lex.drop 10 := rfl

theorem lex_split_comment :
    lex = lex.take 8 ++ (_COMMENT, Regex.cat (Regex.chr ';') (Regex.star (Regex.noneOf ['\n'])))
      :: lex.drop 9 := rfl

theorem isSpace_cases (c : Char) (h : isSpace c = true) :
    c = ' ' ∨ c = '\t' ∨ c = '\n' ∨ c = '\r' := by
  simp only [isSpace, Bool.or_eq_true, beq_iff_eq] at h
  tauto

/-- At a whitespace character the scanner yields a Whitespace token covering
the whole run of whitespace. -/
theorem lexStep_space (c : Char) (cs : List Char) (hc : isSpace c = true) :
    lexStep (c :: cs) = some (_WS, ((c :: cs).takeWhile isSpace).length) := by
  have hno : ∀ e ∈ lex, e.1 ≠ _WS → e.2.longest (c :: cs) = none := by
    intro e he hk
    apply lex_no_match e he
    simp only [lex, List.mem_cons, List.mem_singleton, List.not_mem_nil, or_false] at he
    rcases isSpace_cases c hc with rfl | rfl | rfl | rfl <;>
      rcases he with rfl | rfl | rfl | rfl | rfl | rfl | rfl | rfl | rfl | rfl | rfl | rfl | rfl <;>
      first
        | exact absurd rfl hk
        | decide
  unfold lexStep
  rw [lex_split_ws]
  apply pick_fold_eq (c :: cs) _ _ (_WS, Regex.plus (Regex.cls isSpace))
  · exact longest_plus_cls isSpace c cs hc
  · intro e he m hm
    have hmem : e ∈ lex := List.mem_of_mem_take he
    have hk : e.1 ≠ _WS := by
      simp only [lex, List.take, List.mem_cons, List.mem_singleton, List.not_mem_nil,
        or_false] at he
      rcases he with rfl | rfl | rfl | rfl | rfl | rfl | rfl | rfl | rfl <;> decide
    rw [hno e hmem hk] at hm
    cases hm
  · intro e he m hm
    have hmem : e ∈ lex := List.mem_of_mem_drop he
    have hk : e.1 ≠ _WS := by
      simp only [lex, List.drop, List.mem_cons, List.mem_singleton, List.not_mem_nil,
        or_false] at he
      rcases he with rfl | rfl | rfl <;> decide
    rw [hno e hmem hk] at hm
    cases hm

/-- The longest match of the Comment pattern at a `;` runs up to the end of
the line. -/
theorem longest_comment (cs : List Char) :
    (Regex.cat (Regex.chr ';') (Regex.star (Regex.noneOf ['\n']))).longest (';' :: cs)
      = some ((cs.takeWhile (fun x => x != '\n')).length + 1) := by
  apply Regex.longest_eq_some
  · have := (List.takeWhile_sublist (fun x => x != '\n') (l := cs)).length_le
    simp only [List.length_cons]
    omega
  · rw [List.take_succ_cons, take_takeWhile_length, matches_comment_iff]
    refine ⟨_, rfl, ?_⟩
    intro d hd
    have := List.mem_takeWhile_imp hd
    simpa using this
  · intro m hm hle hmat
    obtain ⟨m', rfl⟩ : ∃ m', m = m' + 1 := ⟨m - 1, by omega⟩
    rw [List.take_succ_cons, matches_comment_iff] at hmat
    obtain ⟨body, hb, hall⟩ := hmat
    simp only [List.cons.injEq, true_and] at hb
    subst hb
    simp only [List.length_cons] at hle
    have := le_takeWhile_length (fun x => x != '\n') cs m' (by omega)
      (fun d hd => by simpa using hall d hd)
    omega

/-- At a `;` the scanner yields a Comment token running up to the end of
the line. -/
theorem lexStep_comment (cs : List Char) :
    lexStep (';' :: cs) = some (_COMMENT, (cs.takeWhile (fun x => x != '\n')).length + 1) := by
  unfold lexStep
  rw [lex_split_comment]
  apply pick_fold_eq (';' :: cs) _ _
    (_COMMENT, Regex.cat (Regex.chr ';') (Regex.star (Regex.noneOf ['\n'])))
  · exact longest_comment cs
  · intro e he m hm
    have hmem : e ∈ lex := List.mem_of_mem_take he
    have hno : e.2.longest (';' :: cs) = none := by
      apply lex_no_match e hmem
      simp only [lex, List.take, List.mem_cons, List.mem_singleton, List.not_mem_nil,
        or_false] at he
      rcases he with rfl | rfl | rfl | rfl | rfl | rfl | rfl | rfl <;> decide
    rw [hno] at hm
    cases hm
  · intro e he m hm
    have hmem : e ∈ lex := List.mem_of_mem_drop he
    simp only [lex, List.drop, List.mem_cons, List.mem_singleton, List.not_mem_nil,
      or_false] at he
    rcases he with rfl | rfl | rfl | rfl
    · rw [lex_no_match _ hmem ';' cs (by decide)] at hm; cases hm
    · rw [lex_no_match _ hmem ';' cs (by decide)] at hm; cases hm
    · have hpos := lex_longest_pos _ _ hmem m hm
      obtain ⟨hle, hmat, _⟩ := Regex.longest_some _ _ m hm
      obtain ⟨m', rfl⟩ : ∃ m', m = m' + 1 := ⟨m - 1, by omega⟩
      rw [List.take_succ_cons, matches_symbol_iff] at hmat
      simp only [List.length_cons] at hle
      have := le_takeWhile_length (fun x => x != '\n') cs m' (by omega)
        (fun d hd => by
          have hd' := hmat.2 d (List.mem_cons_of_mem _ hd)
          simp only [bne_iff_ne, ne_eq]
          rintro rfl
          exact hd' (by decide))
      omega
    · rw [lex_no_match _ hmem ';' cs (by decide)] at hm; cases hm

/-! ## The token stream -/

/-- The token stream does not depend on the step bound once the bound
exceeds the length of the text. -/
theorem tokens_fuel (f1 f2 : Nat) (src : List Char) (h1 : src.length < f1)
    (h2 : src.length < f2) : tokens f1 src = tokens f2 src := by
  induction f1 generalizing f2 src with
  | zero => omega
  | succ f1 ih =>
    obtain ⟨f2', rfl⟩ : ∃ f2', f2 = f2' + 1 := ⟨f2 - 1, by omega⟩
    cases src with
    | nil => rfl
    | cons c cs =>
      cases hl : lexStep (c :: cs) with
      | none => simp only [tokens, hl]
      | some kn =>
        obtain ⟨k, n⟩ := kn
        obtain ⟨hpos, hle⟩ := lexStep_pos _ k n hl
        have hlen : ((c :: cs).drop n).length < (c :: cs).length := by
          simp only [List.length_drop]; omega
        simp only [List.length_cons] at h1 h2 hlen
        simp only [tokens, hl]
        rw [ih f2' ((c :: cs).drop n) (by omega) (by omega)]

/-- The token stream of a text, with a bound that suffices. -/
theorem NewLex_eq (src : List Char) (f : Nat) (hf : src.length < f) :
    NewLex src = ⟨(tokens f src).1, (tokens f src).2⟩ := by
  simp only [NewLex]
  rw [tokens_fuel (src.length + 1) f src (by omega) hf]

/-- One scan step: the token found is emitted when the filter keeps it, and
the scan goes on after it. -/
theorem tokens_step (src : List Char) (k : Terminal) (n : Nat) (f : Nat)
    (hf : src.length < f) (h : lexStep src = some (k, n)) :
    tokens f src =
      if keep k then
        (⟨k, String.mk (src.take n)⟩ :: (tokens f (src.drop n)).1, (tokens f (src.drop n)).2)
      else tokens f (src.drop n) := by
  obtain ⟨hpos, hle⟩ := lexStep_pos _ k n h
  obtain ⟨f', rfl⟩ : ∃ f', f = f' + 1 := ⟨f - 1, by omega⟩
  cases src with
  | nil => simp only [List.length_nil] at hle; omega
  | cons c cs =>
    have hlen : ((c :: cs).drop n).length < f' := by
      simp only [List.length_drop, List.length_cons] at hf ⊢; omega
    simp only [tokens, h]
    rw [tokens_fuel f' (f' + 1) _ hlen (by omega)]

theorem skipGap_dropWhile_space (l : List Char) :
    skipGap false (l.dropWhile isSpace) = skipGap false l := by
  induction l with
  | nil => rfl
  | cons c cs ih =>
    by_cases hc : isSpace c = true
    · simp only [List.dropWhile_cons, hc, if_true, skipGap, ih]
    · simp only [List.dropWhile_cons, hc, if_false, Bool.false_eq_true]

theorem skipGap_dropWhile_line (l : List Char) :
    skipGap false (l.dropWhile (fun x => x != '\n')) = skipGap true l := by
  induction l with
  | nil => rfl
  | cons c cs ih =>
    by_cases hc : c = '\n'
    · subst hc
      simp [List.dropWhile_cons, skipGap, isSpace]
    · have : (c != '\n') = true := by simpa using hc
      simp only [List.dropWhile_cons, this, if_true, skipGap, hc, if_false, ih]

theorem skipGap_length_le (b : Bool) (l : List Char) : (skipGap b l).length ≤ l.length := by
  induction l generalizing b with
  | nil => cases b <;> simp [skipGap]
  | cons c cs ih =>
    cases b with
    | false =>
      simp only [skipGap]
      split_ifs
      · exact Nat.le_succ_of_le (ih false)
      · exact Nat.le_succ_of_le (ih true)
      · exact Nat.le_refl _
    | true =>
      simp only [skipGap]
      split_ifs
      · exact Nat.le_succ_of_le (ih false)
      · exact Nat.le_succ_of_le (ih true)

/-- Scanning skips leading whitespace and comments: the filtered token
stream of a text is that of the text after them. -/
theorem tokens_skipGap (src : List Char) (f : Nat) (hf : src.length < f) :
    tokens f src = tokens f (skipGap false src) := by
  obtain ⟨n, hn⟩ : ∃ n, src.length = n := ⟨_, rfl⟩
  induction n using Nat.strong_induction_on generalizing src with
  | _ n ih =>
    cases src with
    | nil => rfl
    | cons c cs =>
      by_cases hc : isSpace c = true
      · have hstep := lexStep_space c cs hc
        have hpos := (lexStep_pos _ _ _ hstep).1
        rw [tokens_step _ _ _ f hf hstep]
        simp only [keep, bne_self_eq_false, Bool.false_and, Bool.false_eq_true, if_false]
        rw [drop_takeWhile_length]
        have hlen : ((c :: cs).dropWhile isSpace).length < n := by
          rw [← drop_takeWhile_length, List.length_drop, ← hn]
          have := (lexStep_pos _ _ _ hstep).2
          omega
        rw [ih _ hlen _ (by omega) rfl, skipGap_dropWhile_space]
      · by_cases hsc : c = ';'
        · subst hsc
          have hstep := lexStep_comment cs
          rw [tokens_step _ _ _ f hf hstep]
          simp only [keep, bne_self_eq_false, Bool.and_false, Bool.false_eq_true, if_false]
          rw [List.drop_succ_cons, drop_takeWhile_length]
          have hlen : (cs.dropWhile (fun x => x != '\n')).length < n := by
            rw [← drop_takeWhile_length, List.length_drop, ← hn]
            simp only [List.length_cons]
            omega
          rw [ih _ hlen _ (by omega) rfl, skipGap_dropWhile_line]
          simp [skipGap, isSpace]
        · simp only [skipGap, hc, Bool.false_eq_true, if_false, hsc]

/-- The token stream of a text made only of whitespace and comments is empty
and ends at the end of the input. -/
theorem NewLex_onlyGap (text : List Char) (h : onlyGap text = true) :
    NewLex text = ⟨[], true⟩ := by
  have h' : skipGap false text = [] := by
    simpa [onlyGap] using h
  rw [NewLex_eq text (text.length + 1) (by omega), tokens_skipGap text _ (by omega), h']
  rfl

/-! ## End of file -/

theorem readFrom_exhausted :
    readFrom ⟨[], true⟩ = some (EOF_OBJECT, ⟨[], true⟩) := by
  decide

/-- C10: `ReadString` of a text made only of whitespace and `;`-comments
(the empty text included) returns the end-of-file sentinel, which is not a
failure; the `Read` that does so leaves a source on which `Read` returns the
end-of-file sentinel again, and so does `Read` on a source with no text
left. -/
theorem read_only_gap_is_eof (text : String) (h : onlyGap text.data = true) :
    ReadString text = some EOF_OBJECT
      ∧ Failed EOF_OBJECT = false
      ∧ (∃ port, Read (NewReader text) = some (EOF_OBJECT, port)
          ∧ Read port = some (EOF_OBJECT, port))
      ∧ ReadString "" = some EOF_OBJECT
      ∧ Read (NewReader "") = some (EOF_OBJECT, NewReader "") := by
  have hread : Read (NewReader text) = some (EOF_OBJECT, NewReader text) := by
    simp only [Read, NewReader, NewLex_onlyGap text.data h, readFrom_exhausted]
    simp [restText]
  refine ⟨?_, rfl, ⟨NewReader text, hread, hread⟩, by decide, by decide⟩
  simp only [ReadString, hread]

theorem read_only_gap_is_eof_witness :
    ReadString "  ; a comment\n\t; another" = some EOF_OBJECT :=
  (read_only_gap_is_eof "  ; a comment\n\t; another" (by decide)).1

/-! ## Reading back a written integer -/

theorem digit_char (d : Nat) (hd : d < 10) :
    digitVal (Char.ofNat (48 + d)) = some d ∧ isDigit (Char.ofNat (48 + d)) = true
      ∧ Char.ofNat (48 + d) ≠ '+' ∧ Char.ofNat (48 + d) ≠ '-' := by
  interval_cases d <;> decide

theorem digitsVal_append (a b : List Char) (acc : Nat) :
    digitsVal (a ++ b) acc = (digitsVal a acc).bind (digitsVal b) := by
  induction a generalizing acc with
  | nil => rfl
  | cons c cs ih =>
    simp only [List.cons_append, digitsVal]
    cases digitVal c with
    | none => rfl
    | some d => exact ih _

/-- The decimal digits written for a number: a nonempty run of digit
characters whose value is the number. -/
theorem natDigits_spec (f n : Nat) (h : n < f) :
    natDigits f n ≠ [] ∧ (∀ c ∈ natDigits f n, isDigit c = true)
      ∧ digitsVal (natDigits f n) 0 = some n := by
  induction f generalizing n with
  | zero => omega
  | succ f ih =>
    by_cases hn : n < 10
    · obtain ⟨h1, h2, _⟩ := digit_char n hn
      simp only [natDigits, hn, if_true]
      refine ⟨by simp, ?_, ?_⟩
      · intro c hc
        rw [List.mem_singleton.mp hc]
        exact h2
      · simp [digitsVal, h1]
    · obtain ⟨i1, i2, i3⟩ := ih (n / 10) (by omega)
      obtain ⟨h1, h2, _⟩ := digit_char (n % 10) (Nat.mod_lt n (by omega))
      simp only [natDigits, hn, if_false]
      refine ⟨by simp, ?_, ?_⟩
      · intro c hc
        rcases List.mem_append.mp hc with hc | hc
        · exact i2 c hc
        · rw [List.mem_singleton.mp hc]
          exact h2
      · rw [digitsVal_append, i3]
        simp only [Option.bind, digitsVal, h1]
        congr 1
        omega

theorem lex_split_int :
    lex = lex.take 5 ++ (_INT, Regex.plus (Regex.cls isDigit)) :: lex.drop 6 := rfl

/-- A text that is a run of digits is scanned as one Int token. -/
theorem lexStep_digits (c : Char) (cs : List Char) (h : ∀ d ∈ c :: cs, isDigit d = true) :
    lexStep (c :: cs) = some (_INT, (c :: cs).length) := by
  have hc : isDigit c = true := h c (List.mem_cons_self c cs)
  have hrun : (c :: cs).takeWhile isDigit = c :: cs := by
    rw [List.takeWhile_eq_self_iff]
    exact h
  unfold lexStep
  rw [lex_split_int]
  apply pick_fold_eq (c :: cs) _ _ (_INT, Regex.plus (Regex.cls isDigit))
  · have := longest_plus_cls isDigit c cs hc
    rw [hrun] at this
    exact this
  · intro e he m hm
    have hmem : e ∈ lex := List.mem_of_mem_take he
    have hno : e.2.longest (c :: cs) = none := by
      apply lex_no_match e hmem
      simp only [lex, List.take, List.mem_cons, List.mem_singleton, List.not_mem_nil,
        or_false] at he
      rcases he with rfl | rfl | rfl | rfl | rfl <;>
        · simp only [firstOK, beq_eq_false_iff_ne, ne_eq]
          rintro rfl
          revert hc
          decide
    rw [hno] at hm
    cases hm
  · intro e _ m hm
    exact (Regex.longest_some _ _ m hm).1

/-- The token stream of a run of digits is the single Int token. -/
theorem NewLex_digits (c : Char) (cs : List Char) (h : ∀ d ∈ c :: cs, isDigit d = true) :
    NewLex (c :: cs) = ⟨[⟨_INT, String.mk (c :: cs)⟩], true⟩ := by
  rw [NewLex_eq (c :: cs) ((c :: cs).length + 1) (by omega),
    tokens_step _ _ _ _ (by omega) (lexStep_digits c cs h)]
  simp [keep, tokens]

theorem readFrom_single_int (s : String) :
    readFrom ⟨[⟨_INT, s⟩], true⟩ = some (intAction s, ⟨[], true⟩) := by
  simp [readFrom, expr, pegOr, pegBind, term]

theorem ReadString_digits (c : Char) (cs : List Char) (h : ∀ d ∈ c :: cs, isDigit d = true) :
    ReadString (String.mk (c :: cs)) = some (intAction (String.mk (c :: cs))) := by
  simp only [ReadString, Read, NewReader, NewLex_digits c cs h, readFrom_single_int]

/-- C7 (amended): for every integer `n` with `0 ≤ n` that fits Go's `int`,
`Write` appends the decimal digits of `n` to a writable port and reading
that text back with `ReadString` returns the integer `n`. -/
theorem write_read_nonneg_int (other : String → Value → String) (n : Int)
    (h0 : 0 ≤ n) (h1 : n < 2 ^ (intSize - 1)) (r : Bool) (pending written : String) :
    Write other (Value.int n) (Value.port r true pending written)
        = (Value.void,
            Value.port r true pending (written ++ toWrite other "%#v" (Value.int n)))
      ∧ ReadString (toWrite other "%#v" (Value.int n)) = some (Value.int n) := by
  refine ⟨rfl, ?_⟩
  obtain ⟨k, rfl⟩ := Int.eq_ofNat_of_zero_le h0
  have hk : k < 2 ^ (intSize - 1) := by exact_mod_cast h1
  obtain ⟨hne, hdig, hval⟩ := natDigits_spec (k + 1) k (by omega)
  have hfmt : toWrite other "%#v" (Value.int (k : Int)) = String.mk (natDigits (k + 1) k) := by
    have : ¬ ((k : Int) < 0) := by omega
    simp only [toWrite, Sprintf, formatInt, this, if_false, Int.natAbs_ofNat]
  rw [hfmt]
  cases hds : natDigits (k + 1) k with
  | nil => exact absurd hds hne
  | cons c cs =>
    rw [hds] at hdig hval
    rw [ReadString_digits c cs hdig]
    obtain ⟨d, hd⟩ : ∃ d, digitVal c = some d := by
      cases hdv : digitVal c with
      | none => simp [digitsVal, hdv] at hval
      | some d => exact ⟨d, rfl⟩
    have hplus : c ≠ '+' := by
      rintro rfl
      have : digitVal '+' = none := by decide
      rw [this] at hd
      cases hd
    have hminus : c ≠ '-' := by
      rintro rfl
      have : digitVal '-' = none := by decide
      rw [this] at hd
      cases hd
    simp only [intAction, Atoi, hplus, hminus, if_false, atoiMag, hval, hk, if_true,
      Bool.false_eq_true]

theorem write_read_nonneg_int_witness :
    ReadString (toWrite (fun _ _ => "") "%#v" (Value.int 1234)) = some (Value.int 1234) :=
  (write_read_nonneg_int (fun _ _ => "") 1234 (by decide) (by decide) false "" "").2

/-! ## Parsing expressions: inversion -/

theorem pegBind_inv {α β : Type} (p : Parser α) (f : α → Option β) (ts r : List Token)
    (w : β) (h : pegBind p f ts = some (Outcome.ok w r)) :
    ∃ v, p ts = some (Outcome.ok v r) ∧ f v = some w := by
  simp only [pegBind] at h
  cases hp : p ts with
  | none => rw [hp] at h; cases h
  | some o =>
    cases o with
    | fail => rw [hp] at h; cases h
    | ok v rest =>
      rw [hp] at h
      simp only at h
      cases hf : f v with
      | none => rw [hf] at h; cases h
      | some w' =>
        rw [hf] at h
        simp only [Option.some.injEq, Outcome.ok.injEq] at h
        obtain ⟨rfl, rfl⟩ := h
        exact ⟨v, rfl, hf⟩

theorem pegAnd_inv {α β : Type} (p : Parser α) (q : Parser β) (ts r : List Token)
    (x : α × β) (h : pegAnd p q ts = some (Outcome.ok x r)) :
    ∃ r1, p ts = some (Outcome.ok x.1 r1) ∧ q r1 = some (Outcome.ok x.2 r) := by
  simp only [pegAnd] at h
  cases hp : p ts with
  | none => rw [hp] at h; cases h
  | some o =>
    cases o with
    | fail => rw [hp] at h; cases h
    | ok a r1 =>
      rw [hp] at h
      simp only at h
      cases hq : q r1 with
      | none => rw [hq] at h; cases h
      | some o2 =>
        cases o2 with
        | fail => rw [hq] at h; cases h
        | ok b r2 =>
          rw [hq] at h
          simp only [Option.some.injEq, Outcome.ok.injEq] at h
          obtain ⟨rfl, rfl⟩ := h
          exact ⟨r1, rfl, hq⟩

theorem pegAnd_fail_inv {α β : Type} (p : Parser α) (q : Parser β) (ts : List Token)
    (h : pegAnd p q ts = some Outcome.fail) :
    p ts = some Outcome.fail ∨ ∃ a r1, p ts = some (Outcome.ok a r1) ∧ q r1 = some Outcome.fail := by
  simp only [pegAnd] at h
  cases hp : p ts with
  | none => rw [hp] at h; cases h
  | some o =>
    cases o with
    | fail => exact Or.inl rfl
    | ok a r1 =>
      rw [hp] at h
      simp only at h
      cases hq : q r1 with
      | none => rw [hq] at h; cases h
      | some o2 =>
        cases o2 with
        | fail => exact Or.inr ⟨a, r1, rfl, hq⟩
        | ok b r2 => rw [hq] at h; cases h

theorem pegOption_inv {α : Type} (p : Parser α) (ts r : List Token) (o : Option α)
    (h : pegOption p ts = some (Outcome.ok o r)) :
    (∃ v, o = some v ∧ p ts = some (Outcome.ok v r))
      ∨ (o = none ∧ r = ts ∧ p ts = some Outcome.fail) := by
  simp only [pegOption] at h
  cases hp : p ts with
  | none => rw [hp] at h; cases h
  | some x =>
    cases x with
    | fail =>
      rw [hp] at h
      simp only [Option.some.injEq, Outcome.ok.injEq] at h
      exact Or.inr ⟨h.1.symm, h.2.symm, rfl⟩
    | ok v rest =>
      rw [hp] at h
      simp only [Option.some.injEq, Outcome.ok.injEq] at h
      obtain ⟨rfl, rfl⟩ := h
      exact Or.inl ⟨v, rfl, rfl⟩

theorem pegOption_ne_fail {α : Type} (p : Parser α) (ts : List Token) :
    pegOption p ts ≠ some Outcome.fail := by
  simp only [pegOption]
  cases p ts with
  | none => simp
  | some x => cases x <;> simp

theorem pegBind_fail_inv {α β : Type} (p : Parser α) (f : α → Option β) (ts : List Token)
    (h : pegBind p f ts = some Outcome.fail) : p ts = some Outcome.fail := by
  simp only [pegBind] at h
  cases hp : p ts with
  | none => rw [hp] at h; cases h
  | some o =>
    cases o with
    | fail => rfl
    | ok v rest =>
      rw [hp] at h
      simp only at h
      cases hf : f v with
      | none => rw [hf] at h; cases h
      | some w => rw [hf] at h; cases h

theorem pegMulti_ne_fail {α : Type} (m : Nat) (p : Parser α) (ts : List Token) :
    pegMulti m p ts ≠ some Outcome.fail := by
  induction m generalizing ts with
  | zero => simp [pegMulti]
  | succ m ih =>
    simp only [pegMulti]
    cases hp : p ts with
    | none => simp
    | some o =>
      cases o with
      | fail => simp
      | ok v rest =>
        simp only
        cases hm : pegMulti m p rest with
        | none => simp
        | some o2 =>
          cases o2 with
          | fail => exact absurd hm (ih rest)
          | ok vs r2 => simp

theorem term_inv (k : Terminal) (ts r : List Token) (l : String)
    (h : term k ts = some (Outcome.ok l r)) : ts = ⟨k, l⟩ :: r := by
  cases ts with
  | nil => simp [term] at h
  | cons t rest =>
    simp only [term] at h
    by_cases hk : t.kind = k
    · simp only [hk, if_true, Option.some.injEq, Outcome.ok.injEq] at h
      obtain ⟨rfl, rfl⟩ := h
      cases t
      simp only at hk
      rw [hk]
    · simp [hk] at h

theorem term_ok (k : Terminal) (l : String) (r : List Token) :
    term k (⟨k, l⟩ :: r) = some (Outcome.ok l r) := by
  simp [term]

/-- The parts of a list form that `listExpr` has matched. -/
theorem listExpr_inv (fuel : Nat) (start fin : Parser String) (rec : Parser Value)
    (ts r : List Token) (v : Value)
    (h : listExpr fuel start rec fin ts = some (Outcome.ok v r)) :
    ∃ l0 ts1 es ts2 t ts3 l1,
      start ts = some (Outcome.ok l0 ts1)
        ∧ pegMulti fuel rec ts1 = some (Outcome.ok es ts2)
        ∧ pegOption (pegBind (pegAnd (term _DOT) rec) select1of2) ts2 = some (Outcome.ok t ts3)
        ∧ fin ts3 = some (Outcome.ok l1 r)
        ∧ v = innerAction (some (es, tailAction t)) := by
  simp only [listExpr, pegAnd3] at h
  obtain ⟨x, hx, hsel⟩ := pegBind_inv _ _ _ _ _ h
  obtain ⟨ts1, hstart, hrest⟩ := pegAnd_inv _ _ _ _ _ hx
  obtain ⟨ts3, hinner, hfin⟩ := pegAnd_inv _ _ _ _ _ hrest
  obtain ⟨o, ho, hact⟩ := pegBind_inv _ _ _ _ _ hinner
  simp only [select1of3, Option.some.injEq] at hsel
  simp only [Option.some.injEq] at hact
  rcases pegOption_inv _ _ _ _ ho with ⟨y, rfl, hy⟩ | ⟨_, _, hfail⟩
  · obtain ⟨ts2, hmulti, htail⟩ := pegAnd_inv _ _ _ _ _ hy
    obtain ⟨t, ht, htv⟩ := pegBind_inv _ _ _ _ _ htail
    simp only [Option.some.injEq] at htv
    refine ⟨x.1, ts1, y.1, ts2, t, ts3, x.2.2, hstart, hmulti, ht, hfin, ?_⟩
    rw [← hsel, ← hact, htv]
  · rcases pegAnd_fail_inv _ _ _ hfail with h1 | ⟨a, r1, _, h2⟩
    · exact absurd h1 (pegMulti_ne_fail _ _ _)
    · exact absurd (pegBind_fail_inv _ _ _ h2) (pegOption_ne_fail _ _)

/-! ## Parsing expressions: what a match looks at -/

/-- No expression starts at the end of the stream or with a Dot, a closing
bracket, a comment or whitespace token. -/
theorem expr_fail_at (fuel : Nat) (ts : List Token)
    (h : ts = [] ∨ ∃ t rest, ts = t :: rest
      ∧ (t.kind = _DOT ∨ t.kind = _LEND ∨ t.kind = _LEND2 ∨ t.kind = _COMMENT ∨ t.kind = _WS)) :
    expr (fuel + 1) ts = some Outcome.fail := by
  rcases h with rfl | ⟨t, rest, rfl, hk⟩
  · simp [expr, pegOr, pegBind, pegAnd, pegAnd3, listExpr, term]
  · rcases hk with hk | hk | hk | hk | hk <;>
      simp [expr, pegOr, pegBind, pegAnd, pegAnd3, listExpr, term, hk]

/-- On a stream that starts with an opening primary bracket the root grammar
is the primary list production. -/
theorem expr_lstart (fuel : Nat) (l : String) (ts : List Token) :
    expr (fuel + 1) (⟨_LSTART, l⟩ :: ts)
      = listExpr fuel (term _LSTART) (expr fuel) (term _LEND) (⟨_LSTART, l⟩ :: ts) := by
  simp only [expr, pegOr, pegBind, term]
  simp only [reduceCtorEq, if_false]
  cases h : listExpr fuel (term _LSTART) (expr fuel) (term _LEND) (⟨_LSTART, l⟩ :: ts) with
  | none => rfl
  | some o =>
    cases o with
    | ok v r => rfl
    | fail => simp [listExpr, pegAnd3, pegAnd, pegBind, term]

/-- On a stream that starts with an opening secondary bracket the root
grammar is the secondary list production. -/
theorem expr_lstart2 (fuel : Nat) (l : String) (ts : List Token) :
    expr (fuel + 1) (⟨_LSTART2, l⟩ :: ts)
      = listExpr fuel (term _LSTART2) (expr fuel) (term _LEND2) (⟨_LSTART2, l⟩ :: ts) := by
  have h1 : listExpr fuel (term _LSTART) (expr fuel) (term _LEND) (⟨_LSTART2, l⟩ :: ts)
      = some Outcome.fail := by
    simp [listExpr, pegAnd3, pegAnd, pegBind, term]
  simp only [expr, pegOr, h1]
  simp only [pegBind, term, reduceCtorEq, if_false]
  cases h : listExpr fuel (term _LSTART2) (expr fuel) (term _LEND2) (⟨_LSTART2, l⟩ :: ts) with
  | none => rfl
  | some o =>
    cases o with
    | ok v r => rfl
    | fail => simp [pegAnd, term]

/-- A parsing expression is local when a match consumes a nonempty prefix of
the stream and does not depend on what follows that prefix. -/
theorem pegMulti_local (p : Parser Value)
    (hp : ∀ ts v r, p ts = some (Outcome.ok v r) →
      ∃ xs, ts = xs ++ r ∧ ∀ r', p (xs ++ r') = some (Outcome.ok v r'))
    (m : Nat) (ts r : List Token) (vs : List Value)
    (h : pegMulti m p ts = some (Outcome.ok vs r)) :
    ∃ xs, ts = xs ++ r
      ∧ ∀ r', p r' = some Outcome.fail → pegMulti m p (xs ++ r') = some (Outcome.ok vs r') := by
  induction m generalizing ts vs with
  | zero => simp [pegMulti] at h
  | succ m ih =>
    simp only [pegMulti] at h
    cases hpt : p ts with
    | none => rw [hpt] at h; cases h
    | some o =>
      cases o with
      | fail =>
        rw [hpt] at h
        simp only [Option.some.injEq, Outcome.ok.injEq] at h
        obtain ⟨rfl, rfl⟩ := h
        refine ⟨[], rfl, ?_⟩
        intro r' hr'
        simp [pegMulti, hr']
      | ok v rest =>
        rw [hpt] at h
        simp only at h
        cases hm : pegMulti m p rest with
        | none => rw [hm] at h; cases h
        | some o2 =>
          cases o2 with
          | fail => rw [hm] at h; cases h
          | ok vs' r2 =>
            rw [hm] at h
            simp only [Option.some.injEq, Outcome.ok.injEq] at h
            obtain ⟨rfl, rfl⟩ := h
            obtain ⟨xs0, hx0, hloc0⟩ := hp ts v rest hpt
            obtain ⟨xs1, hx1, hloc1⟩ := ih rest vs' hm
            refine ⟨xs0 ++ xs1, by rw [hx0, hx1, List.append_assoc], ?_⟩
            intro r' hr'
            simp only [pegMulti, List.append_assoc, hloc0 (xs1 ++ r'), hloc1 r' hr']

/-- The optional dotted tail of a list form, when followed by a closing
bracket, does not depend on what follows it. -/
theorem tail_local (p : Parser Value)
    (hp : ∀ ts v r, p ts = some (Outcome.ok v r) →
      ∃ xs, ts = xs ++ r ∧ ∀ r', p (xs ++ r') = some (Outcome.ok v r'))
    (ts : List Token) (t : Option Value) (c : Token) (r : List Token)
    (h : pegOption (pegBind (pegAnd (term _DOT) p) select1of2) ts = some (Outcome.ok t (c :: r))) :
    ∃ xs, ts = xs ++ c :: r
      ∧ ∀ c' r', (c'.kind = _LEND ∨ c'.kind = _LEND2) →
          pegOption (pegBind (pegAnd (term _DOT) p) select1of2) (xs ++ c' :: r')
            = some (Outcome.ok t (c' :: r')) := by
  rcases pegOption_inv _ _ _ _ h with ⟨v, rfl, hv⟩ | ⟨rfl, hts, _⟩
  · obtain ⟨x, hx, hsel⟩ := pegBind_inv _ _ _ _ _ hv
    obtain ⟨r1, hdot, hrec⟩ := pegAnd_inv _ _ _ _ _ hx
    have hts := term_inv _ _ _ _ hdot
    obtain ⟨xs, hxs, hloc⟩ := hp _ _ _ hrec
    simp only [select1of2, Option.some.injEq] at hsel
    refine ⟨⟨_DOT, x.1⟩ :: xs, by rw [hts, hxs]; rfl, ?_⟩
    intro c' r' _
    apply pegOption_ok
    refine pegBind_ok _ _ _ _ x _ ?_ (by simp [select1of2, hsel])
    exact pegAnd_ok _ _ _ (xs ++ c' :: r') _ _ _ (term_ok _ _ _) (hloc _)
  · refine ⟨[], by rw [← hts]; rfl, ?_⟩
    intro c' r' hc'
    rcases hc' with hk | hk <;>
      simp [pegOption, pegBind, pegAnd, term, hk]

/-- A list form matched by `listExpr` between brackets: the tokens between
the brackets read as the same value between any pair of brackets, whatever
follows. -/
theorem listExpr_local (fuel : Nat) (ks ke : Terminal)
    (hp : ∀ ts v r, expr fuel ts = some (Outcome.ok v r) →
      ∃ xs, ts = xs ++ r ∧ ∀ r', expr fuel (xs ++ r') = some (Outcome.ok v r'))
    (ts r : List Token) (v : Value)
    (h : listExpr fuel (term ks) (expr fuel) (term ke) ts = some (Outcome.ok v r)) :
    ∃ l0 body l1, ts = ⟨ks, l0⟩ :: body ++ ⟨ke, l1⟩ :: r
      ∧ ∀ ks' ke' m0 m1 r', (ke' = _LEND ∨ ke' = _LEND2) →
          listExpr fuel (term ks') (expr fuel) (term ke') (⟨ks', m0⟩ :: body ++ ⟨ke', m1⟩ :: r')
            = some (Outcome.ok v r') := by
  obtain ⟨l0, ts1, es, ts2, t, ts3, l1, hstart, hmulti, htail, hfin, hv⟩ :=
    listExpr_inv _ _ _ _ _ _ _ h
  have h0 := term_inv _ _ _ _ hstart
  have h3 := term_inv _ _ _ _ hfin
  subst h3
  obtain ⟨xs2, hxs2, hloc2⟩ := tail_local (expr fuel) hp ts2 t _ r htail
  obtain ⟨xs1, hxs1, hloc1⟩ := pegMulti_local (expr fuel) hp fuel ts1 ts2 es hmulti
  have hfuel : ∃ f', fuel = f' + 1 := by
    cases fuel with
    | zero => simp [pegMulti] at hmulti
    | succ f' => exact ⟨f', rfl⟩
  obtain ⟨f', rfl⟩ := hfuel
  refine ⟨l0, xs1 ++ xs2, l1, by rw [h0, hxs1, hxs2]; simp, ?_⟩
  intro ks' ke' m0 m1 r' hke'
  rw [hv]
  have hc' : (⟨ke', m1⟩ : Token).kind = _LEND ∨ (⟨ke', m1⟩ : Token).kind = _LEND2 := hke'
  have htail' := hloc2 ⟨ke', m1⟩ r' hc'
  have hfail : expr (f' + 1) (xs2 ++ ⟨ke', m1⟩ :: r') = some Outcome.fail := by
    apply expr_fail_at
    cases xs2 with
    | nil =>
      right
      refine ⟨_, _, rfl, ?_⟩
      rcases hke' with rfl | rfl
      · exact Or.inr (Or.inl rfl)
      · exact Or.inr (Or.inr (Or.inl rfl))
    | cons d xs2' =>
      right
      refine ⟨d, xs2' ++ ⟨ke', m1⟩ :: r', rfl, ?_⟩
      -- the tail begins with the Dot token
      rcases pegOption_inv _ _ _ _ htail with ⟨w, _, hw⟩ | ⟨_, hts, _⟩
      · obtain ⟨x, hx, _⟩ := pegBind_inv _ _ _ _ _ hw
        obtain ⟨r1, hdot, _⟩ := pegAnd_inv _ _ _ _ _ hx
        have := term_inv _ _ _ _ hdot
        rw [hxs2] at this
        simp only [List.cons_append, List.cons.injEq] at this
        rw [this.1]
        exact Or.inl rfl
      · rw [hxs2] at hts
        have hlen := congrArg List.length hts
        simp only [List.length_cons, List.length_append] at hlen
        omega
  have hmulti' := hloc1 (xs2 ++ ⟨ke', m1⟩ :: r') hfail
  have := listExpr_of_parts (f' + 1) (term ks') (term ke') (expr (f' + 1))
    (⟨ks', m0⟩ :: (xs1 ++ xs2) ++ ⟨ke', m1⟩ :: r') (xs1 ++ (xs2 ++ ⟨ke', m1⟩ :: r'))
    (xs2 ++ ⟨ke', m1⟩ :: r') (⟨ke', m1⟩ :: r') r' m0 m1 es t
    (by simp [term]) hmulti' htail' (term_ok _ _ _)
  exact this

/-- A match of the root grammar consumes a prefix of the stream and does
not depend on the tokens that follow that prefix. -/
theorem expr_local (fuel : Nat) (ts : List Token) (v : Value) (r : List Token)
    (h : expr fuel ts = some (Outcome.ok v r)) :
    ∃ xs, ts = xs ++ r ∧ ∀ r', expr fuel (xs ++ r') = some (Outcome.ok v r') := by
  induction fuel generalizing ts v r with
  | zero => simp [expr] at h
  | succ f ih =>
    cases ts with
    | nil =>
      rw [expr_fail_at f [] (Or.inl rfl)] at h
      cases h
    | cons t rest =>
      obtain ⟨k, l⟩ := t
      cases k with
      | _DOT =>
        rw [expr_fail_at f _ (Or.inr ⟨_, _, rfl, Or.inl rfl⟩)] at h
        cases h
      | _LEND =>
        rw [expr_fail_at f _ (Or.inr ⟨_, _, rfl, Or.inr (Or.inl rfl)⟩)] at h
        cases h
      | _LEND2 =>
        rw [expr_fail_at f _ (Or.inr ⟨_, _, rfl, Or.inr (Or.inr (Or.inl rfl))⟩)] at h
        cases h
      | _COMMENT =>
        rw [expr_fail_at f _ (Or.inr ⟨_, _, rfl, Or.inr (Or.inr (Or.inr (Or.inl rfl)))⟩)] at h
        cases h
      | _WS =>
        rw [expr_fail_at f _ (Or.inr ⟨_, _, rfl, Or.inr (Or.inr (Or.inr (Or.inr rfl)))⟩)] at h
        cases h
      | _INT =>
        simp only [expr, pegOr, pegBind, term, if_true, Option.some.injEq, Outcome.ok.injEq] at h
        obtain ⟨rfl, rfl⟩ := h
        exact ⟨[_], rfl, fun r' => by simp [expr, pegOr, pegBind, term]⟩
      | _FLOAT =>
        simp only [expr, pegOr, pegBind, term, reduceCtorEq, if_false, if_true,
          Option.some.injEq, Outcome.ok.injEq] at h
        obtain ⟨rfl, rfl⟩ := h
        exact ⟨[_], rfl, fun r' => by simp [expr, pegOr, pegBind, term]⟩
      | _STR =>
        simp only [expr, pegOr, pegBind, term, reduceCtorEq, if_false, if_true,
          Option.some.injEq, Outcome.ok.injEq] at h
        obtain ⟨rfl, rfl⟩ := h
        exact ⟨[_], rfl, fun r' => by simp [expr, pegOr, pegBind, term]⟩
      | _SYMBOL =>
        simp only [expr, pegOr, pegBind, pegAnd, pegAnd3, listExpr, term, reduceCtorEq, if_false,
          if_true, Option.some.injEq, Outcome.ok.injEq] at h
        obtain ⟨rfl, rfl⟩ := h
        exact ⟨[_], rfl, fun r' => by
          simp [expr, pegOr, pegBind, pegAnd, pegAnd3, listExpr, term]⟩
      | _HASH =>
        simp only [expr, pegOr, pegBind, pegAnd, pegAnd3, listExpr, term, reduceCtorEq, if_false,
          if_true] at h
        cases hh : hashAction l with
        | none => rw [hh] at h; cases h
        | some w =>
          rw [hh] at h
          simp only [Option.some.injEq, Outcome.ok.injEq] at h
          obtain ⟨rfl, rfl⟩ := h
          exact ⟨[_], rfl, fun r' => by
            simp [expr, pegOr, pegBind, pegAnd, pegAnd3, listExpr, term, hh]⟩
      | _QUOTE =>
        simp only [expr, pegOr, pegBind, pegAnd, pegAnd3, listExpr, term, reduceCtorEq, if_false,
          if_true] at h
        cases hx : expr f rest with
        | none => rw [hx] at h; cases h
        | some o =>
          cases o with
          | fail => rw [hx] at h; simp at h
          | ok x r1 =>
            rw [hx] at h
            simp only [Option.some.injEq, Outcome.ok.injEq] at h
            obtain ⟨rfl, rfl⟩ := h
            obtain ⟨xs, hxs, hloc⟩ := ih rest x r1 hx
            refine ⟨⟨_QUOTE, l⟩ :: xs, by rw [hxs]; rfl, ?_⟩
            intro r'
            simp [expr, pegOr, pegBind, pegAnd, pegAnd3, listExpr, term, hloc r']
      | _LSTART =>
        rw [expr_lstart] at h
        obtain ⟨l0, body, l1, hts, hloc⟩ :=
          listExpr_local f _LSTART _LEND ih _ _ _ h
        refine ⟨⟨_LSTART, l0⟩ :: body ++ [⟨_LEND, l1⟩], by rw [hts]; simp, ?_⟩
        intro r'
        have := hloc _LSTART _LEND l0 l1 r' (Or.inl rfl)
        simp only [List.cons_append, List.append_assoc, List.singleton_append]
        rw [expr_lstart]
        exact this
      | _LSTART2 =>
        rw [expr_lstart2] at h
        obtain ⟨l0, body, l1, hts, hloc⟩ :=
          listExpr_local f _LSTART2 _LEND2 ih _ _ _ h
        refine ⟨⟨_LSTART2, l0⟩ :: body ++ [⟨_LEND2, l1⟩], by rw [hts]; simp, ?_⟩
        intro r'
        have := hloc _LSTART2 _LEND2 l0 l1 r' (Or.inr rfl)
        simp only [List.cons_append, List.append_assoc, List.singleton_append]
        rw [expr_lstart2]
        exact this

/-- A list form read between primary brackets reads as the same value
between secondary brackets, and conversely. -/
theorem expr_swap_brackets (fuel : Nat) (ks ke ks' ke' : Terminal)
    (hke' : ke' = _LEND ∨ ke' = _LEND2)
    (body rest : List Token) (l0 l1 m0 m1 : String) (v : Value)
    (h : listExpr fuel (term ks) (expr fuel) (term ke) (⟨ks, l0⟩ :: body ++ ⟨ke, l1⟩ :: rest)
      = some (Outcome.ok v rest)) :
    listExpr fuel (term ks') (expr fuel) (term ke') (⟨ks', m0⟩ :: body ++ ⟨ke', m1⟩ :: rest)
      = some (Outcome.ok v rest) := by
  obtain ⟨a0, body', a1, hts, hloc⟩ :=
    listExpr_local fuel ks ke (expr_local fuel) _ _ _ h
  have hbody : body = body' := by
    have h1 : (⟨ks, l0⟩ :: body ++ [⟨ke, l1⟩]) ++ rest
        = (⟨ks, a0⟩ :: body' ++ [⟨ke, a1⟩]) ++ rest := by
      simpa using hts
    have h2 := List.append_cancel_right h1
    simp only [List.cons_append, List.cons.injEq] at h2
    have h3 := h2.2
    have hlen := congrArg List.length h3
    simp only [List.length_append, List.length_singleton] at hlen
    exact (List.append_inj h3 (by omega)).1
  rw [hbody]
  exact hloc ks' ke' m0 m1 rest hke'

/-- On a stream that is not empty, `Read` returns a value and the tokens left
exactly when the root grammar matches with that value and those tokens. -/
theorem readFrom_ok_iff (t : Token) (ts rest : List Token) (clean : Bool) (v : Value)
    (hlen : rest.length < (t :: ts).length) :
    readFrom ⟨t :: ts, clean⟩ = some (v, ⟨rest, clean⟩)
      ↔ expr ((t :: ts).length + 1) (t :: ts) = some (Outcome.ok v rest) := by
  simp only [readFrom, pegOr]
  cases h : expr ((t :: ts).length + 1) (t :: ts) with
  | none => simp
  | some o =>
    cases o with
    | ok w r => simp
    | fail =>
      simp only [pegBind, pegEof, Option.some.injEq, Prod.mk.injEq, Stream.mk.injEq,
        reduceCtorEq, iff_false, not_and]
      intro _ hts
      rw [← hts] at hlen
      omega

/-- C5: for every token sequence `body`, the stream `( body )` reads as a
complete list form with value `v` exactly when `[ body ]` does, whatever
follows, both through `Read` and through the root grammar with any amount of
fuel; `(a b c)` and `[a b c]` read as the same pair chain, and `()` and `[]`
both read as the empty-list sentinel, which is not a pair. -/
theorem brackets_read_alike (body rest : List Token) (clean : Bool) (v : Value)
    (l0 l1 m0 m1 : String) :
    (readFrom ⟨⟨_LSTART, l0⟩ :: body ++ ⟨_LEND, l1⟩ :: rest, clean⟩ = some (v, ⟨rest, clean⟩)
        ↔ readFrom ⟨⟨_LSTART2, m0⟩ :: body ++ ⟨_LEND2, m1⟩ :: rest, clean⟩
            = some (v, ⟨rest, clean⟩))
      ∧ (∀ fuel, expr (fuel + 1) (⟨_LSTART, l0⟩ :: body ++ ⟨_LEND, l1⟩ :: rest)
            = some (Outcome.ok v rest)
          ↔ expr (fuel + 1) (⟨_LSTART2, m0⟩ :: body ++ ⟨_LEND2, m1⟩ :: rest)
            = some (Outcome.ok v rest))
      ∧ ReadString "(a b c)" = ReadString "[a b c]"
      ∧ ReadString "[a b c]"
          = some (Cons (Symbol "a") (Cons (Symbol "b") (Cons (Symbol "c") EMPTY_LIST)))
      ∧ ReadString "()" = some EMPTY_LIST
      ∧ ReadString "[]" = some EMPTY_LIST
      ∧ (∀ a d, EMPTY_LIST ≠ Value.pair a d) := by
  have hexpr : ∀ fuel, expr (fuel + 1) (⟨_LSTART, l0⟩ :: body ++ ⟨_LEND, l1⟩ :: rest)
        = some (Outcome.ok v rest)
      ↔ expr (fuel + 1) (⟨_LSTART2, m0⟩ :: body ++ ⟨_LEND2, m1⟩ :: rest)
        = some (Outcome.ok v rest) := by
    intro fuel
    simp only [List.cons_append]
    rw [expr_lstart, expr_lstart2]
    constructor
    · intro h
      exact expr_swap_brackets _ _LSTART _LEND _LSTART2 _LEND2 (Or.inr rfl) body rest
        l0 l1 m0 m1 v h
    · intro h
      exact expr_swap_brackets _ _LSTART2 _LEND2 _LSTART _LEND (Or.inl rfl) body rest
        m0 m1 l0 l1 v h
  refine ⟨?_, hexpr, by decide, by decide, by decide, by decide, fun a d h => by cases h⟩
  have hlen1 : rest.length < (⟨_LSTART, l0⟩ :: body ++ ⟨_LEND, l1⟩ :: rest).length := by
    simp only [List.cons_append, List.length_cons, List.length_append]; omega
  have hlen2 : rest.length < (⟨_LSTART2, m0⟩ :: body ++ ⟨_LEND2, m1⟩ :: rest).length := by
    simp only [List.cons_append, List.length_cons, List.length_append]; omega
  have hsame : (⟨_LSTART2, m0⟩ :: body ++ ⟨_LEND2, m1⟩ :: rest).length
      = (⟨_LSTART, l0⟩ :: body ++ ⟨_LEND, l1⟩ :: rest).length := by
    simp only [List.cons_append, List.length_cons, List.length_append]
  have h := hexpr (⟨_LSTART, l0⟩ :: body ++ ⟨_LEND, l1⟩ :: rest).length
  simp only [List.cons_append] at hlen1 hlen2 hsame h ⊢
  rw [readFrom_ok_iff _ _ _ _ _ hlen1, readFrom_ok_iff _ _ _ _ _ hlen2, hsame]
  exact h

/-! ## Inserting a separator between two tokens -/

/-- Every prefix matched by a pattern of the table is at most as long as the
token chosen. -/
theorem lexStep_bound (s : List Char) (k : Terminal) (n : Nat) (h : lexStep s = some (k, n))
    (e : Terminal × Regex) (he : e ∈ lex) (m : Nat) (hm : m ≤ s.length)
    (hmat : Regex.Matches e.2 (s.take m)) : m ≤ n := by
  cases hl : e.2.longest s with
  | none => exact absurd hmat (Regex.longest_none _ _ hl m hm)
  | some m' =>
    have h1 := pick_fold_bound s lex none k n h e he m' hl
    have h2 := (Regex.longest_some _ _ m' hl).2.2
    by_contra hcon
    exact h2 m (by omega) hm hmat

/-- The token chosen is the longest match of a pattern of its kind. -/
theorem lexStep_winner (s : List Char) (k : Terminal) (n : Nat) (h : lexStep s = some (k, n)) :
    ∃ e ∈ lex, e.1 = k ∧ e.2.longest s = some n ∧ Regex.Matches e.2 (s.take n) := by
  rcases pick_fold_mem s lex none k n h with h0 | ⟨e, he, h1, h2⟩
  · cases h0
  · exact ⟨e, he, h1, h2, (Regex.longest_some _ _ n h2).2.1⟩

theorem firstOK_space (k : Terminal) (c : Char) (hc : isSpace c = true)
    (h : firstOK k c = true) : k = _WS := by
  rcases isSpace_cases c hc with rfl | rfl | rfl | rfl <;> cases k <;>
    first
      | rfl
      | (exfalso; revert h; decide)

theorem firstOK_hash (k : Terminal) (h : firstOK k '#' = true) : k = _HASH := by
  cases k <;> first | rfl | (exfalso; revert h; decide)

theorem firstOK_dquote (k : Terminal) (h : firstOK k dquote = true) : k = _STR := by
  cases k <;> first | rfl | (exfalso; revert h; decide)

theorem firstOK_semicolon (k : Terminal) (h : firstOK k ';' = true) :
    k = _COMMENT ∨ k = _SYMBOL := by
  cases k <;> first | exact Or.inl rfl | exact Or.inr rfl | (exfalso; revert h; decide)

/-- A kept token that begins with a Symbol character is a Dot, Int, Float
or Symbol token. -/
theorem firstOK_symbolChar (k : Terminal) (c : Char) (hc : c ∉ symbolExcluded)
    (hk : keep k = true) (h : firstOK k c = true) : absorbsComment (some k) = true := by
  cases k
  case _DOT => rfl
  case _INT => rfl
  case _FLOAT => rfl
  case _SYMBOL => rfl
  case _COMMENT => exact absurd hk (by decide)
  case _WS => exact absurd hk (by decide)
  case _LSTART =>
    simp only [firstOK, beq_iff_eq] at h
    subst h; exact absurd (by decide) hc
  case _LEND =>
    simp only [firstOK, beq_iff_eq] at h
    subst h; exact absurd (by decide) hc
  case _LSTART2 =>
    simp only [firstOK, beq_iff_eq] at h
    subst h; exact absurd (by decide) hc
  case _LEND2 =>
    simp only [firstOK, beq_iff_eq] at h
    subst h; exact absurd (by decide) hc
  case _STR =>
    simp only [firstOK, beq_iff_eq] at h
    subst h; exact absurd (by decide) hc
  case _HASH =>
    simp only [firstOK, beq_iff_eq] at h
    subst h; exact absurd (by decide) hc
  case _QUOTE =>
    simp only [firstOK, Bool.or_eq_true, beq_iff_eq] at h
    rcases h with (h | h) | h <;> (subst h; exact absurd (by decide) hc)

theorem lex_entry_hash (e : Terminal × Regex) (he : e ∈ lex) (hk : e.1 = _HASH) :
    e.2 = Regex.cat (Regex.chr '#') Regex.any := by
  simp only [lex, List.mem_cons, List.mem_singleton, List.not_mem_nil, or_false] at he
  rcases he with rfl | rfl | rfl | rfl | rfl | rfl | rfl | rfl | rfl | rfl | rfl | rfl | rfl <;>
    first | rfl | cases hk

theorem lex_entry_str (e : Terminal × Regex) (he : e ∈ lex) (hk : e.1 = _STR) :
    e.2 = Regex.cat (Regex.chr dquote)
      (Regex.cat (Regex.star (Regex.alt (Regex.noneOf [dquote]) (Regex.chr '.')))
        (Regex.chr dquote)) := by
  simp only [lex, List.mem_cons, List.mem_singleton, List.not_mem_nil, or_false] at he
  rcases he with rfl | rfl | rfl | rfl | rfl | rfl | rfl | rfl | rfl | rfl | rfl | rfl | rfl <;>
    first | rfl | cases hk

theorem lex_entry_symbol (e : Terminal × Regex) (he : e ∈ lex) (hk : e.1 = _SYMBOL) :
    e.2 = Regex.plus (Regex.noneOf symbolExcluded) := by
  simp only [lex, List.mem_cons, List.mem_singleton, List.not_mem_nil, or_false] at he
  rcases he with rfl | rfl | rfl | rfl | rfl | rfl | rfl | rfl | rfl | rfl | rfl | rfl | rfl <;>
    first | rfl | cases hk

theorem matches_float_chars (s : List Char)
    (h : Regex.Matches (Regex.cat (Regex.plus (Regex.cls isDigit))
        (Regex.opt (Regex.cat (Regex.chr '.') (Regex.plus (Regex.cls isDigit))))) s) :
    ∀ c ∈ s, isDigit c = true ∨ c = '.' := by
  rw [matches_float_iff] at h
  obtain ⟨ip, fp, _, h2, (⟨_, rfl⟩ | ⟨_, h4, rfl⟩)⟩ := h
  · intro c hc; exact Or.inl (h2 c hc)
  · intro c hc
    rcases List.mem_append.mp hc with hc | hc
    · exact Or.inl (h2 c hc)
    · rcases List.mem_cons.mp hc with rfl | hc
      · exact Or.inr rfl
      · exact Or.inl (h4 c hc)

/-- A separator begins with a whitespace character or with `;`. -/
theorem separator_head (g : List Char) (h : isSeparator g = true) :
    ∃ c0 g', g = c0 :: g' ∧ (isSpace c0 = true ∨ c0 = ';') := by
  cases g with
  | nil => simp [isSeparator] at h
  | cons c0 g' =>
    refine ⟨c0, g', rfl, ?_⟩
    simp only [isSeparator, List.isEmpty_cons, Bool.not_false, Bool.true_and, separatorFrom] at h
    by_cases hs : isSpace c0 = true
    · exact Or.inl hs
    · by_cases hc : c0 = ';'
      · exact Or.inr hc
      · simp [hs, hc] at h

theorem separator_char_facts (c0 : Char) (hc0 : isSpace c0 = true ∨ c0 = ';') :
    isDigit c0 = false ∧ c0 ≠ '.' ∧ c0 ≠ squote ∧ c0 ≠ bquote ∧ c0 ≠ ',' ∧ c0 ≠ '@'
      ∧ c0 ≠ dquote ∧ c0 ≠ '#' := by
  rcases hc0 with h | rfl
  · rcases isSpace_cases c0 h with rfl | rfl | rfl | rfl <;> decide
  · decide

theorem space_excluded (c : Char) (h : isSpace c = true) : c ∈ symbolExcluded := by
  rcases isSpace_cases c h with rfl | rfl | rfl | rfl <;> decide

/-- Once a token has been chosen, no pattern of the table matches a text
that runs from the start of that token across a separator written later in
the text, provided the separator does not directly follow the token or the
token cannot absorb its first character. -/
theorem no_match_across (l u post x : List Char) (c0 : Char) (k : Terminal)
    (hstep : lexStep (l ++ u ++ post) = some (k, l.length))
    (hc0 : isSpace c0 = true ∨ c0 = ';')
    (hside : u ≠ [] ∨ (keep k = true ∧ (isSpace c0 = true ∨ absorbsComment (some k) = false)))
    (e : Terminal × Regex) (he : e ∈ lex) :
    ¬ Regex.Matches e.2 (l ++ u ++ c0 :: x) := by
  have hlpos := (lexStep_pos _ _ _ hstep).1
  obtain ⟨a, l', rfl⟩ : ∃ a l', l = a :: l' := by
    cases l with
    | nil => simp at hlpos
    | cons a l' => exact ⟨a, l', rfl⟩
  obtain ⟨ek, hek, hekk, heklong, hekm⟩ := lexStep_winner _ _ _ hstep
  have htake : ((a :: l') ++ u ++ post).take (a :: l').length = a :: l' := by
    rw [List.append_assoc, List.take_left]
  rw [htake] at hekm
  have hfirst := lex_first_char ek hek a l' hekm
  rw [hekk] at hfirst
  have hbound := lexStep_bound _ _ _ hstep
  have hprefix : ∀ u0 u', u = u0 :: u' → ∀ e' ∈ lex, ¬ Regex.Matches e'.2 ((a :: l') ++ [u0]) := by
    intro u0 u' hu e' he' hm
    subst hu
    have htk : ((a :: l') ++ (u0 :: u') ++ post).take ((a :: l').length + 1)
        = (a :: l') ++ [u0] := by
      have : (a :: l') ++ (u0 :: u') ++ post = ((a :: l') ++ [u0]) ++ (u' ++ post) := by simp
      rw [this]
      have hlen : (a :: l').length + 1 = ((a :: l') ++ [u0]).length := by simp
      rw [hlen, List.take_left]
    have := hbound e' he' ((a :: l').length + 1)
      (by simp only [List.length_append, List.length_cons]; omega) (by rw [htk]; exact hm)
    omega
  obtain ⟨hdig, hdot, hsq, hbq, hcomma, hat, hdq, hhash⟩ := separator_char_facts c0 hc0
  have hmem0 : c0 ∈ (a :: l') ++ u ++ c0 :: x := by simp
  intro hmat
  simp only [lex, List.mem_cons, List.mem_singleton, List.not_mem_nil, or_false] at he
  rcases he with rfl | rfl | rfl | rfl | rfl | rfl | rfl | rfl | rfl | rfl | rfl | rfl | rfl
  · rw [Regex.matches_chr_iff] at hmat
    have := congrArg List.length hmat
    simp only [List.length_append, List.length_cons, List.length_nil] at this
    omega
  · rw [Regex.matches_chr_iff] at hmat
    have := congrArg List.length hmat
    simp only [List.length_append, List.length_cons, List.length_nil] at this
    omega
  · rw [Regex.matches_chr_iff] at hmat
    have := congrArg List.length hmat
    simp only [List.length_append, List.length_cons, List.length_nil] at this
    omega
  · rw [Regex.matches_chr_iff] at hmat
    have := congrArg List.length hmat
    simp only [List.length_append, List.length_cons, List.length_nil] at this
    omega
  · rw [Regex.matches_chr_iff] at hmat
    have := congrArg List.length hmat
    simp only [List.length_append, List.length_cons, List.length_nil] at this
    omega
  · -- Int
    rw [Regex.matches_plus_cls] at hmat
    have := hmat.2 c0 hmem0
    rw [hdig] at this
    cases this
  · -- Float
    rcases matches_float_chars _ hmat c0 hmem0 with h | h
    · rw [hdig] at h; cases h
    · exact hdot h
  · -- Str
    rw [matches_str_iff] at hmat
    obtain ⟨mid, hmid, hno⟩ := hmat
    simp only [List.cons_append, List.cons.injEq] at hmid
    obtain ⟨ha, hrest⟩ := hmid
    subst ha
    have hk := firstOK_dquote k hfirst
    have hpat := lex_entry_str ek hek (by rw [hekk, hk])
    rw [hpat, matches_str_iff] at hekm
    obtain ⟨midl, hmidl, _⟩ := hekm
    simp only [List.cons.injEq, true_and] at hmidl
    subst hmidl
    -- the closing quote of the token lies inside the longer match
    have hne : u ++ c0 :: x ≠ [] := by simp
    obtain ⟨y, z, hyz⟩ : ∃ y z, u ++ c0 :: x = y ++ [z] :=
      ⟨(u ++ c0 :: x).dropLast, (u ++ c0 :: x).getLast hne,
        (List.dropLast_append_getLast hne).symm⟩
    have heq : (midl ++ dquote :: y) ++ [z] = mid ++ [dquote] := by
      rw [← hrest]
      simp only [List.append_assoc, List.cons_append, List.nil_append]
      rw [← hyz]
    have := (List.append_inj' heq rfl).1
    exact hno dquote (by rw [← this]; simp) rfl
  · -- Comment
    rw [matches_comment_iff] at hmat
    obtain ⟨body, hbody, hno⟩ := hmat
    simp only [List.cons_append, List.cons.injEq] at hbody
    obtain ⟨ha, hrest⟩ := hbody
    subst ha
    rcases hside with hu | ⟨hkeep, _⟩
    · obtain ⟨u0, u', rfl⟩ : ∃ u0 u', u = u0 :: u' := by
        cases u with
        | nil => exact absurd rfl hu
        | cons u0 u' => exact ⟨u0, u', rfl⟩
      refine hprefix u0 u' rfl
        (_COMMENT, Regex.cat (Regex.chr ';') (Regex.star (Regex.noneOf ['\n'])))
        (by simp [lex]) ?_
      rw [matches_comment_iff]
      refine ⟨l' ++ [u0], rfl, ?_⟩
      intro c hc
      apply hno c
      rw [← hrest]
      simp only [List.mem_append, List.mem_singleton, List.mem_cons, List.not_mem_nil,
        or_false] at hc ⊢
      tauto
    · rcases firstOK_semicolon k hfirst with hk | hk
      · rw [hk] at hkeep; exact absurd hkeep (by decide)
      · have hpat := lex_entry_symbol ek hek (by rw [hekk, hk])
        rw [hpat, matches_symbol_iff] at hekm
        have hcm : Regex.Matches (Regex.cat (Regex.chr ';') (Regex.star (Regex.noneOf ['\n'])))
            ((';' :: l' ++ u ++ post).take (';' :: l').length) := by
          rw [htake, matches_comment_iff]
          refine ⟨l', rfl, ?_⟩
          intro c hc hcn
          subst hcn
          exact hekm.2 _ (List.mem_cons_of_mem _ hc) (by decide)
        have hlong : (Regex.cat (Regex.chr ';') (Regex.star (Regex.noneOf ['\n']))).longest
            (';' :: l' ++ u ++ post) = some (';' :: l').length := by
          apply Regex.longest_eq_some
          · simp only [List.length_append, List.length_cons]; omega
          · exact hcm
          · intro m hm hle hmm
            have := hbound
              (_COMMENT, Regex.cat (Regex.chr ';') (Regex.star (Regex.noneOf ['\n'])))
              (by simp [lex]) m hle hmm
            omega
        have hsplit := lex_split_comment
        unfold lexStep at hstep
        rw [hsplit] at hstep
        rcases pick_fold_first _ _ _ _ _ _ hstep hlong with h | ⟨e', he', h⟩
        · rw [hk] at h; cases h
        · simp only [lex, List.take, List.mem_cons, List.mem_singleton, List.not_mem_nil,
            or_false] at he'
          rw [hk] at h
          rcases he' with rfl | rfl | rfl | rfl | rfl | rfl | rfl | rfl <;> cases h
  · -- Whitespace
    rw [Regex.matches_plus_cls] at hmat
    rcases hside with hu | ⟨hkeep, _⟩
    · obtain ⟨u0, u', rfl⟩ : ∃ u0 u', u = u0 :: u' := by
        cases u with
        | nil => exact absurd rfl hu
        | cons u0 u' => exact ⟨u0, u', rfl⟩
      refine hprefix u0 u' rfl (_WS, Regex.plus (Regex.cls isSpace)) (by simp [lex]) ?_
      rw [Regex.matches_plus_cls]
      refine ⟨by simp, ?_⟩
      intro c hc
      apply hmat.2 c
      simp only [List.mem_append, List.mem_singleton, List.mem_cons, List.not_mem_nil,
        or_false] at hc ⊢
      tauto
    · have ha : isSpace a = true := hmat.2 a (by simp)
      have hk := firstOK_space k a ha hfirst
      rw [hk] at hkeep
      exact absurd hkeep (by decide)
  · -- Quote
    rw [matches_quote_iff] at hmat
    rcases hmat with h | h | h | h <;>
      · rw [h] at hmem0
        simp only [List.mem_cons, List.mem_singleton, List.not_mem_nil, or_false] at hmem0
        first
          | exact hsq hmem0
          | exact hbq hmem0
          | exact hcomma hmem0
          | (rcases hmem0 with h1 | h1
             · exact hcomma h1
             · exact hat h1)
  · -- Symbol
    rw [matches_symbol_iff] at hmat
    rcases hside with hu | ⟨hkeep, hsafe⟩
    · obtain ⟨u0, u', rfl⟩ : ∃ u0 u', u = u0 :: u' := by
        cases u with
        | nil => exact absurd rfl hu
        | cons u0 u' => exact ⟨u0, u', rfl⟩
      refine hprefix u0 u' rfl (_SYMBOL, Regex.plus (Regex.noneOf symbolExcluded))
        (by simp [lex]) ?_
      rw [matches_symbol_iff]
      refine ⟨by simp, ?_⟩
      intro c hc
      apply hmat.2 c
      simp only [List.mem_append, List.mem_singleton, List.mem_cons, List.not_mem_nil,
        or_false] at hc ⊢
      tauto
    · have hc0sym := hmat.2 c0 hmem0
      have ha : a ∉ symbolExcluded := hmat.2 a (by simp)
      have habs := firstOK_symbolChar k a ha hkeep hfirst
      rcases hsafe with h | h
      · exact hc0sym (space_excluded c0 h)
      · rw [habs] at h; cases h
  · -- Hash
    rw [matches_hash_iff] at hmat
    obtain ⟨d, hd⟩ := hmat
    have hlen := congrArg List.length hd
    simp only [List.length_append, List.length_cons, List.length_nil] at hlen
    have hl' : l' = [] := List.length_eq_zero.mp (by omega)
    subst hl'
    simp only [List.cons_append, List.cons.injEq] at hd
    have ha := hd.1
    subst ha
    have hk := firstOK_hash k hfirst
    have hpat := lex_entry_hash ek hek (by rw [hekk, hk])
    rw [hpat, matches_hash_iff] at hekm
    obtain ⟨d', hd'⟩ := hekm
    cases hd'

/-- A token already chosen is chosen again, with the same length, when a
separator is inserted later in the text. -/
theorem lexStep_insert (l u post g : List Char) (k : Terminal)
    (hstep : lexStep (l ++ u ++ post) = some (k, l.length))
    (hg : isSeparator g = true)
    (hside : u ≠ [] ∨ (keep k = true
      ∧ ((∃ c rest, g = c :: rest ∧ isSpace c = true) ∨ absorbsComment (some k) = false))) :
    lexStep (l ++ u ++ g ++ post) = some (k, l.length) := by
  obtain ⟨c0, g', rfl, hc0⟩ := separator_head g hg
  have hside' : u ≠ [] ∨ (keep k = true
      ∧ (isSpace c0 = true ∨ absorbsComment (some k) = false)) := by
    rcases hside with h | ⟨h1, h2⟩
    · exact Or.inl h
    · refine Or.inr ⟨h1, ?_⟩
      rcases h2 with ⟨c, rest, hcr, hc⟩ | h2
      · simp only [List.cons.injEq] at hcr
        rw [hcr.1]
        exact Or.inl hc
      · exact Or.inr h2
  have hcongr : ∀ e ∈ lex, e.2.longest (l ++ u ++ (c0 :: g') ++ post)
      = e.2.longest (l ++ u ++ post) := by
    intro e he
    apply Regex.longest_congr
    intro m
    by_cases hm : m ≤ (l ++ u).length
    · have h1 : (l ++ u ++ (c0 :: g') ++ post).take m = (l ++ u).take m := by
        rw [List.append_assoc (l ++ u), List.take_append_of_le_length hm]
      have h2 : (l ++ u ++ post).take m = (l ++ u).take m := by
        rw [List.take_append_of_le_length hm]
      rw [h1, h2]
      simp only [List.length_append] at hm ⊢
      constructor
      · rintro ⟨_, h⟩; exact ⟨by omega, h⟩
      · rintro ⟨_, h⟩; exact ⟨by omega, h⟩
    · constructor
      · rintro ⟨_, hmat⟩
        exfalso
        have htk : (l ++ u ++ (c0 :: g') ++ post).take m
            = l ++ u ++ c0 :: (g' ++ post).take (m - (l ++ u).length - 1) := by
          rw [List.append_assoc (l ++ u), List.take_append_eq_append_take]
          have h1 : (l ++ u).take m = l ++ u := List.take_of_length_le (by omega)
          obtain ⟨j, hj⟩ : ∃ j, m - (l ++ u).length = j + 1 :=
            ⟨m - (l ++ u).length - 1, by omega⟩
          rw [h1, hj]
          simp only [List.cons_append, List.take_succ_cons, Nat.add_sub_cancel]
        rw [htk] at hmat
        exact no_match_across l u post _ c0 k hstep hc0 hside' e he hmat
      · rintro ⟨hle, hmat⟩
        exfalso
        have := lexStep_bound _ _ _ hstep e he m hle hmat
        simp only [List.length_append] at hm
        omega
  unfold lexStep at hstep ⊢
  rw [pick_fold_congr _ _ lex none hcongr]
  exact hstep

theorem skipGap_separator (b : Bool) (g post : List Char) (h : separatorFrom b g = true) :
    skipGap b (g ++ post) = skipGap false post := by
  induction g generalizing b with
  | nil =>
    cases b with
    | false => rfl
    | true => simp [separatorFrom] at h
  | cons c cs ih =>
    cases b with
    | false =>
      simp only [separatorFrom] at h
      simp only [List.cons_append, skipGap]
      by_cases hs : isSpace c = true
      · simp only [hs, if_true] at h ⊢
        exact ih false h
      · by_cases hc : c = ';'
        · simp only [hs, hc, if_true, Bool.false_eq_true, if_false] at h ⊢
          exact ih true h
        · simp [hs, hc] at h
    | true =>
      simp only [separatorFrom] at h
      simp only [List.cons_append, skipGap]
      by_cases hn : c = '\n'
      · simp only [hn, if_true] at h ⊢
        exact ih false h
      · simp only [hn, if_false] at h ⊢
        exact ih true h

theorem skipGap_space_prefix (l x : List Char) (h : ∀ c ∈ l, isSpace c = true) :
    skipGap false (l ++ x) = skipGap false x := by
  induction l with
  | nil => rfl
  | cons c cs ih =>
    have hc := h c (List.mem_cons_self c cs)
    simp only [List.cons_append, skipGap, hc, if_true]
    exact ih (fun d hd => h d (List.mem_cons_of_mem c hd))

theorem skipGap_line_prefix (l x : List Char) (h : ∀ c ∈ l, c ≠ '\n') :
    skipGap true (l ++ x) = skipGap true x := by
  induction l with
  | nil => rfl
  | cons c cs ih =>
    have hc := h c (List.mem_cons_self c cs)
    simp only [List.cons_append, skipGap, hc, if_false]
    exact ih (fun d hd => h d (List.mem_cons_of_mem c hd))

theorem skipGap_state (post : List Char) (h : post = [] ∨ ∃ p, post = '\n' :: p) :
    skipGap true post = skipGap false post := by
  rcases h with rfl | ⟨p, rfl⟩
  · rfl
  · simp [skipGap, isSpace]

/-- Inside a comment that ends with the line, a separator is absorbed. -/
theorem skipGap_separator_in_comment (b : Bool) (g post : List Char)
    (h : separatorFrom b g = true) (hpost : post = [] ∨ ∃ p, post = '\n' :: p) :
    skipGap true (g ++ post) = skipGap true post := by
  induction g generalizing b with
  | nil => rfl
  | cons c cs ih =>
    by_cases hn : c = '\n'
    · subst hn
      have hcs : separatorFrom false cs = true := by
        cases b <;> simpa [separatorFrom, isSpace] using h
      simp only [List.cons_append, skipGap, if_true]
      have := skipGap_separator false cs post hcs
      rw [skipGap_state post hpost]
      exact this
    · simp only [List.cons_append, skipGap, hn, if_false]
      cases b with
      | true =>
        simp only [separatorFrom, hn, if_false] at h
        exact ih true h
      | false =>
        simp only [separatorFrom] at h
        by_cases hs : isSpace c = true
        · simp only [hs, if_true] at h
          exact ih false h
        · by_cases hc : c = ';'
          · simp only [hs, hc, if_true, Bool.false_eq_true, if_false] at h
            exact ih true h
          · simp [hs, hc] at h

theorem lex_entry_ws (e : Terminal × Regex) (he : e ∈ lex) (hk : e.1 = _WS) :
    e.2 = Regex.plus (Regex.cls isSpace) := by
  simp only [lex, List.mem_cons, List.mem_singleton, List.not_mem_nil, or_false] at he
  rcases he with rfl | rfl | rfl | rfl | rfl | rfl | rfl | rfl | rfl | rfl | rfl | rfl | rfl <;>
    first | rfl | cases hk

theorem lex_entry_comment (e : Terminal × Regex) (he : e ∈ lex) (hk : e.1 = _COMMENT) :
    e.2 = Regex.cat (Regex.chr ';') (Regex.star (Regex.noneOf ['\n'])) := by
  simp only [lex, List.mem_cons, List.mem_singleton, List.not_mem_nil, or_false] at he
  rcases he with rfl | rfl | rfl | rfl | rfl | rfl | rfl | rfl | rfl | rfl | rfl | rfl | rfl <;>
    first | rfl | cases hk

theorem skipGap_semicolon (x : List Char) : skipGap false (';' :: x) = skipGap true x := by
  have h1 : isSpace ';' = false := by decide
  simp only [skipGap, h1, Bool.false_eq_true, if_false, if_true]

theorem keep_false (k : Terminal) (h : keep k = false) : k = _WS ∨ k = _COMMENT := by
  cases k <;> first | exact Or.inl rfl | exact Or.inr rfl | (exfalso; revert h; decide)

/-- A separator at the start of a text does not change its token stream. -/
theorem tokens_separator (g post : List Char) (f : Nat) (hg : isSeparator g = true)
    (hf : (g ++ post).length < f) : tokens f (g ++ post) = tokens f post := by
  have hsep : separatorFrom false g = true := by
    simp only [isSeparator, Bool.and_eq_true] at hg
    exact hg.2
  have hf' : post.length < f := by
    simp only [List.length_append] at hf; omega
  rw [tokens_skipGap _ f hf, tokens_skipGap post f hf', skipGap_separator false g post hsep]

/-- A separator after a whitespace or comment token does not change the
text left once whitespace and comments are skipped. -/
theorem skipGap_insert_after_gap (pre post g : List Char) (k : Terminal)
    (hstep : lexStep (pre ++ post) = some (k, pre.length)) (hk : keep k = false)
    (hg : isSeparator g = true) :
    skipGap false (pre ++ g ++ post) = skipGap false (pre ++ post) := by
  have hsep : separatorFrom false g = true := by
    simp only [isSeparator, Bool.and_eq_true] at hg
    exact hg.2
  obtain ⟨ek, hek, hekk, _, hekm⟩ := lexStep_winner _ _ _ hstep
  rw [List.take_left] at hekm
  rcases keep_false k hk with rfl | rfl
  · rw [lex_entry_ws ek hek hekk, Regex.matches_plus_cls] at hekm
    rw [List.append_assoc, skipGap_space_prefix pre _ hekm.2, skipGap_space_prefix pre _ hekm.2,
      skipGap_separator false g post hsep]
  · rw [lex_entry_comment ek hek hekk, matches_comment_iff] at hekm
    obtain ⟨body, rfl, hbody⟩ := hekm
    have hpost : post = [] ∨ ∃ p, post = '\n' :: p := by
      have h2 := lexStep_comment (body ++ post)
      simp only [List.cons_append] at hstep
      rw [hstep] at h2
      simp only [Option.some.injEq, Prod.mk.injEq, true_and, List.length_cons,
        Nat.add_right_cancel_iff] at h2
      have hb : ∀ c ∈ body, (fun x => x != '\n') c = true := fun c hc => by
        simpa using hbody c hc
      rw [List.takeWhile_append_of_pos hb] at h2
      simp only [List.length_append] at h2
      cases post with
      | nil => exact Or.inl rfl
      | cons d p =>
        right
        by_cases hd : d = '\n'
        · exact ⟨p, by rw [hd]⟩
        · have : (d != '\n') = true := by simpa using hd
          simp only [List.takeWhile_cons, this, if_true, List.length_cons] at h2
          omega
    have e1 : (';' :: body) ++ g ++ post = ';' :: (body ++ (g ++ post)) := by simp
    have e2 : (';' :: body) ++ post = ';' :: (body ++ post) := rfl
    rw [e1, e2, skipGap_semicolon, skipGap_semicolon, skipGap_line_prefix body _ hbody,
      skipGap_line_prefix body _ hbody]
    exact skipGap_separator_in_comment false g post hsep hpost

/-- The token stream of a text does not change when a separator is inserted
at a token boundary, unless the separator begins with `;` right after a
token that absorbs it. -/
theorem tokens_insert (F : Nat) (pre post g : List Char) (last : Option Terminal) (f : Nat)
    (hcut : rawCut F pre post = some last)
    (hg : isSeparator g = true)
    (hsafe : (∃ c rest, g = c :: rest ∧ isSpace c = true) ∨ absorbsComment last = false)
    (hf : (pre ++ g ++ post).length < f) :
    tokens f (pre ++ g ++ post) = tokens f (pre ++ post) := by
  induction F generalizing pre with
  | zero =>
    cases pre with
    | nil =>
      simp only [List.nil_append] at hf ⊢
      exact tokens_separator g post f hg hf
    | cons c cs => simp [rawCut] at hcut
  | succ F ih =>
    cases pre with
    | nil =>
      simp only [List.nil_append] at hf ⊢
      exact tokens_separator g post f hg hf
    | cons c cs =>
      simp only [rawCut] at hcut
      cases hl : lexStep (c :: cs ++ post) with
      | none => rw [hl] at hcut; cases hcut
      | some kn =>
        obtain ⟨k, n⟩ := kn
        rw [hl] at hcut
        simp only at hcut
        have hf2 : ((c :: cs) ++ post).length < f := by
          simp only [List.length_append] at hf ⊢; omega
        split_ifs at hcut with h1 h2
        · have hn : n < (c :: cs).length := by simpa using h1
          have hpre : (c :: cs) = (c :: cs).take n ++ (c :: cs).drop n :=
            (List.take_append_drop n (c :: cs)).symm
          have hlen : ((c :: cs).take n).length = n := by
            rw [List.length_take]; omega
          have hu : (c :: cs).drop n ≠ [] := by
            intro h
            have := congrArg List.length h
            simp only [List.length_drop, List.length_nil] at this
            omega
          generalize (c :: cs).take n = l at hpre hlen
          generalize (c :: cs).drop n = u at hpre hu hcut
          rw [hpre] at hl hf hf2 ⊢
          rw [← hlen] at hl
          have hins := lexStep_insert l u post g k hl hg (Or.inl hu)
          have hd1 : (l ++ u ++ g ++ post).drop l.length = u ++ g ++ post := by
            simp only [List.append_assoc, List.drop_left]
          have hd2 : (l ++ u ++ post).drop l.length = u ++ post := by
            simp only [List.append_assoc, List.drop_left]
          have ht1 : (l ++ u ++ g ++ post).take l.length = l := by
            simp only [List.append_assoc, List.take_left]
          have ht2 : (l ++ u ++ post).take l.length = l := by
            simp only [List.append_assoc, List.take_left]
          have hfu : (u ++ g ++ post).length < f := by
            simp only [List.length_append] at hf ⊢; omega
          rw [tokens_step _ _ _ f hf hins, tokens_step _ _ _ f hf2 hl, hd1, hd2, ht1, ht2,
            ih u hcut hfu]
        · have hn2 : n = (c :: cs).length := by simpa using h2
          simp only [Option.some.injEq] at hcut
          subst hcut
          rw [hn2] at hl
          by_cases hk : keep k = true
          · have hl' : lexStep ((c :: cs) ++ [] ++ post) = some (k, (c :: cs).length) := by
              simpa using hl
            have hins := lexStep_insert (c :: cs) [] post g k hl' hg (Or.inr ⟨hk, hsafe⟩)
            simp only [List.append_nil] at hins
            have hfg : (g ++ post).length < f := by
              simp only [List.length_append] at hf ⊢; omega
            rw [tokens_step _ _ _ f hf hins, tokens_step _ _ _ f hf2 hl]
            simp only [List.append_assoc, List.drop_left, List.take_left]
            rw [tokens_separator g post f hg hfg]
          · have hk' : keep k = false := by simpa using hk
            rw [tokens_skipGap _ f hf, tokens_skipGap _ f hf2,
              skipGap_insert_after_gap (c :: cs) post g k hl hk' hg]

theorem ReadString_eq (s : String) :
    ReadString s = (readFrom (NewLex s.data)).map (fun r => r.1) := by
  simp only [ReadString, Read, NewReader]
  cases readFrom (NewLex s.data) <;> rfl

/-- C6 (amended): for every text split at a boundary between two tokens of
its scan (whitespace and comment tokens included, as well as the start and
the end of the text), inserting there a separator made of whitespace and of
`;`-comments that run to the end of their line does not change what
`ReadString` returns, provided the separator begins with whitespace or the
token before it is not a Dot, Int, Float or Symbol token. -/
theorem separator_between_tokens (pre post g : List Char) (last : Option Terminal)
    (hcut : rawCut pre.length pre post = some last)
    (hg : isSeparator g = true)
    (hsafe : (∃ c rest, g = c :: rest ∧ isSpace c = true) ∨ absorbsComment last = false) :
    ReadString (String.mk (pre ++ g ++ post)) = ReadString (String.mk (pre ++ post)) := by
  rw [ReadString_eq, ReadString_eq]
  have hlen : (pre ++ post).length < (pre ++ g ++ post).length + 1 := by
    simp only [List.length_append]; omega
  rw [NewLex_eq (pre ++ g ++ post) ((pre ++ g ++ post).length + 1) (by omega),
    NewLex_eq (pre ++ post) ((pre ++ g ++ post).length + 1) hlen,
    tokens_insert pre.length pre post g last _ hcut hg hsafe (by omega)]

theorem separator_between_tokens_witness :
    ReadString (String.mk ("(a".data ++ " ; the first\n\t".data ++ " b)".data))
      = ReadString (String.mk ("(a".data ++ " b)".data)) :=
  separator_between_tokens "(a".data " b)".data " ; the first\n\t".data (some _SYMBOL)
    (by decide) (by decide) (Or.inl ⟨' ', "; the first\n\t".data, by decide, by decide⟩)

/-! ## The step bound of the grammar is adequate -/

/-- One parsing expression refines another when every outcome of the first
is an outcome of the second. -/
theorem pegBind_mono {α β : Type} (p q : Parser α) (f : α → Option β)
    (h : ∀ ts o, p ts = some o → q ts = some o) :
    ∀ ts o, pegBind p f ts = some o → pegBind q f ts = some o := by
  intro ts o ho
  simp only [pegBind] at ho ⊢
  cases hp : p ts with
  | none => rw [hp] at ho; cases ho
  | some x => rw [hp] at ho; rw [h ts x hp]; exact ho

theorem pegAnd_mono {α β : Type} (p p' : Parser α) (q q' : Parser β)
    (hp : ∀ ts o, p ts = some o → p' ts = some o)
    (hq : ∀ ts o, q ts = some o → q' ts = some o) :
    ∀ ts o, pegAnd p q ts = some o → pegAnd p' q' ts = some o := by
  intro ts o ho
  simp only [pegAnd] at ho ⊢
  cases h1 : p ts with
  | none => rw [h1] at ho; cases ho
  | some x =>
    rw [h1] at ho
    rw [hp ts x h1]
    cases x with
    | fail => exact ho
    | ok a r1 =>
      simp only at ho ⊢
      cases h2 : q r1 with
      | none => rw [h2] at ho; cases ho
      | some y => rw [h2] at ho; rw [hq r1 y h2]; exact ho

theorem pegOption_mono {α : Type} (p q : Parser α)
    (h : ∀ ts o, p ts = some o → q ts = some o) :
    ∀ ts o, pegOption p ts = some o → pegOption q ts = some o := by
  intro ts o ho
  simp only [pegOption] at ho ⊢
  cases hp : p ts with
  | none => rw [hp] at ho; cases ho
  | some x => rw [hp] at ho; rw [h ts x hp]; exact ho

theorem pegMulti_mono {α : Type} (p q : Parser α)
    (h : ∀ ts o, p ts = some o → q ts = some o) (m : Nat) :
    ∀ ts o, pegMulti m p ts = some o → pegMulti (m + 1) q ts = some o := by
  induction m with
  | zero => intro ts o ho; simp [pegMulti] at ho
  | succ m ih =>
    intro ts o ho
    rw [pegMulti] at ho ⊢
    cases hp : p ts with
    | none => rw [hp] at ho; cases ho
    | some x =>
      rw [hp] at ho
      rw [h ts x hp]
      cases x with
      | fail => exact ho
      | ok v rest =>
        simp only at ho ⊢
        cases hm : pegMulti m p rest with
        | none => rw [hm] at ho; cases ho
        | some y => rw [hm] at ho; rw [ih rest y hm]; exact ho

theorem listExpr_mono (fuel : Nat) (start fin : Parser String) (p q : Parser Value)
    (h : ∀ ts o, p ts = some o → q ts = some o) :
    ∀ ts o, listExpr fuel start p fin ts = some o
      → listExpr (fuel + 1) start q fin ts = some o := by
  have hid : ∀ (r : Parser String) ts o, r ts = some o → r ts = some o := fun _ _ _ hr => hr
  simp only [listExpr, pegAnd3]
  apply pegBind_mono
  apply pegAnd_mono _ _ _ _ (hid start)
  apply pegAnd_mono _ _ _ _ _ (hid fin)
  apply pegBind_mono
  apply pegOption_mono
  apply pegAnd_mono
  · exact pegMulti_mono p q h fuel
  · apply pegBind_mono
    apply pegOption_mono
    apply pegBind_mono
    exact pegAnd_mono _ _ _ _ (hid (term _DOT)) h

theorem pegOr_mono {α : Type} (ps qs : List (Parser α))
    (h : List.Forall₂ (fun p q => ∀ ts o, p ts = some o → q ts = some o) ps qs) :
    ∀ ts o, pegOr ps ts = some o → pegOr qs ts = some o := by
  induction h with
  | nil => intro ts o ho; exact ho
  | cons hpq _ ih =>
    intro ts o ho
    simp only [pegOr] at ho ⊢
    rename_i p q ps' qs' _
    cases hp : p ts with
    | none => rw [hp] at ho; cases ho
    | some x =>
      rw [hp] at ho
      rw [hpq ts x hp]
      cases x with
      | fail => exact ih ts o ho
      | ok v rest => exact ho

/-- More fuel never changes an outcome of the root grammar. -/
theorem expr_mono (fuel : Nat) :
    ∀ ts o, expr fuel ts = some o → expr (fuel + 1) ts = some o := by
  induction fuel with
  | zero => intro ts o ho; simp [expr] at ho
  | succ f ih =>
    have hid : ∀ (r : Parser Value) ts o, r ts = some o → r ts = some o := fun _ _ _ hr => hr
    intro ts o ho
    rw [expr] at ho ⊢
    refine pegOr_mono _ _ ?_ ts o ho
    refine List.Forall₂.cons (hid _) (List.Forall₂.cons (hid _) (List.Forall₂.cons (hid _)
      (List.Forall₂.cons (listExpr_mono f _ _ _ _ ih) (List.Forall₂.cons
        (listExpr_mono f _ _ _ _ ih) (List.Forall₂.cons ?_ (List.Forall₂.cons (hid _)
          (List.Forall₂.cons (hid _) List.Forall₂.nil)))))))
    apply pegBind_mono
    exact pegAnd_mono _ _ _ _ (fun _ _ hr => hr) ih

theorem expr_mono_le (f g : Nat) (hfg : f ≤ g) (ts : List Token) (o : Outcome Value)
    (h : expr f ts = some o) : expr g ts = some o := by
  induction g with
  | zero =>
    have : f = 0 := by omega
    subst this
    exact h
  | succ g ih =>
    by_cases hf : f = g + 1
    · subst hf; exact h
    · exact expr_mono g ts o (ih (by omega))

theorem expr_consumes (fuel : Nat) (ts : List Token) (v : Value) (r : List Token)
    (h : expr fuel ts = some (Outcome.ok v r)) : ∃ xs, xs ≠ [] ∧ ts = xs ++ r := by
  obtain ⟨xs, hxs, hloc⟩ := expr_local fuel ts v r h
  refine ⟨xs, ?_, hxs⟩
  rintro rfl
  cases fuel with
  | zero => simp [expr] at h
  | succ f =>
    have h1 := hloc []
    rw [List.nil_append, expr_fail_at f [] (Or.inl rfl)] at h1
    cases h1

theorem noPanic_suffix (xs r : List Token) (h : noPanic (xs ++ r) = true) :
    noPanic r = true := by
  simp only [noPanic, List.all_append, Bool.and_eq_true] at h ⊢
  exact h.2

theorem pegBind_total {α β : Type} (p : Parser α) (f : α → Option β) (ts : List Token)
    (hp : p ts ≠ none) (hf : ∀ v r, p ts = some (Outcome.ok v r) → f v ≠ none) :
    pegBind p f ts ≠ none := by
  simp only [pegBind]
  cases h : p ts with
  | none => exact absurd h hp
  | some o =>
    cases o with
    | fail => simp
    | ok v r =>
      simp only
      cases hv : f v with
      | none => exact absurd hv (hf v r h)
      | some w => simp

theorem pegAnd_total {α β : Type} (p : Parser α) (q : Parser β) (ts : List Token)
    (hp : p ts ≠ none) (hq : ∀ a r1, p ts = some (Outcome.ok a r1) → q r1 ≠ none) :
    pegAnd p q ts ≠ none := by
  simp only [pegAnd]
  cases h : p ts with
  | none => exact absurd h hp
  | some o =>
    cases o with
    | fail => simp
    | ok a r1 =>
      simp only
      cases h2 : q r1 with
      | none => exact absurd h2 (hq a r1 h)
      | some o2 => cases o2 <;> simp

theorem pegOption_total {α : Type} (p : Parser α) (ts : List Token) (hp : p ts ≠ none) :
    pegOption p ts ≠ none := by
  simp only [pegOption]
  cases h : p ts with
  | none => exact absurd h hp
  | some o => cases o <;> simp

theorem term_total (k : Terminal) (ts : List Token) : term k ts ≠ none := by
  cases ts with
  | nil => simp [term]
  | cons t rest =>
    simp only [term]
    split_ifs <;> simp

/-- With fuel beyond the length of the stream the repetition has an
outcome. -/
theorem pegMulti_total (f : Nat)
    (hrec : ∀ ts, ts.length < f → noPanic ts = true → expr f ts ≠ none)
    (m : Nat) (ts : List Token) (hm : ts.length < m) (hf : ts.length < f)
    (hts : noPanic ts = true) : pegMulti m (expr f) ts ≠ none := by
  induction m generalizing ts with
  | zero => omega
  | succ m ih =>
    simp only [pegMulti]
    cases h : expr f ts with
    | none => exact absurd h (hrec ts hf hts)
    | some o =>
      cases o with
      | fail => simp
      | ok v r =>
        obtain ⟨xs, hne, hxs⟩ := expr_consumes f ts v r h
        have hlen : r.length < ts.length := by
          rw [hxs, List.length_append]
          have : 0 < xs.length := List.length_pos.mpr hne
          omega
        have hr : noPanic r = true := noPanic_suffix xs r (by rw [← hxs]; exact hts)
        have := ih r (by omega) (by omega) hr
        simp only
        cases h2 : pegMulti m (expr f) r with
        | none => exact absurd h2 this
        | some o2 => cases o2 <;> simp

theorem listExpr_total (f : Nat) (ks ke : Terminal)
    (hrec : ∀ ts, ts.length < f → noPanic ts = true → expr f ts ≠ none)
    (ts : List Token) (hlen : ts.length ≤ f) (hts : noPanic ts = true) :
    listExpr f (term ks) (expr f) (term ke) ts ≠ none := by
  simp only [listExpr, pegAnd3]
  apply pegBind_total _ _ _ _ (fun _ _ _ => by simp [select1of3])
  apply pegAnd_total _ _ _ (term_total _ _)
  intro l0 ts1 h1
  have hts1 := term_inv _ _ _ _ h1
  have hlen1 : ts1.length < f := by
    rw [hts1] at hlen; simp only [List.length_cons] at hlen; omega
  have hnp1 : noPanic ts1 = true := noPanic_suffix [⟨ks, l0⟩] ts1 (by rw [hts1] at hts; exact hts)
  apply pegAnd_total _ _ _ _ (fun _ _ _ => term_total _ _)
  apply pegBind_total _ _ _ _ (fun _ _ _ => by simp)
  apply pegOption_total
  apply pegAnd_total _ _ _ (pegMulti_total f hrec f ts1 hlen1 hlen1 hnp1)
  intro es ts2 hm
  obtain ⟨xs, hxs, _⟩ := pegMulti_local (expr f) (expr_local f) f ts1 ts2 es hm
  have hlen2 : ts2.length ≤ ts1.length := by
    rw [hxs, List.length_append]; omega
  have hnp2 : noPanic ts2 = true := noPanic_suffix xs ts2 (by rw [← hxs]; exact hnp1)
  apply pegBind_total _ _ _ _ (fun _ _ _ => by simp)
  apply pegOption_total
  apply pegBind_total _ _ _ _ (fun _ _ _ => by simp [select1of2])
  apply pegAnd_total _ _ _ (term_total _ _)
  intro l r hdot
  have hr := term_inv _ _ _ _ hdot
  apply hrec
  · rw [hr] at hlen2; simp only [List.length_cons] at hlen2; omega
  · exact noPanic_suffix [⟨_DOT, l⟩] r (by rw [hr] at hnp2; exact hnp2)

/-- With fuel beyond the length of the stream the root grammar has an
outcome, a value or a match failure, on every stream free of panics. -/
theorem expr_total (f : Nat) (ts : List Token) (hlen : ts.length < f)
    (hts : noPanic ts = true) : expr f ts ≠ none := by
  induction f generalizing ts with
  | zero => omega
  | succ f ih =>
    cases ts with
    | nil => rw [expr_fail_at f [] (Or.inl rfl)]; simp
    | cons t rest =>
      obtain ⟨k, l⟩ := t
      have hrest : rest.length < f := by
        simp only [List.length_cons] at hlen; omega
      have hnr : noPanic rest = true := noPanic_suffix [⟨k, l⟩] rest hts
      cases k with
      | _DOT => rw [expr_fail_at f _ (Or.inr ⟨_, _, rfl, Or.inl rfl⟩)]; simp
      | _LEND => rw [expr_fail_at f _ (Or.inr ⟨_, _, rfl, Or.inr (Or.inl rfl)⟩)]; simp
      | _LEND2 =>
        rw [expr_fail_at f _ (Or.inr ⟨_, _, rfl, Or.inr (Or.inr (Or.inl rfl))⟩)]; simp
      | _COMMENT =>
        rw [expr_fail_at f _ (Or.inr ⟨_, _, rfl, Or.inr (Or.inr (Or.inr (Or.inl rfl)))⟩)]; simp
      | _WS =>
        rw [expr_fail_at f _ (Or.inr ⟨_, _, rfl, Or.inr (Or.inr (Or.inr (Or.inr rfl)))⟩)]; simp
      | _INT => simp [expr, pegOr, pegBind, term]
      | _FLOAT => simp [expr, pegOr, pegBind, term]
      | _STR => simp [expr, pegOr, pegBind, term]
      | _SYMBOL => simp [expr, pegOr, pegBind, pegAnd, pegAnd3, listExpr, term]
      | _HASH =>
        have hh : (hashAction l).isSome = true := by
          simp only [noPanic, List.all_cons, Bool.and_eq_true] at hts
          simpa using hts.1
        obtain ⟨w, hw⟩ := Option.isSome_iff_exists.mp hh
        simp [expr, pegOr, pegBind, pegAnd, pegAnd3, listExpr, term, hw]
      | _QUOTE =>
        have := ih rest hrest hnr
        simp only [expr, pegOr, pegBind, pegAnd, pegAnd3, listExpr, term, reduceCtorEq, if_false,
          if_true]
        cases hx : expr f rest with
        | none => exact absurd hx this
        | some o => cases o <;> simp
      | _LSTART =>
        rw [expr_lstart]
        exact listExpr_total f _ _ ih _ (by simp only [List.length_cons] at hlen ⊢; omega) hts
      | _LSTART2 =>
        rw [expr_lstart2]
        exact listExpr_total f _ _ ih _ (by simp only [List.length_cons] at hlen ⊢; omega) hts

/-- The outcome of the root grammar is the same for every amount of fuel
beyond the length of the stream: the bound used by `Read` is adequate. -/
theorem expr_fuel_adequate (f : Nat) (ts : List Token) (hlen : ts.length < f)
    (hts : noPanic ts = true) : expr f ts = expr (ts.length + 1) ts := by
  have h := expr_total (ts.length + 1) ts (by omega) hts
  cases ho : expr (ts.length + 1) ts with
  | none => exact absurd ho h
  | some o => exact expr_mono_le (ts.length + 1) f (by omega) ts o ho

theorem hashAction_isSome (d : Char) : (hashAction (String.mk ['#', d])).isSome = true := by
  simp only [hashAction, List.get?_cons_succ, List.get?_cons_zero]
  split_ifs <;> rfl

/-- The tokens delivered by the scanner never make a semantic action
panic. -/
theorem tokens_noPanic (f : Nat) (src : List Char) : noPanic (tokens f src).1 = true := by
  induction f generalizing src with
  | zero => rfl
  | succ f ih =>
    cases src with
    | nil => rfl
    | cons c cs =>
      cases hl : lexStep (c :: cs) with
      | none => simp only [tokens, hl]; rfl
      | some kn =>
        obtain ⟨k, n⟩ := kn
        simp only [tokens, hl]
        by_cases hk : keep k = true
        · simp only [hk, if_true]
          have hrest := ih ((c :: cs).drop n)
          simp only [noPanic, List.all_cons, Bool.and_eq_true] at hrest ⊢
          refine ⟨?_, hrest⟩
          by_cases hh : k = _HASH
          · subst hh
            obtain ⟨ek, hek, hekk, _, hekm⟩ := lexStep_winner _ _ _ hl
            rw [lex_entry_hash ek hek hekk, matches_hash_iff] at hekm
            obtain ⟨d, hd⟩ := hekm
            rw [hd, hashAction_isSome]
            simp
          · cases k <;> first | exact absurd rfl hh | rfl
        · simp only [hk, if_false, Bool.false_eq_true]
          exact ih _

theorem NewLex_noPanic (src : List Char) : noPanic (NewLex src).toks = true :=
  tokens_noPanic _ src

/-- On a stream free of panics `Read` returns a result. -/
theorem readFrom_total (src : Stream) (h : noPanic src.toks = true) :
    ∃ v rest, readFrom src = some (v, rest) := by
  have hx := expr_total (src.toks.length + 1) src.toks (by omega) h
  simp only [readFrom, pegOr]
  cases ho : expr (src.toks.length + 1) src.toks with
  | none => exact absurd ho hx
  | some o =>
    cases o with
    | ok v r => exact ⟨v, _, rfl⟩
    | fail =>
      simp only [pegBind]
      cases hts : src.toks with
      | nil => cases hc : src.clean <;> simp [pegEof]
      | cons t ts => simp [pegEof]

/-- `ReadString` returns a result for every text. -/
theorem ReadString_total (s : String) : ∃ v, ReadString s = some v := by
  obtain ⟨v, rest, h⟩ := readFrom_total (NewLex s.data) (NewLex_noPanic s.data)
  exact ⟨v, by rw [ReadString_eq, h]; rfl⟩

/-! ## Which failure a list form returns -/

theorem consBack_append_no_failure (xs ys : List Value) (res : Value)
    (h : ∀ x ∈ xs, Failed x = false) :
    consBack (xs ++ ys) res = consBack ys (xs.foldl (fun acc x => Cons x acc) res) := by
  induction xs generalizing res with
  | nil => rfl
  | cons x xs ih =>
    have hx : Failed x = false := h x (List.mem_cons_self x xs)
    simp only [List.cons_append, consBack, hx, Bool.false_eq_true, if_false, List.foldl_cons]
    exact ih _ (fun y hy => h y (List.mem_cons_of_mem x hy))

/-- The failing element after which no element fails is the one the body
action returns, when the tail is not a failure. -/
theorem innerAction_last_failure (pre post : List Value) (e res : Value)
    (hres : Failed res = false) (he : Failed e = true)
    (hpost : ∀ x ∈ post, Failed x = false) :
    innerAction (some (pre ++ e :: post, res)) = e := by
  have hrev : ∀ x ∈ post.reverse, Failed x = false :=
    fun x hx => hpost x (List.mem_reverse.mp hx)
  simp only [innerAction, hres, Bool.false_eq_true, if_false, List.reverse_append,
    List.reverse_cons, List.append_assoc, List.singleton_append]
  rw [consBack_append_no_failure _ _ _ hrev]
  simp only [consBack, he, if_true]

/-- C18: when the parts of a list form have matched, a failing dotted tail is
what `listExpr` returns whatever the elements are; when the tail does not
fail, `listExpr` returns the rightmost failing element, the one after which no
element fails; `(#y #z)` reads as the error for `#z`. -/
theorem listExpr_failure_by_position (fuel : Nat) (start fin : Parser String)
    (rec : Parser Value) (ts ts1 ts2 ts3 rest : List Token) (l0 l1 : String)
    (es : List Value) (t : Option Value)
    (hstart : start ts = some (Outcome.ok l0 ts1))
    (hmulti : pegMulti fuel rec ts1 = some (Outcome.ok es ts2))
    (htail : pegOption (pegBind (pegAnd (term _DOT) rec) select1of2) ts2
      = some (Outcome.ok t ts3))
    (hfin : fin ts3 = some (Outcome.ok l1 rest)) :
    (∀ v, t = some v → Failed v = true →
        listExpr fuel start rec fin ts = some (Outcome.ok v rest))
      ∧ (∀ pre e post, (∀ v, t = some v → Failed v = false) → es = pre ++ e :: post →
          Failed e = true → (∀ x ∈ post, Failed x = false) →
          listExpr fuel start rec fin ts = some (Outcome.ok e rest))
      ∧ ReadString "(#y #z)" = some (SyntaxError "unknown hash syntax: #z")
      ∧ ReadString "(#y #z . #x)" = some (SyntaxError "unknown hash syntax: #x") := by
  have hparts := listExpr_of_parts fuel start fin rec ts ts1 ts2 ts3 rest l0 l1 es t
    hstart hmulti htail hfin
  refine ⟨?_, ?_, by decide, by decide⟩
  · intro v hv hf
    subst hv
    rw [hparts]
    simp [innerAction, tailAction, hf]
  · intro pre e post ht hes he hpost
    rw [hparts, hes, innerAction_last_failure pre post e _ (tailAction_no_failure t ht) he hpost]

theorem listExpr_failure_by_position_witness :
    listExpr 5 (term _LSTART) (expr 5) (term _LEND) (NewLex "(#y 1 #z 2)".data).toks
      = some (Outcome.ok (SyntaxError "unknown hash syntax: #z") []) :=
  (listExpr_failure_by_position 5 (term _LSTART) (term _LEND) (expr 5)
    (NewLex "(#y 1 #z 2)".data).toks (NewLex "#y 1 #z 2)".data).toks (NewLex ")".data).toks
    (NewLex ")".data).toks [] "(" ")"
    [SyntaxError "unknown hash syntax: #y", Value.int 1,
      SyntaxError "unknown hash syntax: #z", Value.int 2] none
    (by decide) (by decide) (by decide) (by decide)).2.1
    [SyntaxError "unknown hash syntax: #y", Value.int 1]
    (SyntaxError "unknown hash syntax: #z") [Value.int 2]
    (by decide) (by decide) (by decide) (by decide)

/-! ## Failures under a quote marker -/

/-- C19: when the expression after a Quote token has a value `x`, failure
or not, the root grammar returns the two-element list
`Cons(head symbol, Cons(x, empty-list sentinel))` for each of the four
markers, and that list is not a failure; `'#z` reads as such a list around
the failure, and `(1 '#z)` reads as an ordinary pair chain, not as a
failure. -/
theorem quote_keeps_failure (fuel : Nat) (ts rest : List Token) (x : Value)
    (hx : expr fuel ts = some (Outcome.ok x rest)) :
    (∀ q head, (q, head) ∈ [("\x27", "quote"), ("\x60", "quasiquote"), (",", "unquote"),
          (",@", "unquote-splicing")] →
        expr (fuel + 1) (⟨_QUOTE, q⟩ :: ts)
            = some (Outcome.ok (Cons (Symbol head) (Cons x EMPTY_LIST)) rest)
          ∧ Failed (Cons (Symbol head) (Cons x EMPTY_LIST)) = false)
      ∧ ReadString "\x27#z"
          = some (Cons (Symbol "quote")
              (Cons (SyntaxError "unknown hash syntax: #z") EMPTY_LIST))
      ∧ ReadString "(1 \x27#z)"
          = some (Cons (Value.int 1)
              (Cons (Cons (Symbol "quote")
                (Cons (SyntaxError "unknown hash syntax: #z") EMPTY_LIST)) EMPTY_LIST))
      ∧ (∀ v, ReadString "(1 \x27#z)" = some v → Failed v = false) := by
  refine ⟨?_, by decide, by decide, ?_⟩
  · intro q head hq
    simp only [List.mem_cons, Prod.mk.injEq, List.mem_singleton, List.not_mem_nil,
      or_false] at hq
    rcases hq with ⟨rfl, rfl⟩ | ⟨rfl, rfl⟩ | ⟨rfl, rfl⟩ | ⟨rfl, rfl⟩ <;>
      exact ⟨by simp [expr, pegOr, pegBind, pegAnd, pegAnd3, listExpr, term, hx, quoteAction,
        mkList], rfl⟩
  · intro v hv
    have h : ReadString "(1 \x27#z)"
        = some (Cons (Value.int 1)
            (Cons (Cons (Symbol "quote")
              (Cons (SyntaxError "unknown hash syntax: #z") EMPTY_LIST)) EMPTY_LIST)) := by
      decide
    rw [h] at hv
    cases hv
    rfl

theorem quote_keeps_failure_witness :
    expr 2 (⟨_QUOTE, "\x27"⟩ :: [⟨_HASH, "#z"⟩])
        = some (Outcome.ok
            (Cons (Symbol "quote") (Cons (SyntaxError "unknown hash syntax: #z") EMPTY_LIST)) [])
      ∧ Failed (Cons (Symbol "quote")
          (Cons (SyntaxError "unknown hash syntax: #z") EMPTY_LIST)) = false :=
  (quote_keeps_failure 1 [⟨_HASH, "#z"⟩] [] (SyntaxError "unknown hash syntax: #z")
    (by decide)).1 "\x27" "quote" (by decide)

/-! ## Capability errors -/

/-- C12 (the code departs from the claim for `Read`): on a port without the
write capability `Write` and `Display` return the type error naming
`output-port` and carrying that port, and leave it untouched; on a port
without the read capability `Read` returns the type error naming
`input-port` but carrying nil (the result of the failed type assertion), not
the port that was passed. -/
theorem capability_errors (other : String → Value → String) (obj : Value) (c : Bool)
    (pending written : String) :
    Write other obj (Value.port c false pending written)
        = (TypeError "output-port" (Value.port c false pending written),
            Value.port c false pending written)
      ∧ Display other obj (Value.port c false pending written)
        = (TypeError "output-port" (Value.port c false pending written),
            Value.port c false pending written)
      ∧ Read (Value.port false c pending written)
        = some (TypeError "input-port" Value.void, Value.port false c pending written)
      ∧ TypeError "input-port" Value.void
        ≠ TypeError "input-port" (Value.port false c pending written) := by
  refine ⟨rfl, rfl, rfl, ?_⟩
  intro h
  simp [TypeError] at h

/-! ## Reading a line -/

theorem readLineLoop_line (res bs : List Char) (rest : List ReadEvent)
    (hbs : ∀ b ∈ bs, b ≠ '\n') :
    readLineLoop res (bs.map ReadEvent.byte ++ ReadEvent.byte '\n' :: rest)
      = ((String.mk (res ++ bs), Value.void), rest) := by
  induction bs generalizing res with
  | nil => simp [readLineLoop]
  | cons b bs ih =>
    have hb : b ≠ '\n' := hbs b (List.mem_cons_self b bs)
    have h := ih (res ++ [b]) (fun x hx => hbs x (List.mem_cons_of_mem b hx))
    simp only [List.append_assoc, List.singleton_append] at h
    simp only [List.map_cons, List.cons_append, readLineLoop, hb, if_false]
    exact h

theorem readLineLoop_eof (res bs : List Char) (hbs : ∀ b ∈ bs, b ≠ '\n') :
    readLineLoop res (bs.map ReadEvent.byte) = (("", EOF_OBJECT), []) := by
  induction bs generalizing res with
  | nil => cases res <;> rfl
  | cons b bs ih =>
    have hb : b ≠ '\n' := hbs b (List.mem_cons_self b bs)
    simp only [List.map_cons, readLineLoop, hb, if_false]
    exact ih _ (fun x hx => hbs x (List.mem_cons_of_mem b hx))

theorem readLineLoop_error (res bs : List Char) (err : GoError) (rest : List ReadEvent)
    (hbs : ∀ b ∈ bs, b ≠ '\n') :
    readLineLoop res (bs.map ReadEvent.byte ++ ReadEvent.error err :: rest)
      = (("", SystemError err), rest) := by
  induction bs generalizing res with
  | nil => cases res <;> rfl
  | cons b bs ih =>
    have hb : b ≠ '\n' := hbs b (List.mem_cons_self b bs)
    simp only [List.map_cons, List.cons_append, readLineLoop, hb, if_false]
    exact ih _ (fun x hx => hbs x (List.mem_cons_of_mem b hx))

/-- C20: on a byte source whose reads deliver the bytes `bs`, none of them
a newline, `ReadLine` returns the string of `bs` with a nil error when a
newline comes next (the newline is consumed, what follows is left in the
source); the empty string with the end-of-file object when the source ends
there, the bytes read being dropped; and the empty string with the system
error of `err` when the next read fails with `err`. -/
theorem readLine_cases (bs : List Char) (rest : List ReadEvent) (err : GoError)
    (hbs : ∀ b ∈ bs, b ≠ '\n') :
    ReadLine (LinePort.reader (bs.map ReadEvent.byte ++ ReadEvent.byte '\n' :: rest))
        = ((String.mk bs, Value.void), LinePort.reader rest)
      ∧ ReadLine (LinePort.reader (bs.map ReadEvent.byte))
        = (("", EOF_OBJECT), LinePort.reader [])
      ∧ ReadLine (LinePort.reader (bs.map ReadEvent.byte ++ ReadEvent.error err :: rest))
        = (("", SystemError err), LinePort.reader rest) := by
  refine ⟨?_, ?_, ?_⟩
  · simp only [ReadLine, readLineLoop_line [] bs rest hbs, List.nil_append]
  · simp only [ReadLine, readLineLoop_eof [] bs hbs]
  · simp only [ReadLine, readLineLoop_error [] bs err rest hbs]

theorem readLine_cases_witness :
    ReadLine (LinePort.reader ("ab".data.map ReadEvent.byte ++ ReadEvent.byte '\n'
        :: [ReadEvent.byte 'c']))
      = ((String.mk "ab".data, Value.void), LinePort.reader [ReadEvent.byte 'c']) :=
  (readLine_cases "ab".data [ReadEvent.byte 'c'] GoError.EINVAL (by decide)).1

/-! ## The Int production and the range of `int` -/

theorem digitVal_of_isDigit (c : Char) (h : isDigit c = true) :
    ∃ d, digitVal c = some d := by
  simp only [isDigit, Bool.and_eq_true, decide_eq_true_eq] at h
  refine ⟨c.toNat - 48, ?_⟩
  have h1 : ¬ c.toNat < 48 := by omega
  simp only [digitVal, h1, if_false, h.2, if_true]

theorem digitsVal_of_digits (ds : List Char) (acc : Nat) (h : ∀ c ∈ ds, isDigit c = true) :
    ∃ m, digitsVal ds acc = some m := by
  induction ds generalizing acc with
  | nil => exact ⟨acc, rfl⟩
  | cons c cs ih =>
    obtain ⟨d, hd⟩ := digitVal_of_isDigit c (h c (List.mem_cons_self c cs))
    simp only [digitsVal, hd]
    exact ih _ (fun x hx => h x (List.mem_cons_of_mem c hx))

/-- The Int production on a run of digits: the integer when its value fits
`int`, the range error otherwise. -/
theorem intAction_digits (c : Char) (cs : List Char) (h : ∀ d ∈ c :: cs, isDigit d = true)
    (m : Nat) (hm : digitsVal (c :: cs) 0 = some m) :
    intAction (String.mk (c :: cs))
      = if m < 2 ^ (intSize - 1) then Value.int m else SystemError GoError.ERANGE := by
  have hc : isDigit c = true := h c (List.mem_cons_self c cs)
  have hplus : c ≠ '+' := by
    rintro rfl
    exact absurd hc (by decide)
  have hminus : c ≠ '-' := by
    rintro rfl
    exact absurd hc (by decide)
  simp only [intAction, Atoi, hplus, hminus, if_false, atoiMag, hm, Bool.false_eq_true]
  split_ifs <;> rfl

/-- C16 (as stated, refuted): the twenty digits of `2 ^ 64` form a lexeme
that the scanner classifies as Int, and the Int production returns a system
error on it: the conversion fails. -/
theorem int_conversion_overflows :
    lexStep "18446744073709551616".data = some (_INT, 20)
      ∧ intAction "18446744073709551616" = SystemError GoError.ERANGE
      ∧ Failed (intAction "18446744073709551616") = true
      ∧ ReadString "18446744073709551616" = some (Throw "system-error" "numerical result out of range") := by
  decide

/-- C16 (amended): every lexeme made of one or more decimal digits is
classified as Int by the scanner and has a decimal value `m`; the Int
production returns the integer `m` when `m` fits Go's `int`, and the system
error of a conversion out of range otherwise; it never fails for another
reason. -/
theorem int_production_on_digits (c : Char) (cs : List Char)
    (h : ∀ d ∈ c :: cs, isDigit d = true) :
    lexStep (c :: cs) = some (_INT, (c :: cs).length)
      ∧ ∃ m, digitsVal (c :: cs) 0 = some m
        ∧ (m < 2 ^ (intSize - 1) → intAction (String.mk (c :: cs)) = Value.int m)
        ∧ (2 ^ (intSize - 1) ≤ m →
            intAction (String.mk (c :: cs)) = SystemError GoError.ERANGE) := by
  refine ⟨lexStep_digits c cs h, ?_⟩
  obtain ⟨m, hm⟩ := digitsVal_of_digits (c :: cs) 0 h
  refine ⟨m, hm, ?_, ?_⟩
  · intro hlt
    rw [intAction_digits c cs h m hm, if_pos hlt]
  · intro hge
    rw [intAction_digits c cs h m hm, if_neg (by omega)]

theorem int_production_on_digits_witness :
    lexStep ('0' :: "42".data) = some (_INT, ('0' :: "42".data).length)
      ∧ ∃ m, digitsVal ('0' :: "42".data) 0 = some m
        ∧ (m < 2 ^ (intSize - 1) → intAction (String.mk ('0' :: "42".data)) = Value.int m)
        ∧ (2 ^ (intSize - 1) ≤ m →
            intAction (String.mk ('0' :: "42".data)) = SystemError GoError.ERANGE) :=
  int_production_on_digits '0' "42".data (by decide)

/-! ## Float and Int lexemes -/

theorem lex_split_float :
    lex = lex.take 6 ++ (_FLOAT, Regex.cat (Regex.plus (Regex.cls isDigit))
      (Regex.opt (Regex.cat (Regex.chr '.') (Regex.plus (Regex.cls isDigit))))) ::
        lex.drop 7 := rfl

/-- A text of digits, a point and digits is scanned as one Float token. -/
theorem lexStep_float (c : Char) (cs fp : List Char)
    (h : ∀ d ∈ c :: cs, isDigit d = true) (hfp : fp ≠ [])
    (hf : ∀ d ∈ fp, isDigit d = true) :
    lexStep (c :: cs ++ '.' :: fp) = some (_FLOAT, (c :: cs ++ '.' :: fp).length) := by
  have hc : isDigit c = true := h c (List.mem_cons_self c cs)
  unfold lexStep
  rw [lex_split_float]
  apply pick_fold_eq (c :: cs ++ '.' :: fp) _ _
  · apply Regex.longest_eq_some _ _ _ (le_refl _)
    · rw [List.take_length, matches_float_iff]
      exact ⟨c :: cs, fp, by simp, h, Or.inr ⟨hfp, hf, rfl⟩⟩
    · intro m h1 h2
      omega
  · intro e he m hm
    have hmem : e ∈ lex := List.mem_of_mem_take he
    simp only [lex, List.take, List.mem_cons, List.mem_singleton, List.not_mem_nil,
      or_false] at he
    have hno : ∀ _ : Nat, firstOK e.1 c = false → False := by
      intro _ hk
      have hno : e.2.longest (c :: (cs ++ '.' :: fp)) = none := lex_no_match e hmem c _ hk
      rw [List.cons_append, hno] at hm
      cases hm
    have hfirst : ∀ x : Char, c = x → isDigit x = true := fun x hx => hx ▸ hc
    rcases he with rfl | rfl | rfl | rfl | rfl | rfl
    · exact (hno 0 (by
        simp only [firstOK, beq_eq_false_iff_ne, ne_eq]
        intro hx; exact absurd (hfirst _ hx) (by decide))).elim
    · exact (hno 0 (by
        simp only [firstOK, beq_eq_false_iff_ne, ne_eq]
        intro hx; exact absurd (hfirst _ hx) (by decide))).elim
    · exact (hno 0 (by
        simp only [firstOK, beq_eq_false_iff_ne, ne_eq]
        intro hx; exact absurd (hfirst _ hx) (by decide))).elim
    · exact (hno 0 (by
        simp only [firstOK, beq_eq_false_iff_ne, ne_eq]
        intro hx; exact absurd (hfirst _ hx) (by decide))).elim
    · exact (hno 0 (by
        simp only [firstOK, beq_eq_false_iff_ne, ne_eq]
        intro hx; exact absurd (hfirst _ hx) (by decide))).elim
    · obtain ⟨hle, hmt, _⟩ := Regex.longest_some _ _ m hm
      rcases Nat.lt_or_ge m (c :: cs ++ '.' :: fp).length with hlt | hge
      · exact hlt
      · exfalso
        rw [List.take_of_length_le hge, Regex.matches_plus_cls] at hmt
        have := hmt.2 '.' (by simp)
        revert this
        decide
  · intro e _ m hm
    exact (Regex.longest_some _ _ m hm).1

/-- The token stream of digits, a point and digits is the single Float
token. -/
theorem NewLex_float (c : Char) (cs fp : List Char)
    (h : ∀ d ∈ c :: cs, isDigit d = true) (hfp : fp ≠ [])
    (hf : ∀ d ∈ fp, isDigit d = true) :
    NewLex (c :: cs ++ '.' :: fp) = ⟨[⟨_FLOAT, String.mk (c :: cs ++ '.' :: fp)⟩], true⟩ := by
  rw [NewLex_eq _ ((c :: cs ++ '.' :: fp).length + 1) (by omega),
    tokens_step _ _ _ _ (by omega) (lexStep_float c cs fp h hfp hf),
    List.take_length, List.drop_length]
  simp [keep, tokens]

theorem readFrom_single_float (s : String) :
    readFrom ⟨[⟨_FLOAT, s⟩], true⟩ = some (floatAction s, ⟨[], true⟩) := by
  simp [readFrom, expr, pegOr, pegBind, term]

theorem ReadString_float (c : Char) (cs fp : List Char)
    (h : ∀ d ∈ c :: cs, isDigit d = true) (hfp : fp ≠ [])
    (hf : ∀ d ∈ fp, isDigit d = true) :
    ReadString (String.mk (c :: cs ++ '.' :: fp))
      = some (floatAction (String.mk (c :: cs ++ '.' :: fp))) := by
  simp only [ReadString, Read, NewReader, NewLex_float c cs fp h hfp hf, readFrom_single_float]

theorem splitDot_digits (ip rest : List Char) (h : ∀ d ∈ ip, isDigit d = true) :
    splitDot (ip ++ '.' :: rest) = (ip, some rest) := by
  induction ip with
  | nil => simp [splitDot]
  | cons a as ih =>
    have ha : a ≠ '.' := by
      rintro rfl
      exact absurd (h _ (List.mem_cons_self _ _)) (by decide)
    have ih2 := ih (fun d hd => h d (List.mem_cons_of_mem a hd))
    simp only [List.cons_append, splitDot, ha, if_false]
    change (a :: (splitDot (as ++ '.' :: rest)).1, (splitDot (as ++ '.' :: rest)).2) = _
    rw [ih2]

/-- The Float production on digits, a point and digits: the decimal with the
digits as mantissa, unless its magnitude is beyond the range of `float`. -/
theorem floatAction_digits (c : Char) (cs fp : List Char)
    (h : ∀ d ∈ c :: cs, isDigit d = true) (hfp : fp ≠ [])
    (m : Nat) (hm : digitsVal (c :: cs ++ fp) 0 = some m) :
    floatAction (String.mk (c :: cs ++ '.' :: fp))
      = if floatLimit * 10 ^ fp.length ≤ m then SystemError GoError.ERANGE
        else Value.float m fp.length := by
  obtain ⟨b, bs, rfl⟩ : ∃ b bs, fp = b :: bs := by
    cases fp with
    | nil => exact absurd rfl hfp
    | cons b bs => exact ⟨b, bs, rfl⟩
  have hs := splitDot_digits (c :: cs) (b :: bs) h
  simp only [floatAction, Atof, hs, hm, atofRange]
  split_ifs <;> rfl

/-- C13 (as stated, refuted): twenty nines are an input of digits only; the
scanner yields one Int token for it, and `ReadString` returns the system
error of a conversion out of range, a failure and not an integer. -/
theorem digits_only_reads_as_failure :
    NewLex "99999999999999999999".data = ⟨[⟨_INT, "99999999999999999999"⟩], true⟩
      ∧ ReadString "99999999999999999999" = some (SystemError GoError.ERANGE)
      ∧ Failed (SystemError GoError.ERANGE) = true := by
  decide

/-- C13 (amended): for every input made of one or more digits, a point and
one or more digits the scanner yields one Float token covering the whole
input, and `ReadString` returns the floating-point value whose mantissa is the
digits and whose scale is the number of digits after the point, or, when that
magnitude is beyond the range of `float`, the system error of a conversion
out of range; it never returns an integer.  For every input of one or more
digits only the scanner yields one Int token, and `ReadString` returns the
integer when it fits Go's `int` and the system error of a conversion out of
range otherwise. -/
theorem float_and_int_lexemes (c : Char) (cs fp : List Char)
    (h : ∀ d ∈ c :: cs, isDigit d = true) (hfp : fp ≠ [])
    (hf : ∀ d ∈ fp, isDigit d = true) :
    NewLex (c :: cs ++ '.' :: fp) = ⟨[⟨_FLOAT, String.mk (c :: cs ++ '.' :: fp)⟩], true⟩
      ∧ (∃ m, digitsVal (c :: cs ++ fp) 0 = some m
          ∧ ReadString (String.mk (c :: cs ++ '.' :: fp))
            = some (if floatLimit * 10 ^ fp.length ≤ m then SystemError GoError.ERANGE
                else Value.float m fp.length))
      ∧ (∀ n, ReadString (String.mk (c :: cs ++ '.' :: fp)) ≠ some (Value.int n))
      ∧ NewLex (c :: cs) = ⟨[⟨_INT, String.mk (c :: cs)⟩], true⟩
      ∧ (∃ k, digitsVal (c :: cs) 0 = some k
          ∧ ReadString (String.mk (c :: cs))
            = some (if k < 2 ^ (intSize - 1) then Value.int k
                else SystemError GoError.ERANGE)) := by
  have hall : ∀ d ∈ c :: cs ++ fp, isDigit d = true := by
    intro d hd
    rcases List.mem_append.mp hd with hd | hd
    · exact h d hd
    · exact hf d hd
  obtain ⟨m, hm⟩ := digitsVal_of_digits (c :: cs ++ fp) 0 hall
  obtain ⟨k, hk⟩ := digitsVal_of_digits (c :: cs) 0 h
  have hread : ReadString (String.mk (c :: cs ++ '.' :: fp))
      = some (if floatLimit * 10 ^ fp.length ≤ m then SystemError GoError.ERANGE
          else Value.float m fp.length) := by
    rw [ReadString_float c cs fp h hfp hf, floatAction_digits c cs fp h hfp m hm]
  refine ⟨NewLex_float c cs fp h hfp hf, ⟨m, hm, hread⟩, ?_, NewLex_digits c cs h, k, hk, ?_⟩
  · intro n hn
    rw [hread] at hn
    split_ifs at hn <;> simp [SystemError, Throw] at hn
  · rw [ReadString_digits c cs h, intAction_digits c cs h k hk]

theorem float_and_int_lexemes_witness :
    NewLex "3.5".data = ⟨[⟨_FLOAT, "3.5"⟩], true⟩
      ∧ ReadString "3.5" = some (Value.float 35 1)
      ∧ NewLex "3".data = ⟨[⟨_INT, "3"⟩], true⟩
      ∧ ReadString "3" = some (Value.int 3) :=
  ⟨(float_and_int_lexemes '3' [] "5".data (by decide) (by decide) (by decide)).1,
    by decide,
    (float_and_int_lexemes '3' [] "5".data (by decide) (by decide) (by decide)).2.2.2.1,
    by decide⟩

/-! ## The splicing marker -/

theorem lex_split_quote :
    lex = lex.take 10 ++ (_QUOTE, Regex.alt (Regex.chr squote) (Regex.alt (Regex.chr bquote)
      (Regex.alt (Regex.chr ',') (Regex.cat (Regex.chr ',') (Regex.chr '@'))))) ::
        lex.drop 11 := rfl

/-- The two characters `,@` are scanned as one Quote token. -/
theorem lexStep_splice (rest : List Char) :
    lexStep (',' :: '@' :: rest) = some (_QUOTE, 2) := by
  unfold lexStep
  rw [lex_split_quote]
  apply pick_fold_eq (',' :: '@' :: rest) _ _
  · apply Regex.longest_eq_some _ _ _ (by simp)
    · rw [matches_quote_iff]
      exact Or.inr (Or.inr (Or.inr rfl))
    · intro m h1 h2 hm
      rw [matches_quote_iff] at hm
      have hlen : ((',' :: '@' :: rest).take m).length = m := by
        rw [List.length_take]; omega
      rcases hm with hm | hm | hm | hm <;>
        · rw [hm] at hlen
          simp only [List.length_cons, List.length_nil] at hlen
          omega
  · intro e he m hm
    have hmem : e ∈ lex := List.mem_of_mem_take he
    have hno : e.2.longest (',' :: '@' :: rest) = none := by
      apply lex_no_match e hmem
      simp only [lex, List.take, List.mem_cons, List.mem_singleton, List.not_mem_nil,
        or_false] at he
      rcases he with rfl | rfl | rfl | rfl | rfl | rfl | rfl | rfl | rfl | rfl <;> decide
    rw [hno] at hm
    cases hm
  · intro e he m hm
    have hmem : e ∈ lex := List.mem_of_mem_drop he
    have hno : e.2.longest (',' :: '@' :: rest) = none := by
      apply lex_no_match e hmem
      simp only [lex, List.drop, List.mem_cons, List.mem_singleton, List.not_mem_nil,
        or_false] at he
      rcases he with rfl | rfl <;> decide
    rw [hno] at hm
    cases hm

theorem NewLex_splice (rest : List Char) :
    NewLex (',' :: '@' :: rest)
      = ⟨⟨_QUOTE, ",@"⟩ :: (NewLex rest).toks, (NewLex rest).clean⟩ := by
  have h2 : tokens (rest.length + 3) (',' :: '@' :: rest)
      = (⟨_QUOTE, ",@"⟩ :: (tokens (rest.length + 3) rest).1,
          (tokens (rest.length + 3) rest).2) := by
    rw [tokens_step _ _ _ _ (by simp) (lexStep_splice rest)]
    rfl
  rw [NewLex_eq (',' :: '@' :: rest) (rest.length + 3) (by simp), h2,
    tokens_fuel (rest.length + 3) (rest.length + 1) rest (by omega) (by omega)]
  rfl

/-- Reading a stream that starts with a Quote token: the value of the
expression that follows, wrapped by the quote action. -/
theorem readFrom_quote (q : String) (ts r : List Token) (clean : Bool) (x : Value)
    (fuel : Nat) (hnp : noPanic ts = true) (hx : expr fuel ts = some (Outcome.ok x r)) :
    readFrom ⟨⟨_QUOTE, q⟩ :: ts, clean⟩ = some (quoteAction (q, x), ⟨r, clean⟩) := by
  have h1 : expr (max fuel (ts.length + 1)) ts = some (Outcome.ok x r) :=
    expr_mono_le fuel _ (le_max_left _ _) ts _ hx
  rw [expr_fuel_adequate _ ts (by omega) hnp] at h1
  have key : ∀ g, expr g ts = some (Outcome.ok x r) →
      expr (g + 1) (⟨_QUOTE, q⟩ :: ts) = some (Outcome.ok (quoteAction (q, x)) r) := by
    intro g hg
    simp [expr, pegOr, pegBind, pegAnd, pegAnd3, listExpr, term, hg]
  simp only [readFrom, pegOr, List.length_cons]
  rw [key _ h1]

/-! ## The characters of a symbol -/

theorem tokens_symbol_chars (f : Nat) (src : List Char) :
    ∀ t ∈ (tokens f src).1, t.kind = _SYMBOL →
      t.lexeme.data ≠ [] ∧ ∀ c ∈ t.lexeme.data, c ∉ symbolExcluded := by
  induction f generalizing src with
  | zero => intro t ht; simp [tokens] at ht
  | succ f ih =>
    cases src with
    | nil => intro t ht; simp [tokens] at ht
    | cons c cs =>
      cases hl : lexStep (c :: cs) with
      | none => intro t ht; simp [tokens, hl] at ht
      | some kn =>
        obtain ⟨k, n⟩ := kn
        intro t ht hk
        simp only [tokens, hl] at ht
        by_cases hkeep : keep k = true
        · simp only [hkeep, if_true, List.mem_cons] at ht
          rcases ht with rfl | ht
          · simp only at hk
            subst hk
            obtain ⟨e, he, hek, _, hem⟩ := lexStep_winner _ _ _ hl
            rw [lex_entry_symbol e he hek, matches_symbol_iff] at hem
            exact hem
          · exact ih _ t ht hk
        · simp only [hkeep, if_false, Bool.false_eq_true] at ht
          exact ih _ t ht hk

/-- C15 (as stated, refuted): `a.b` is scanned as one Symbol token whose
lexeme contains the point, and `(a .b)` as a bracket, the Symbol `a`, the
Symbol `.b` and a bracket. -/
theorem point_inside_symbol :
    NewLex "a.b".data = ⟨[⟨_SYMBOL, "a.b"⟩], true⟩
      ∧ '.' ∈ "a.b".data
      ∧ NewLex "(a .b)".data
          = ⟨[⟨_LSTART, "("⟩, ⟨_SYMBOL, "a"⟩, ⟨_SYMBOL, ".b"⟩, ⟨_LEND, ")"⟩], true⟩
      ∧ '.' ∈ ".b".data := by
  decide

/-- C15 (amended): for every input, the lexeme of every Symbol token that the
scanner produces is not empty and contains no bracket `(`, `)`, `[`, `]`, no
quote marker (straight quote, backquote, `,`), no `@`, `#` or double quote and
no whitespace; a point may occur in it. -/
theorem symbol_lexeme_chars (src : List Char) (t : Token)
    (ht : t ∈ (NewLex src).toks) (hk : t.kind = _SYMBOL) :
    t.lexeme.data ≠ []
      ∧ ∀ c ∈ t.lexeme.data,
          c ≠ '(' ∧ c ≠ ')' ∧ c ≠ '[' ∧ c ≠ ']' ∧ c ≠ squote ∧ c ≠ bquote ∧ c ≠ ','
            ∧ c ≠ '@' ∧ c ≠ '#' ∧ c ≠ dquote ∧ isSpace c = false := by
  obtain ⟨h1, h2⟩ := tokens_symbol_chars _ src t ht hk
  refine ⟨h1, ?_⟩
  intro c hc
  have hx := h2 c hc
  refine ⟨?_, ?_, ?_, ?_, ?_, ?_, ?_, ?_, ?_, ?_, ?_⟩
  any_goals
    rintro rfl
    exact hx (by decide)
  cases hs : isSpace c with
  | false => rfl
  | true =>
    exfalso
    rcases isSpace_cases c hs with rfl | rfl | rfl | rfl <;> exact hx (by decide)

theorem symbol_lexeme_chars_witness :
    (⟨_SYMBOL, "a.b"⟩ : Token).lexeme.data ≠ []
      ∧ ∀ c ∈ (⟨_SYMBOL, "a.b"⟩ : Token).lexeme.data,
          c ≠ '(' ∧ c ≠ ')' ∧ c ≠ '[' ∧ c ≠ ']' ∧ c ≠ squote ∧ c ≠ bquote ∧ c ≠ ','
            ∧ c ≠ '@' ∧ c ≠ '#' ∧ c ≠ dquote ∧ isSpace c = false :=
  symbol_lexeme_chars "(x a.b)".data ⟨_SYMBOL, "a.b"⟩ (by decide) rfl

/-! ## One expression per call -/

/-- C17: when `Read` on the tokens of one complete expression returns the
value `v` and consumes them all, then on every stream that continues those
tokens with further tokens `Read` returns the same `v` and leaves exactly the
further tokens, whatever they are; `1 2` reads as `1` with ` 2` left pending
in the port, and `(a) )` reads as the list `(a)`. -/
theorem read_first_expression (t : Token) (xs rest : List Token) (c0 clean : Bool)
    (v : Value) (h : readFrom ⟨t :: xs, c0⟩ = some (v, ⟨[], c0⟩)) :
    readFrom ⟨t :: xs ++ rest, clean⟩ = some (v, ⟨rest, clean⟩)
      ∧ Read (NewReader "1 2") = some (Value.int 1, Value.port true false " 2" "")
      ∧ ReadString "(a) )" = some (mkList [Symbol "a"]) := by
  refine ⟨?_, by decide, by decide⟩
  rw [readFrom_ok_iff t xs [] c0 v (by simp)] at h
  obtain ⟨ys, hys, hloc⟩ := expr_local _ _ _ _ h
  rw [List.append_nil] at hys
  have h1 := hloc rest
  rw [← hys] at h1
  rw [List.cons_append, readFrom_ok_iff t (xs ++ rest) rest clean v
    (by simp only [List.length_cons, List.length_append]; omega)]
  exact expr_mono_le _ _ (by simp) _ _ h1

theorem read_first_expression_witness :
    readFrom ⟨⟨_INT, "1"⟩ :: [] ++ [⟨_LEND, ")"⟩, ⟨_INT, "2"⟩], false⟩
      = some (Value.int 1, ⟨[⟨_LEND, ")"⟩, ⟨_INT, "2"⟩], false⟩) :=
  (read_first_expression ⟨_INT, "1"⟩ [] [⟨_LEND, ")"⟩, ⟨_INT, "2"⟩] true false
    (Value.int 1) (by decide)).1

/-! ## The syntax error of `Read` -/

theorem pegOr_inv {α : Type} (ps : List (Parser α)) (ts r : List Token) (v : α)
    (h : pegOr ps ts = some (Outcome.ok v r)) : ∃ p ∈ ps, p ts = some (Outcome.ok v r) := by
  induction ps with
  | nil => simp [pegOr] at h
  | cons p ps ih =>
    simp only [pegOr] at h
    cases hp : p ts with
    | none => rw [hp] at h; cases h
    | some o =>
      cases o with
      | fail =>
        rw [hp] at h
        obtain ⟨q, hq, hq2⟩ := ih h
        exact ⟨q, List.mem_cons_of_mem p hq, hq2⟩
      | ok w r2 =>
        rw [hp] at h
        exact ⟨p, List.mem_cons_self p ps, by rw [hp]; exact h⟩

theorem pegMulti_elems {α : Type} (m : Nat) (p : Parser α) (ts r : List Token) (es : List α)
    (h : pegMulti m p ts = some (Outcome.ok es r)) :
    ∀ e ∈ es, ∃ ts1 r1, p ts1 = some (Outcome.ok e r1) := by
  induction m generalizing ts es with
  | zero => simp [pegMulti] at h
  | succ m ih =>
    simp only [pegMulti] at h
    cases hp : p ts with
    | none => rw [hp] at h; cases h
    | some o =>
      cases o with
      | fail =>
        rw [hp] at h
        simp only [Option.some.injEq, Outcome.ok.injEq] at h
        intro e he
        rw [← h.1] at he
        cases he
      | ok w r2 =>
        rw [hp] at h
        simp only at h
        cases hm : pegMulti m p r2 with
        | none => rw [hm] at h; cases h
        | some o2 =>
          cases o2 with
          | fail => rw [hm] at h; cases h
          | ok ws r3 =>
            rw [hm] at h
            simp only [Option.some.injEq, Outcome.ok.injEq] at h
            obtain ⟨hes, hr⟩ := h
            subst hr
            intro e he
            rw [← hes] at he
            rcases List.mem_cons.mp he with rfl | he
            · exact ⟨ts, r2, hp⟩
            · exact ih r2 ws hm e he

theorem consBack_cases (xs : List Value) (res : Value) :
    consBack xs res = res ∨ consBack xs res ∈ xs ∨ ∃ a d, consBack xs res = Value.pair a d := by
  induction xs generalizing res with
  | nil => exact Or.inl rfl
  | cons x xs ih =>
    by_cases hx : Failed x = true
    · simp [consBack, hx]
    · simp only [consBack, hx, if_false, Bool.false_eq_true]
      rcases ih (Cons x res) with h | h | h
      · exact Or.inr (Or.inr ⟨x, res, h⟩)
      · exact Or.inr (Or.inl (List.mem_cons_of_mem x h))
      · exact Or.inr (Or.inr h)

theorem innerAction_cases (es : List Value) (res : Value) :
    innerAction (some (es, res)) = res ∨ innerAction (some (es, res)) ∈ es
      ∨ ∃ a d, innerAction (some (es, res)) = Value.pair a d := by
  by_cases hres : Failed res = true
  · simp [innerAction, hres]
  · simp only [innerAction, hres, if_false, Bool.false_eq_true]
    rcases consBack_cases es.reverse res with h | h | h
    · exact Or.inl h
    · exact Or.inr (Or.inl (List.mem_reverse.mp h))
    · exact Or.inr (Or.inr h)

theorem systemError_ne_parse (err : GoError) :
    SystemError err ≠ Value.failure "syntax-error" "failed to parse" := by
  simp only [SystemError, Throw, ne_eq, Value.failure.injEq, not_and]
  intro h
  exact absurd h (by decide)

theorem hash_message_ne (l : String) : "unknown hash syntax: " ++ l ≠ "failed to parse" := by
  intro h
  have h2 := congrArg String.data h
  rw [String.data_append] at h2
  have h3 : ("unknown hash syntax: ".data ++ l.data).head? = some 'u' := rfl
  have h4 : "failed to parse".data.head? = some 'f' := rfl
  rw [h2, h4] at h3
  revert h3
  decide

/-- The value of a list form is not the syntax error of `Read` unless the
value of one of its parts is. -/
theorem listExpr_ne_parse (f : Nat) (start fin : Parser String)
    (ih : ∀ ts v r, expr f ts = some (Outcome.ok v r) →
      v ≠ Value.failure "syntax-error" "failed to parse")
    (ts r : List Token) (v : Value)
    (h : listExpr f start (expr f) fin ts = some (Outcome.ok v r)) :
    v ≠ Value.failure "syntax-error" "failed to parse" := by
  obtain ⟨l0, ts1, es, ts2, t, ts3, l1, _, hmulti, htail, _, rfl⟩ :=
    listExpr_inv _ _ _ _ _ _ _ h
  have hes := pegMulti_elems _ _ _ _ _ hmulti
  have ht : tailAction t ≠ Value.failure "syntax-error" "failed to parse" := by
    rcases pegOption_inv _ _ _ _ htail with ⟨w, rfl, hw⟩ | ⟨rfl, _, _⟩
    · obtain ⟨x, hx, hsel⟩ := pegBind_inv _ _ _ _ _ hw
      obtain ⟨r1, _, hrec⟩ := pegAnd_inv _ _ _ _ _ hx
      simp only [select1of2, Option.some.injEq] at hsel
      subst hsel
      exact ih _ _ _ hrec
    · simp [tailAction, EMPTY_LIST]
  rcases innerAction_cases es (tailAction t) with h1 | h1 | ⟨a, d, h1⟩
  · rw [h1]; exact ht
  · obtain ⟨ts4, r4, h4⟩ := hes _ h1
    exact ih _ _ _ h4
  · rw [h1]; simp

/-- The root grammar never returns the syntax error with the message of
`Read` as the value of an expression. -/
theorem expr_ne_parse (fuel : Nat) : ∀ ts v r, expr fuel ts = some (Outcome.ok v r) →
    v ≠ Value.failure "syntax-error" "failed to parse" := by
  induction fuel with
  | zero => intro ts v r h; simp [expr] at h
  | succ f ih =>
    intro ts v r h
    rw [expr] at h
    obtain ⟨p, hp, hpv⟩ := pegOr_inv _ _ _ _ h
    simp only [List.mem_cons, List.mem_singleton, List.not_mem_nil, or_false] at hp
    rcases hp with rfl | rfl | rfl | rfl | rfl | rfl | rfl | rfl
    · obtain ⟨l, _, hl⟩ := pegBind_inv _ _ _ _ _ hpv
      simp only [Option.some.injEq] at hl
      subst hl
      simp only [intAction]
      split
      · exact systemError_ne_parse _
      · simp
    · obtain ⟨l, _, hl⟩ := pegBind_inv _ _ _ _ _ hpv
      simp only [Option.some.injEq] at hl
      subst hl
      simp only [floatAction]
      split
      · exact systemError_ne_parse _
      · simp
    · obtain ⟨l, _, hl⟩ := pegBind_inv _ _ _ _ _ hpv
      simp only [Option.some.injEq] at hl
      subst hl
      simp only [strAction]
      split
      · exact systemError_ne_parse _
      · simp
    · exact listExpr_ne_parse f _ _ ih ts r v hpv
    · exact listExpr_ne_parse f _ _ ih ts r v hpv
    · obtain ⟨l, _, hl⟩ := pegBind_inv _ _ _ _ _ hpv
      simp only [Option.some.injEq] at hl
      subst hl
      simp only [quoteAction, mkList, List.foldr, Cons]
      split_ifs <;> simp
    · obtain ⟨l, _, hl⟩ := pegBind_inv _ _ _ _ _ hpv
      simp only [Option.some.injEq] at hl
      subst hl
      simp [symbolAction, Symbol]
    · obtain ⟨l, _, hl⟩ := pegBind_inv _ _ _ _ _ hpv
      simp only [hashAction] at hl
      split at hl
      · cases hl
      · split_ifs at hl <;> simp only [Option.some.injEq] at hl <;> subst hl
        · simp
        · simp
        · simp
        · simp only [SyntaxError, Throw, ne_eq, Value.failure.injEq, not_and]
          intro _
          exact hash_message_ne l

/-- C11: on a stream free of panics, `Read` returns the syntax error with
the message `failed to parse`, leaving the stream as it was, exactly when the
root grammar fails to match and the end of input does not match either; the
end of input never matches a stream that is not empty, so on every such
stream where the root grammar fails `Read` returns that failure; a lone `)`,
the unterminated `(a b` and the mismatched `(a]` all read as that failure. -/
theorem read_failed_to_parse (src : Stream) (hnp : noPanic src.toks = true) :
    (readFrom src = some (Throw "syntax-error" "failed to parse", src)
        ↔ (∃ fuel, expr fuel src.toks = some Outcome.fail)
            ∧ pegEof src.clean src.toks = some Outcome.fail)
      ∧ (∀ s, readFrom src = some (Throw "syntax-error" "failed to parse", s) → s = src)
      ∧ (src.toks ≠ [] → pegEof src.clean src.toks = some Outcome.fail)
      ∧ ReadString ")" = some (Throw "syntax-error" "failed to parse")
      ∧ ReadString "(a b" = some (Throw "syntax-error" "failed to parse")
      ∧ ReadString "(a]" = some (Throw "syntax-error" "failed to parse") := by
  have hcases : ∀ s, readFrom src = some (Throw "syntax-error" "failed to parse", s) →
      expr (src.toks.length + 1) src.toks = some Outcome.fail
        ∧ pegEof src.clean src.toks = some Outcome.fail ∧ s = src := by
    intro s h
    simp only [readFrom, pegOr] at h
    cases he : expr (src.toks.length + 1) src.toks with
    | none => rw [he] at h; cases h
    | some o =>
      cases o with
      | ok v r =>
        rw [he] at h
        simp only [Option.some.injEq, Prod.mk.injEq] at h
        exact absurd h.1 (expr_ne_parse _ _ _ _ he)
      | fail =>
        rw [he] at h
        refine ⟨rfl, ?_⟩
        cases hq : pegEof src.clean src.toks with
        | none =>
          simp only [pegBind, hq] at h
          cases h
        | some o2 =>
          cases o2 with
          | fail =>
            simp only [pegBind, hq, Option.some.injEq, Prod.mk.injEq] at h
            exact ⟨rfl, h.2.symm⟩
          | ok u r2 =>
            simp only [pegBind, hq, Option.some.injEq, Prod.mk.injEq] at h
            exact absurd h.1 (by simp [EOF_OBJECT, Throw])
  refine ⟨⟨?_, ?_⟩, ?_, ?_, by decide, by decide, by decide⟩
  · intro h
    obtain ⟨h1, h2, _⟩ := hcases src h
    exact ⟨⟨_, h1⟩, h2⟩
  · rintro ⟨⟨fuel, hf⟩, hq⟩
    have h1 : expr (max fuel (src.toks.length + 1)) src.toks = some Outcome.fail :=
      expr_mono_le fuel _ (le_max_left _ _) _ _ hf
    rw [expr_fuel_adequate _ _ (by omega) hnp] at h1
    simp only [readFrom, pegOr, h1, pegBind, hq]
  · intro s h
    exact (hcases s h).2.2
  · intro hne
    cases hs : src.toks with
    | nil => exact absurd hs hne
    | cons t ts => rfl

theorem read_failed_to_parse_witness :
    readFrom ⟨[⟨_LSTART, "("⟩, ⟨_SYMBOL, "a"⟩, ⟨_LEND2, "]"⟩], true⟩
      = some (Throw "syntax-error" "failed to parse",
          ⟨[⟨_LSTART, "("⟩, ⟨_SYMBOL, "a"⟩, ⟨_LEND2, "]"⟩], true⟩) :=
  (read_failed_to_parse ⟨[⟨_LSTART, "("⟩, ⟨_SYMBOL, "a"⟩, ⟨_LEND2, "]"⟩], true⟩
    (by decide)).1.mpr ⟨⟨4, by decide⟩, by decide⟩

/-! ## The splicing marker under ordered trial -/

theorem quotePattern_in_lex : (_QUOTE, quotePattern) ∈ lex := by
  simp [lex, quotePattern]

theorem quotePattern_first (rest : List Char) :
    quotePattern.first (',' :: '@' :: rest) = some 1 := by
  simp [quotePattern, Regex.first, Regex.parses, Regex.chr, squote, bquote]

theorem quotePatternSpec_first (rest : List Char) :
    quotePatternSpec.first (',' :: '@' :: rest) = some 2 := by
  simp [quotePatternSpec, Regex.first, Regex.parses, Regex.chr, squote, bquote]
  omega

/-- A pattern of the table whose kind does not admit the first character of
the text has no match there under ordered trial either. -/
theorem lex_first_none (e : Terminal × Regex) (he : e ∈ lex) (c : Char) (cs : List Char)
    (hc : firstOK e.1 c = false) : e.2.first (c :: cs) = none := by
  simp only [lex, List.mem_cons, List.mem_singleton, List.not_mem_nil, or_false] at he
  rcases he with rfl | rfl | rfl | rfl | rfl | rfl | rfl | rfl | rfl | rfl | rfl | rfl | rfl <;>
    simp only [firstOK, Bool.or_eq_false_iff] at hc <;>
    simp [Regex.first, Regex.parses, Regex.chr, Regex.plus, Regex.opt, Regex.noneOf,
      Regex.any, hc]
  intro h
  simp at hc
  exact absurd hc h

theorem pickFirst_fold_none (s : List Char) (l : List (Terminal × Regex))
    (b : Option (Terminal × Nat)) (h : ∀ e ∈ l, e.2.first s = none) :
    l.foldl (pickFirst s) b = b := by
  induction l generalizing b with
  | nil => rfl
  | cons x xs ih =>
    simp only [List.foldl_cons, pickFirst, h x (List.mem_cons_self x xs)]
    exact ih b (fun e he => h e (List.mem_cons_of_mem x he))

theorem lexStepFirst_splice (rest : List Char) :
    lexStepFirst lex (',' :: '@' :: rest) = some (_QUOTE, 1) := by
  have hq := quotePattern_first rest
  simp only [quotePattern] at hq
  have hpre : ∀ e ∈ lex.take 10, e.2.first (',' :: '@' :: rest) = none := by
    intro e he
    apply lex_first_none e (List.mem_of_mem_take he)
    simp only [lex, List.take, List.mem_cons, List.mem_singleton, List.not_mem_nil,
      or_false] at he
    rcases he with rfl | rfl | rfl | rfl | rfl | rfl | rfl | rfl | rfl | rfl <;> decide
  have hpost : ∀ e ∈ lex.drop 11, e.2.first (',' :: '@' :: rest) = none := by
    intro e he
    apply lex_first_none e (List.mem_of_mem_drop he)
    simp only [lex, List.drop, List.mem_cons, List.mem_singleton, List.not_mem_nil,
      or_false] at he
    rcases he with rfl | rfl <;> decide
  unfold lexStepFirst
  rw [lex_split_quote, List.foldl_append, List.foldl_cons,
    pickFirst_fold_none _ _ _ hpre, pickFirst_fold_none _ _ _ hpost]
  simp only [pickFirst, hq]

theorem lexStepFirst_at (rest : List Char) : lexStepFirst lex ('@' :: rest) = none := by
  apply pickFirst_fold_none
  intro e he
  apply lex_first_none e he
  simp only [lex, List.mem_cons, List.mem_singleton, List.not_mem_nil, or_false] at he
  rcases he with rfl | rfl | rfl | rfl | rfl | rfl | rfl | rfl | rfl | rfl | rfl | rfl | rfl <;>
    decide

/-- Under ordered trial every text that begins with `,@` is scanned as the
Quote token `,` followed by a scan failure at `@`. -/
theorem NewLexFirst_splice (rest : List Char) :
    NewLexFirst lex (',' :: '@' :: rest) = ⟨[⟨_QUOTE, ","⟩], false⟩ := by
  simp only [NewLexFirst, List.length_cons, tokensFirst, lexStepFirst_splice rest]
  simp only [List.drop_succ_cons, List.drop_zero, tokensFirst, lexStepFirst_at rest]
  rfl

/-- C14 (code bug): the Quote pattern of the table is written with `,`
before `,@`.  When the alternatives of a pattern are tried in the order
written, which is what the spec asks for, the pattern matches only the `,` of
every text that begins with `,@`: the scanner yields the Quote token `,`, no
pattern matches at `@`, and `ReadString` returns the syntax error
`failed to parse` instead of `(unquote-splicing x)`.  With the two
alternatives in the order the spec asks for, the same scanner yields the one
token `,@` and `,@x` reads as `(unquote-splicing x)`.  With the order as
written the two-character marker is found only by a scanner that takes the
longest alternative of a pattern whatever the order. -/
theorem splice_marker_shadowed (rest : List Char) :
    (_QUOTE, quotePattern) ∈ lex
      ∧ quotePattern.first (',' :: '@' :: rest) = some 1
      ∧ lexStepFirst lex (',' :: '@' :: rest) = some (_QUOTE, 1)
      ∧ lexStepFirst lex ('@' :: rest) = none
      ∧ NewLexFirst lex (',' :: '@' :: rest) = ⟨[⟨_QUOTE, ","⟩], false⟩
      ∧ ReadStringFirst lex (String.mk (',' :: '@' :: rest))
          = some (Throw "syntax-error" "failed to parse")
      ∧ ReadStringFirst lex ",@x" ≠ some (mkList [Symbol "unquote-splicing", Symbol "x"])
      ∧ quotePatternSpec.first (',' :: '@' :: rest) = some 2
      ∧ NewLexFirst lexSpec ",@x".data = ⟨[⟨_QUOTE, ",@"⟩, ⟨_SYMBOL, "x"⟩], true⟩
      ∧ ReadStringFirst lexSpec ",@x"
          = some (mkList [Symbol "unquote-splicing", Symbol "x"])
      ∧ lexStep (',' :: '@' :: rest) = some (_QUOTE, 2)
      ∧ ReadString ",@x" = some (mkList [Symbol "unquote-splicing", Symbol "x"]) := by
  have hread : ReadStringFirst lex (String.mk (',' :: '@' :: rest))
      = some (Throw "syntax-error" "failed to parse") := by
    simp only [ReadStringFirst, NewLexFirst_splice rest]
    decide
  refine ⟨quotePattern_in_lex, quotePattern_first rest, lexStepFirst_splice rest,
    lexStepFirst_at rest, NewLexFirst_splice rest, hread, by decide,
    quotePatternSpec_first rest, by decide, by decide, lexStep_splice rest, by decide⟩

end Lisp
